import Mathlib

/-!
# Commute optimizer: graph store, path finder and map loader

Shallow embedding of `Without_GUI/graphV1.h` (classes `Edge`, `Node`,
`PathDetails`, `Graph`), `map.h` (class `Map`) and the add-location and add-route
handlers of the two `main.cpp` files.

Modelling conventions
* `int` is `Int` (table sizes stay far below `INT_MAX`, so no wrap-around is modelled).
* `double` is `Dbl`: a NaN, the two infinities, or a finite value carried as the
  rational it denotes.  Comparison and addition follow IEEE-754 binary64: the sum of
  two finite values is the exact sum rounded to the nearest binary64 value, a tie going
  to the even significand, and a sum at or beyond `2^1024 - 2^970` in magnitude is an
  infinity (`round64`).  The two signed zeros are identified.  The values of the C++
  type are the terms with `Dbl.isDouble`; every sum is one.
* `vector<T>` is `List T`; `operator[]` with an index outside the vector is undefined
  behaviour in C++ and is reported as `Fault.outOfBounds`.
* `while` loops run on a fuel counter; running out of fuel is `Fault.outOfFuel`.
* The nodes file is its text, a `List Char`, read by the formatted extractions
  `>> int` and `>> string`; the edges file is the list of its parsed records.
-/

namespace CommuteOptimizer

set_option autoImplicit false
set_option linter.unnecessarySeqFocus false

/-! ## Numbers and containers -/

/-- Values of the C++ type `double`. -/
inductive Dbl where
  | nan
  | ninf
  | fin (q : ℚ)
  | pinf
  deriving DecidableEq

namespace Dbl

/-- The constant `DOUBLE_INF`. -/
def DOUBLE_INF : Dbl := pinf

/-- The literal `0.0`. -/
def zero : Dbl := fin 0

/-- Number of binary digits of `n`, counted in at most `f` halvings. -/
def bitLenAux : Nat → Nat → Nat
  | 0, _ => 0
  | f + 1, n => if n = 0 then 0 else bitLenAux f (n / 2) + 1

/-- Number of binary digits of `n` (`0` for `n = 0`). -/
def bitLen (n : Nat) : Nat := bitLenAux n n

/-- Rounding of a rational to the nearest integer, a tie going to the even one. -/
def roundEven (x : ℚ) : Int :=
  if x - ⌊x⌋ < 1 / 2 then ⌊x⌋
  else if 1 / 2 < x - ⌊x⌋ then ⌊x⌋ + 1
  else if ⌊x⌋ % 2 = 0 then ⌊x⌋ else ⌊x⌋ + 1

/-- Exponent of the grid spacing at the magnitude `A`, counted in units of the
smallest subnormal `2^-1074`: magnitudes below `2^53` units lie on the integers, and
each further binary digit doubles the spacing (53 significant digits are kept). -/
def gridExp (A : ℚ) : Nat := bitLen ⌊A⌋₊ - 53

/-- The magnitude `A >= 0`, in units of `2^-1074`, rounded to the binary64 grid. -/
def roundGrid (A : ℚ) : ℚ := (roundEven (A / 2 ^ gridExp A) : ℚ) * 2 ^ gridExp A

/-- The unit `2^-1074` inverted: the factor that makes every finite binary64 value an
integer. -/
def scale : ℚ := 2 ^ 1074

/-- The first magnitude that is no finite binary64 value, `2^1024`, in units of
`2^-1074`. -/
def limit : ℚ := 2 ^ 2098

/-- Rounding of a real result to binary64 in the default mode (to nearest, ties to
even): the magnitude is rounded on the grid, and a rounded magnitude of `2^1024` or
more is an infinity. -/
def round64 (q : ℚ) : Dbl :=
  if 0 ≤ q then
    if limit ≤ roundGrid (q * scale) then pinf else fin (roundGrid (q * scale) / scale)
  else
    if limit ≤ roundGrid (-q * scale) then ninf
    else fin (-(roundGrid (-q * scale) / scale))

/-- A value of the C++ type `double`: NaN, an infinity, or a finite value that binary64
represents (rounding leaves it as it is). -/
def isDouble : Dbl → Bool
  | fin q => decide (round64 q = fin q)
  | _ => true

/-- Floating addition `a + b`. -/
def add : Dbl → Dbl → Dbl
  | nan, _ => nan
  | ninf, nan => nan
  | ninf, pinf => nan
  | ninf, _ => ninf
  | fin _, nan => nan
  | fin _, ninf => ninf
  | fin a, fin b => round64 (a + b)
  | fin _, pinf => pinf
  | pinf, nan => nan
  | pinf, ninf => nan
  | pinf, _ => pinf

/-- Comparison `a < b` (false as soon as one side is NaN). -/
def lt : Dbl → Dbl → Bool
  | nan, _ => false
  | ninf, ninf => false
  | ninf, nan => false
  | ninf, _ => true
  | fin _, nan => false
  | fin _, ninf => false
  | fin a, fin b => decide (a < b)
  | fin _, pinf => true
  | pinf, _ => false

/-- Comparison `a <= b` (false as soon as one side is NaN). -/
def le : Dbl → Dbl → Bool
  | nan, _ => false
  | ninf, nan => false
  | ninf, _ => true
  | fin _, nan => false
  | fin _, ninf => false
  | fin a, fin b => decide (a ≤ b)
  | fin _, pinf => true
  | pinf, pinf => true
  | pinf, _ => false

/-- Comparison `a != b` (true as soon as one side is NaN). -/
def ne : Dbl → Dbl → Bool
  | nan, _ => true
  | _, nan => true
  | a, b => decide (a ≠ b)

/-- A finite value. -/
def isFinite : Dbl → Bool
  | fin _ => true
  | _ => false

end Dbl

/-- Ways in which the run of a function can fail to produce a value. -/
inductive Fault where
  | outOfBounds
  | outOfFuel
  deriving DecidableEq

deriving instance DecidableEq for Except

/-- Read `v[i]` of a vector with an `int` index. -/
def vget {α : Type} (v : List α) (i : Int) : Except Fault α :=
  if 0 ≤ i then
    match v[i.toNat]? with
    | some a => .ok a
    | none => .error .outOfBounds
  else .error .outOfBounds

/-- Write `v[i] = a` of a vector with an `int` index. -/
def vset {α : Type} (v : List α) (i : Int) (a : α) : Except Fault (List α) :=
  if 0 ≤ i ∧ i.toNat < v.length then .ok (v.set i.toNat a) else .error .outOfBounds

/-- The call `v.resize(n)`: truncate, or pad with default-constructed elements. -/
def vresize {α : Type} (dflt : α) (v : List α) (n : Nat) : List α :=
  v.take n ++ List.replicate (n - v.length) dflt

/-! ## Data model (`graphV1.h`) -/

/-- Class `Edge`: one adjacency entry. -/
structure Edge where
  destination_node_id : Int
  weight : Dbl
  deriving DecidableEq

/-- Class `Node`; the default constructor gives `id = -1`, an empty name, no edges. -/
structure Node where
  id : Int := -1
  name : String := ""
  edges : List Edge := []
  deriving DecidableEq

/-- Struct `PathDetails` with its default member initialisers. -/
structure PathDetails where
  total_weight : Dbl := Dbl.DOUBLE_INF
  num_stops : Int := -1
  node_ids_in_path : List Int := []
  path_exists : Bool := false
  deriving DecidableEq

/-- Class `Graph`: the node table and the explicitly tracked node count. -/
structure Graph where
  nodes_list : List Node := []
  numNodes : Int := 0
  deriving DecidableEq

namespace Graph

/-- Constructor `Graph(int n = 0)`. -/
def mk_n (n : Nat) : Graph :=
  { nodes_list := (List.range n).map (fun i => { id := (i : Int) }), numNodes := n }

/-- The loop `for (i = numNodes; i <= id; ++i) nodes_list[i].id = i` of `addNode`. -/
def setIds (v : List Node) : Nat → Int → Except Fault (List Node)
  | 0, _ => .ok v
  | k + 1, i =>
    match vget v i with
    | .error f => .error f
    | .ok nd =>
      match vset v i { nd with id := i } with
      | .error f => .error f
      | .ok v1 => setIds v1 k (i + 1)

/-- Method `Graph::addNode(id, name)`. -/
def addNode (g : Graph) (id : Int) (name : String) : Except Fault Graph :=
  if id ≥ g.numNodes then
    let v := vresize ({} : Node) g.nodes_list (id + 1).toNat
    match setIds v (id + 1 - g.numNodes).toNat g.numNodes with
    | .error f => .error f
    | .ok v1 =>
      match vset v1 id { id := id, name := name } with
      | .error f => .error f
      | .ok v2 => .ok { nodes_list := v2, numNodes := id + 1 }
  else
    match vset g.nodes_list id { id := id, name := name } with
    | .error f => .error f
    | .ok v2 => .ok { g with nodes_list := v2 }

/-- Method `Graph::addEdge(source_id, destination_id, weight)`: the bounds test only
writes a message to `cerr`; both `push_back` calls are made in every case. -/
def addEdge (g : Graph) (source_id destination_id : Int) (weight : Dbl) : Except Fault Graph :=
  match vget g.nodes_list source_id with
  | .error f => .error f
  | .ok src =>
    match vset g.nodes_list source_id
        { src with edges := src.edges ++ [⟨destination_id, weight⟩] } with
    | .error f => .error f
    | .ok v1 =>
      match vget v1 destination_id with
      | .error f => .error f
      | .ok dst =>
        match vset v1 destination_id
            { dst with edges := dst.edges ++ [⟨source_id, weight⟩] } with
        | .error f => .error f
        | .ok v2 => .ok { g with nodes_list := v2 }

/-- Method `Graph::getNumNodes`. -/
def getNumNodes (g : Graph) : Int := g.numNodes

/-! ### Weighted search -/

/-- Ordering `operator<` of `pair<double, int>`. -/
def pairLt (a b : Dbl × Int) : Bool :=
  a.1.lt b.1 || (!(b.1.lt a.1) && decide (a.2 < b.2))

/-- Smaller of two queue entries under `pairLt`, keeping the first on a tie. -/
def pairMin (m y : Dbl × Int) : Dbl × Int := if pairLt y m then y else m

/-- Entry returned by `pq.top()` for the min-heap
`priority_queue<pair<double,int>, vector<...>, greater<...>>`: a least entry. -/
def pqTop : List (Dbl × Int) → Option (Dbl × Int)
  | [] => none
  | x :: xs => some (xs.foldl pairMin x)

/-- Local state of `Dijkstra`: `distances`, `previous`, `visited` and the queue `pq`. -/
structure DState where
  distances : List Dbl
  previous : List Int
  visited : List Bool
  pq : List (Dbl × Int)
  deriving DecidableEq

/-- Body of the `for (const Edge& edge : ...)` loop of `Dijkstra`. -/
def relaxEdge (removed_distance : Dbl) (removed_node_id : Int) (st : DState) (edge : Edge) :
    Except Fault DState :=
  match vget st.visited edge.destination_node_id with
  | .error f => .error f
  | .ok true => .ok st
  | .ok false =>
    let new_distance := removed_distance.add edge.weight
    match vget st.distances edge.destination_node_id with
    | .error f => .error f
    | .ok old =>
      if new_distance.lt old then
        match vset st.distances edge.destination_node_id new_distance with
        | .error f => .error f
        | .ok ds =>
          match vset st.previous edge.destination_node_id removed_node_id with
          | .error f => .error f
          | .ok ps =>
            .ok { st with distances := ds, previous := ps,
                          pq := st.pq ++ [(new_distance, edge.destination_node_id)] }
      else .ok st

/-- The `for` loop over the adjacency list of the removed node. -/
def relaxEdges (removed_distance : Dbl) (removed_node_id : Int) :
    DState → List Edge → Except Fault DState
  | st, [] => .ok st
  | st, edge :: rest =>
    match relaxEdge removed_distance removed_node_id st edge with
    | .error f => .error f
    | .ok st1 => relaxEdges removed_distance removed_node_id st1 rest

/-- One iteration of `while (!pq.empty())` in `Dijkstra`. -/
def dijkstraStep (g : Graph) (st : DState) (top : Dbl × Int) : Except Fault DState :=
  let removed_distance := top.1
  let removed_node_id := top.2
  match vset st.visited removed_node_id true with
  | .error f => .error f
  | .ok vis =>
    match vget g.nodes_list removed_node_id with
    | .error f => .error f
    | .ok nd =>
      relaxEdges removed_distance removed_node_id
        { st with visited := vis, pq := st.pq.erase top } nd.edges

/-- The loop `while (!pq.empty())` of `Dijkstra`. -/
def dijkstraLoop (g : Graph) : Nat → DState → Except Fault DState
  | fuel, st =>
    match pqTop st.pq with
    | none => .ok st
    | some top =>
      match fuel with
      | 0 => .error .outOfFuel
      | fuel1 + 1 =>
        match dijkstraStep g st top with
        | .error f => .error f
        | .ok st1 => dijkstraLoop g fuel1 st1

/-- The loop `while (current_node_id != -1)` pushing onto `path_stack`; the stack is
a list whose head is its top, which is the order in which it is later emptied into
`node_ids_in_path`. -/
def walkBack (previous : List Int) : Nat → Int → List Int → Except Fault (List Int)
  | fuel, current_node_id, path_stack =>
    if current_node_id = -1 then .ok path_stack
    else
      match fuel with
      | 0 => .error .outOfFuel
      | fuel1 + 1 =>
        match vget previous current_node_id with
        | .error f => .error f
        | .ok p => walkBack previous fuel1 p (current_node_id :: path_stack)

/-- Method `Graph::Dijkstra(startNodeId, endNodeId)`. -/
def Dijkstra (g : Graph) (fuel : Nat) (startNodeId endNodeId : Int) : Except Fault PathDetails :=
  let result : PathDetails := {}
  if startNodeId ≥ g.numNodes ∨ endNodeId ≥ g.numNodes ∨ startNodeId < 0 ∨ endNodeId < 0 then
    .ok result
  else if startNodeId = endNodeId then
    .ok { path_exists := true, node_ids_in_path := [startNodeId], num_stops := 0,
          total_weight := Dbl.zero }
  else
    let n := g.numNodes.toNat
    match vset (List.replicate n Dbl.DOUBLE_INF) startNodeId Dbl.zero with
    | .error f => .error f
    | .ok distances =>
      match dijkstraLoop g fuel
          { distances := distances, previous := List.replicate n (-1),
            visited := List.replicate n false, pq := [(Dbl.zero, startNodeId)] } with
      | .error f => .error f
      | .ok st =>
        match vget st.distances endNodeId with
        | .error f => .error f
        | .ok dEnd =>
          if dEnd.ne Dbl.DOUBLE_INF then
            match walkBack st.previous fuel endNodeId [] with
            | .error f => .error f
            | .ok path =>
              .ok { path_exists := true, total_weight := dEnd, node_ids_in_path := path,
                    num_stops := (path.length : Int) - 1 }
          else .ok result

/-! ### Hop search -/

/-- Local state of `BFS`: the FIFO queue `q`, `visited` and `prev`. -/
structure BState where
  q : List Int
  visited : List Bool
  prev : List Int
  deriving DecidableEq

/-- Body of the `for (const Edge& edge : ...)` loop of `BFS`. -/
def exploreEdge (u_node_id : Int) (st : BState) (edge : Edge) : Except Fault BState :=
  let v_node_id := edge.destination_node_id
  match vget st.visited v_node_id with
  | .error f => .error f
  | .ok true => .ok st
  | .ok false =>
    match vset st.visited v_node_id true with
    | .error f => .error f
    | .ok vis =>
      match vset st.prev v_node_id u_node_id with
      | .error f => .error f
      | .ok pv => .ok { q := st.q ++ [v_node_id], visited := vis, prev := pv }

/-- The `for` loop over the adjacency list of the dequeued node. -/
def exploreEdges (u_node_id : Int) : BState → List Edge → Except Fault BState
  | st, [] => .ok st
  | st, edge :: rest =>
    match exploreEdge u_node_id st edge with
    | .error f => .error f
    | .ok st1 => exploreEdges u_node_id st1 rest

/-- The loop `while (!q.empty())` of `BFS`; the Boolean is `path_found_to_end_node`. -/
def bfsLoop (g : Graph) (endNodeId : Int) : Nat → BState → Except Fault (Bool × BState)
  | fuel, st =>
    match st.q with
    | [] => .ok (false, st)
    | u_node_id :: rest =>
      match fuel with
      | 0 => .error .outOfFuel
      | fuel1 + 1 =>
        if u_node_id = endNodeId then .ok (true, { st with q := rest })
        else
          match vget g.nodes_list u_node_id with
          | .error f => .error f
          | .ok nd =>
            match exploreEdges u_node_id { st with q := rest } nd.edges with
            | .error f => .error f
            | .ok st1 => bfsLoop g endNodeId fuel1 st1

/-- Method `Graph::BFS(startNodeId, endNodeId)`. -/
def BFS (g : Graph) (fuel : Nat) (startNodeId endNodeId : Int) : Except Fault PathDetails :=
  let result : PathDetails := {}
  if startNodeId ≥ g.numNodes ∨ endNodeId ≥ g.numNodes ∨ startNodeId < 0 ∨ endNodeId < 0 then
    .ok result
  else if startNodeId = endNodeId then
    .ok { path_exists := true, node_ids_in_path := [startNodeId], num_stops := 0,
          total_weight := Dbl.zero }
  else
    let n := g.numNodes.toNat
    match vset (List.replicate n false) startNodeId true with
    | .error f => .error f
    | .ok visited =>
      match bfsLoop g endNodeId fuel
          { q := [startNodeId], visited := visited, prev := List.replicate n (-1) } with
      | .error f => .error f
      | .ok (path_found_to_end_node, st) =>
        if path_found_to_end_node then
          match walkBack st.prev fuel endNodeId [] with
          | .error f => .error f
          | .ok path =>
            .ok { path_exists := true, node_ids_in_path := path,
                  num_stops := (path.length : Int) - 1 }
        else .ok result

end Graph

/-! ## Map loader (`map.h`) -/

/-- Class `Map`: the two file names and the cached destination name. -/
structure Map where
  nodes_filename : String
  edges_filename : String
  university_name : String := ""
  deriving DecidableEq

/-- One record `id name` of the nodes file, as read by `nodesFile >> id >> name`. -/
abbrev NodeRecord := Int × String

/-- One record `source dest weight` of the edges file, as read by
`edgesFile >> source_id >> dest_id >> weight`; stream extraction only yields finite
values, and the rational is the value of the `double` that was read. -/
abbrev EdgeRecord := Int × Int × ℚ

namespace Map

/-- Constructor `Map(nodes_name, edges_name)`. -/
def create (nodes_name edges_name : String) : Map :=
  { nodes_filename := nodes_name, edges_filename := edges_name }

/-- The loop `while (nodesFile >> id >> name)`; the Boolean is false when a record
was rejected, the integer is `max_node_id`. -/
def loadNodes : Map → Graph → Int → List NodeRecord → Except Fault (Bool × Map × Graph × Int)
  | m, graph, max_node_id, [] => .ok (true, m, graph, max_node_id)
  | m, graph, max_node_id, (id, name) :: rest =>
    if id < 0 ∨ name = "" then .ok (false, m, graph, max_node_id)
    else
      let m1 := if id = 0 then { m with university_name := name } else m
      match graph.addNode id name with
      | .error f => .error f
      | .ok g1 => loadNodes m1 g1 (if id > max_node_id then id else max_node_id) rest

/-- The loop `for (i = 0; i <= max_node_id; ++i)` giving an id to default nodes. -/
def fixIds (v : List Node) : Nat → Int → Except Fault (List Node)
  | 0, _ => .ok v
  | k + 1, i =>
    match vget v i with
    | .error f => .error f
    | .ok nd =>
      if nd.id = -1 then
        match vset v i { nd with id := i } with
        | .error f => .error f
        | .ok v1 => fixIds v1 k (i + 1)
      else fixIds v k (i + 1)

/-- The loop `while (edgesFile >> source_id >> dest_id >> weight)`. -/
def loadEdges : Graph → List EdgeRecord → Except Fault (Bool × Graph)
  | graph, [] => .ok (true, graph)
  | graph, (source_id, dest_id, weight) :: rest =>
    if source_id < 0 ∨ source_id ≥ graph.getNumNodes ∨
        dest_id < 0 ∨ dest_id ≥ graph.getNumNodes ∨ weight < 0 then
      .ok (false, graph)
    else
      match graph.addEdge source_id dest_id (Dbl.fin weight) with
      | .error f => .error f
      | .ok g1 => loadEdges g1 rest

/-- Method `Map::map_to_graph(graph)`.  The contents of the two files are passed as
record lists, `none` standing for a file that cannot be opened.  The result holds the
returned Boolean and the `Map` and `Graph` objects as the call leaves them. -/
def map_to_graph (m : Map) (graph : Graph) (nodesFile : Option (List NodeRecord))
    (edgesFile : Option (List EdgeRecord)) : Except Fault (Bool × Map × Graph) :=
  match nodesFile with
  | none => .ok (false, m, graph)
  | some nodeRecords =>
    match loadNodes m graph (-1) nodeRecords with
    | .error f => .error f
    | .ok (false, m1, g1, _) => .ok (false, m1, g1)
    | .ok (true, m1, g1, max_node_id) =>
      let numNodes := max_node_id + 1
      let v := vresize ({} : Node) g1.nodes_list numNodes.toNat
      match fixIds v numNodes.toNat 0 with
      | .error f => .error f
      | .ok v1 =>
        let g2 : Graph := { nodes_list := v1, numNodes := numNodes }
        match edgesFile with
        | none => .ok (false, m1, g2)
        | some edgeRecords =>
          match loadEdges g2 edgeRecords with
          | .error f => .error f
          | .ok (ok, g3) => .ok (ok, m1, g3)

/-- Method `Map::getUniversityName`. -/
def getUniversityName (m : Map) : String := m.university_name

end Map

/-! ## Lookups of the graph store (`graphV1.h`) -/

namespace Graph

/-- Method `Graph::getNode(id)`: the bounds test only writes a message to `cerr`. -/
def getNode (g : Graph) (id : Int) : Except Fault Node := vget g.nodes_list id

/-- The loop `for (i = 0; i < numNodes; i++)` of `getNodeIndexByname`, with `k`
iterations left and `i` the loop variable. -/
def findName (v : List Node) (name : String) : Nat → Int → Except Fault Int
  | 0, _ => .ok (-1)
  | k + 1, i =>
    match vget v i with
    | .error f => .error f
    | .ok nd => if nd.name = name then .ok i else findName v name k (i + 1)

/-- Method `Graph::getNodeIndexByname(name)`. -/
def getNodeIndexByname (g : Graph) (name : String) : Except Fault Int :=
  findName g.nodes_list name g.numNodes.toNat 0

end Graph

/-! ## Text of the nodes file and interactive additions (`main.cpp`) -/

/-- The characters skipped by formatted extraction: space, `\t`, `\n`, `\v`, `\f`, `\r`. -/
def isSpace (c : Char) : Bool := c.toNat = 32 || (9 ≤ c.toNat && c.toNat ≤ 13)

/-- A decimal digit. -/
def isDigit (c : Char) : Bool := 48 ≤ c.toNat && c.toNat ≤ 57

/-- Value of a run of decimal digits. -/
def digitsValue (ds : List Char) : Nat := ds.foldl (fun a c => 10 * a + (c.toNat - 48)) 0

/-- The digits of an extraction into an `int`, after the sign: at least one digit, and
a value that fits the 32-bit `int`. -/
def readDigits (neg : Bool) (s : List Char) : Option (Int × List Char) :=
  let ds := s.takeWhile isDigit
  let v : Int := if neg then -(digitsValue ds : Int) else (digitsValue ds : Int)
  if ds = [] then none
  else if v < -2147483648 ∨ 2147483647 < v then none
  else some (v, s.dropWhile isDigit)

/-- Extraction `stream >> id` into an `int`: skip white space, read an optional sign and
decimal digits; `none` when the extraction fails. -/
def readInt (s : List Char) : Option (Int × List Char) :=
  match s.dropWhile isSpace with
  | [] => none
  | c :: rest =>
    if c.toNat = 45 then readDigits true rest
    else if c.toNat = 43 then readDigits false rest
    else readDigits false (c :: rest)

/-- Extraction `stream >> name` into a `string`: skip white space, read up to the next
white space; `none` when no character is left. -/
def readWord (s : List Char) : Option (String × List Char) :=
  let s1 := s.dropWhile isSpace
  let w := s1.takeWhile (fun c => !isSpace c)
  if w = [] then none else some (String.mk w, s1.dropWhile (fun c => !isSpace c))

/-- The records delivered by `while (nodesFile >> id >> name)`, reading at most `fuel`
of them. -/
def readNodeRecords : Nat → List Char → List NodeRecord
  | 0, _ => []
  | fuel + 1, s =>
    match readInt s with
    | none => []
    | some (id, s1) =>
      match readWord s1 with
      | none => []
      | some (name, s2) => (id, name) :: readNodeRecords fuel s2

/-- All the records that `while (nodesFile >> id >> name)` reads from a file with the
given text; every record uses up at least one character. -/
def readNodesFile (text : List Char) : List NodeRecord := readNodeRecords text.length text

/-- Function `appendNodeToFile(node, filename)`: the text of the file after
`outFile << endl << node.id << " " << node.name`; `none` is a file that cannot be
opened, which is left alone. -/
def appendNodeToFile (node : Node) (file : Option (List Char)) : Option (List Char) :=
  match file with
  | none => none
  | some text =>
    some (text ++ [Char.ofNat 10] ++ (toString node.id).data ++ [Char.ofNat 32] ++
      node.name.data)

/-- What an interactive addition reports to the user. -/
inductive AddStatus where
  | emptyName
  | alreadyExists
  | locationAdded (id : Int)
  | sourceNotFound
  | destNotFound
  | selfLoop
  | negativeWeight
  | routeAdded (source_id dest_id : Int)
  deriving DecidableEq

/-- The branch "New Location" of `handleAddData` (the "Add Location" button of
`handleAddDataGUI` does the same): the status, the graph and the nodes file
afterwards. -/
def handleAddData_location (graph : Graph) (nodesFile : Option (List Char))
    (new_location_name : String) :
    Except Fault (AddStatus × Graph × Option (List Char)) :=
  if new_location_name = "" then .ok (.emptyName, graph, nodesFile)
  else
    match graph.getNodeIndexByname new_location_name with
    | .error f => .error f
    | .ok found =>
      if found ≠ -1 then .ok (.alreadyExists, graph, nodesFile)
      else
        let new_node_id := graph.getNumNodes
        match graph.addNode new_node_id new_location_name with
        | .error f => .error f
        | .ok g1 =>
          match g1.getNode new_node_id with
          | .error f => .error f
          | .ok node => .ok (.locationAdded new_node_id, g1, appendNodeToFile node nodesFile)

/-- The "Add Route" button of `handleAddDataGUI`: the status and the graph
afterwards. -/
def handleAddDataGUI_route (graph : Graph) (source_name dest_name : String)
    (new_weight_input : Dbl) : Except Fault (AddStatus × Graph) :=
  match graph.getNodeIndexByname source_name with
  | .error f => .error f
  | .ok source_id =>
    if source_id = -1 then .ok (.sourceNotFound, graph)
    else
      match graph.getNodeIndexByname dest_name with
      | .error f => .error f
      | .ok dest_id =>
        if dest_id = -1 then .ok (.destNotFound, graph)
        else if source_id = dest_id then .ok (.selfLoop, graph)
        else if new_weight_input.lt Dbl.zero then .ok (.negativeWeight, graph)
        else
          match graph.addEdge source_id dest_id new_weight_input with
          | .error f => .error f
          | .ok g1 => .ok (.routeAdded source_id dest_id, g1)

/-- The loop `while (!(cin >> weight) || weight < 0)` of `handleAddData`: the attempts
typed by the user, `none` being text that is no number; the first number that is not
negative is kept, and the loop does not end when the attempts run out. -/
def readWeight : List (Option Dbl) → Except Fault Dbl
  | [] => .error .outOfFuel
  | none :: rest => readWeight rest
  | some weight :: rest => if weight.lt Dbl.zero then readWeight rest else .ok weight

/-- The branch "New Route" of `handleAddData`: the status and the graph afterwards. -/
def handleAddData_route (graph : Graph) (source_name dest_name : String)
    (weightInputs : List (Option Dbl)) : Except Fault (AddStatus × Graph) :=
  match graph.getNodeIndexByname source_name with
  | .error f => .error f
  | .ok source_id =>
    if source_id = -1 then .ok (.sourceNotFound, graph)
    else
      match graph.getNodeIndexByname dest_name with
      | .error f => .error f
      | .ok dest_id =>
        if dest_id = -1 then .ok (.destNotFound, graph)
        else if source_id = dest_id then .ok (.selfLoop, graph)
        else
          match readWeight weightInputs with
          | .error f => .error f
          | .ok weight =>
            match graph.addEdge source_id dest_id weight with
            | .error f => .error f
            | .ok g1 => .ok (.routeAdded source_id dest_id, g1)

open Graph

/-! ## Specification vocabulary -/

/-- The run `run` returns `r`: every sufficiently large fuel gives the value `r`. -/
def Returns {α : Type} (run : Nat → Except Fault α) (r : α) : Prop :=
  ∃ fuel0, ∀ fuel, fuel0 ≤ fuel → run fuel = .ok r

/-- The graph built by the scenario "nodes `0 Campus`, `1 Home`; edges `0 1 5.0`". -/
def scenarioGraph : Graph :=
  { nodes_list := [{ id := 0, name := "Campus", edges := [⟨1, Dbl.fin 5⟩] },
                   { id := 1, name := "Home", edges := [⟨0, Dbl.fin 5⟩] }],
    numNodes := 2 }

/-- Table invariant of `Graph`: the tracked count is the length of the node table. -/
def Graph.SizeOk (g : Graph) : Prop := g.numNodes = (g.nodes_list.length : Int)

/-- Largest id among the node records, `-1` when there is none. -/
def maxNodeId (recs : List NodeRecord) : Int := recs.foldl (fun a r => max a r.1) (-1)

/-- Validation of a node record as the specification words it: `id >= 0` and a
non-empty name. -/
def NodeRecordValid (r : NodeRecord) : Prop := 0 ≤ r.1 ∧ r.2 ≠ ""

/-- Validation of an edge record as the specification words it: both ids in
`[0, nodeCount)` and `weight >= 0`. -/
def EdgeRecordValid (nodeCount : Int) (e : EdgeRecord) : Prop :=
  (0 ≤ e.1 ∧ e.1 < nodeCount) ∧ (0 ≤ e.2.1 ∧ e.2.1 < nodeCount) ∧ 0 ≤ e.2.2

/-- Every adjacency entry of the table points to an id in `[0, numNodes)`. -/
def Graph.InRange (g : Graph) : Prop :=
  ∀ nd ∈ g.nodes_list, ∀ e ∈ nd.edges,
    0 ≤ e.destination_node_id ∧ e.destination_node_id < g.numNodes

/-- Every stored weight satisfies `0 <= weight` (so it is not NaN). -/
def Graph.NonNeg (g : Graph) : Prop :=
  ∀ nd ∈ g.nodes_list, ∀ e ∈ nd.edges, Dbl.le Dbl.zero e.weight = true

/-- Every stored weight is a finite number. -/
def Graph.FiniteWeights (g : Graph) : Prop :=
  ∀ nd ∈ g.nodes_list, ∀ e ∈ nd.edges, e.weight.isFinite = true

/-- Node `u` has the adjacency entry `e` in its list. -/
def Graph.HasEdge (g : Graph) (u : Int) (e : Edge) : Prop :=
  ∃ nd, vget g.nodes_list u = .ok nd ∧ e ∈ nd.edges

/-- Node `v` is the destination of an adjacency entry of node `u`. -/
def Graph.Adjacent (g : Graph) (u v : Int) : Prop :=
  ∃ e, g.HasEdge u e ∧ e.destination_node_id = v

/-- A walk `Walk g s t p a`: `p` is the node sequence of a path from `s` to `t` that
follows one adjacency entry per step, and `a` is the sum of the weights of the entries
followed, computed as the code does: with the floating addition `Dbl.add`, in path
order from `0.0`. -/
inductive Graph.Walk (g : Graph) (s : Int) : Int → List Int → Dbl → Prop
  | start : Graph.Walk g s s [s] Dbl.zero
  | step (u : Int) (p : List Int) (a : Dbl) (e : Edge) :
      Graph.Walk g s u p a → g.HasEdge u e →
      Graph.Walk g s e.destination_node_id (p ++ [e.destination_node_id]) (a.add e.weight)

/-- Node `t` is reachable from `s` by following adjacency entries. -/
def Graph.Reachable (g : Graph) (s t : Int) : Prop := ∃ p a, g.Walk s t p a

/-! ## Loop invariants -/

/-- Predecessor chain: following `prev` from `v` leads back to `s`, whose
predecessor is `-1`; `p` lists the nodes met, from `s` to `v`. -/
inductive PrevChain (prev : List Int) (s : Int) : Int → List Int → Prop
  | base : vget prev s = .ok (-1) → PrevChain prev s s [s]
  | step (u v : Int) (p : List Int) :
      PrevChain prev s u p → vget prev v = .ok u → PrevChain prev s v (p ++ [v])

/-- Nodes not yet marked in a `visited` vector. -/
def unvisitedCount (visited : List Bool) : Nat := visited.count false

/-- Part of the `BFS` invariant shared by the loop head and the inner loop; `L` is the
number of hops at which each visited node was found. -/
structure BCore (g : Graph) (s t : Int) (st : BState) (L : Int → Nat) : Prop where
  lenV : st.visited.length = g.nodes_list.length
  lenP : st.prev.length = g.nodes_list.length
  qvis : ∀ x ∈ st.q, vget st.visited x = .ok true
  nodup : st.q.Nodup
  tq : vget st.visited t = .ok true → t ∈ st.q
  ls : L s = 0
  svis : vget st.visited s = .ok true
  chain : ∀ v, vget st.visited v = .ok true →
    ∃ p a, PrevChain st.prev s v p ∧ p.length = L v + 1 ∧ g.Walk s v p a ∧ p.Nodup ∧
      ∀ x ∈ p, vget st.visited x = .ok true
  sorted : st.q.Pairwise (fun a b => L a ≤ L b)

/-- Invariant of `while (!q.empty())` in `BFS`, at the loop head. -/
structure BHead (g : Graph) (s t : Int) (st : BState) (L : Int → Nat) : Prop where
  core : BCore g s t st L
  closed : ∀ x, vget st.visited x = .ok true → x ∉ st.q → ∀ e, g.HasEdge x e →
    vget st.visited e.destination_node_id = .ok true ∧ L e.destination_node_id ≤ L x + 1
  span : ∀ a ∈ st.q, ∀ b ∈ st.q, L b ≤ L a + 1
  plo : ∀ x, vget st.visited x = .ok true → x ∉ st.q → ∀ y ∈ st.q, L x ≤ L y

/-- Invariant of the `for` loop of `BFS` over the edges of the dequeued node `u`, with
`pending` the edges still to be looked at. -/
structure BMid (g : Graph) (s t : Int) (st : BState) (L : Int → Nat) (u : Int)
    (pending : List Edge) : Prop where
  core : BCore g s t st L
  uvis : vget st.visited u = .ok true
  unq : u ∉ st.q
  pend : ∀ e ∈ pending, g.HasEdge u e
  closed : ∀ x, vget st.visited x = .ok true → x ∉ st.q → ∀ e, g.HasEdge x e →
    (x = u ∧ e ∈ pending) ∨
    (vget st.visited e.destination_node_id = .ok true ∧ L e.destination_node_id ≤ L x + 1)
  qlo : ∀ y ∈ st.q, L u ≤ L y ∧ L y ≤ L u + 1
  plo : ∀ x, vget st.visited x = .ok true → x ∉ st.q → L x ≤ L u

/-- Potential bounding the iterations of the `Dijkstra` loop: every node not yet
visited counts for its adjacency entries plus one. -/
def pot : List Bool → List Node → Nat
  | b :: bs, nd :: nds => (if b then 0 else nd.edges.length + 1) + pot bs nds
  | _, _ => 0

/-- Part of the `Dijkstra` invariant shared by the loop head and the inner loop.  The
last three fields are only claimed for graphs with non-negative weights. -/
structure DCore (g : Graph) (s : Int) (st : DState) : Prop where
  lenD : st.distances.length = g.nodes_list.length
  lenP : st.previous.length = g.nodes_list.length
  lenV : st.visited.length = g.nodes_list.length
  pqr : ∀ y ∈ st.pq, (0 ≤ y.2 ∧ y.2 < g.nodes_list.length) ∧ y.1.lt Dbl.pinf = true
  dnn : ∀ x d, vget st.distances x = .ok d → d.le d = true
  dbl : ∀ x d, vget st.distances x = .ok d → d.isDouble = true
  pqd : ∀ y ∈ st.pq, ∃ d, vget st.distances y.2 = .ok d ∧ d.le y.1 = true
  unv : ∀ x d, vget st.visited x = .ok false → vget st.distances x = .ok d →
    d = Dbl.pinf ∨ (d, x) ∈ st.pq
  sd : vget st.distances s = .ok Dbl.zero
  sp : vget st.previous s = .ok (-1)
  fst : (∀ x, vget st.visited x ≠ .ok true) → ∀ y ∈ st.pq, y.2 = s
  chain : ∀ v, vget st.visited v = .ok true →
    ∃ p d, PrevChain st.previous s v p ∧ vget st.distances v = .ok d ∧ g.Walk s v p d ∧
      p.Nodup ∧ ∀ x ∈ p, vget st.visited x = .ok true
  pre : ∀ v d, vget st.visited v = .ok false → vget st.distances v = .ok d → d ≠ Dbl.pinf →
    ((∀ x, vget st.visited x ≠ .ok true) ∧ v = s) ∨
    (∃ u e du, vget st.previous v = .ok u ∧ vget st.visited u = .ok true ∧ g.HasEdge u e ∧
      e.destination_node_id = v ∧ vget st.distances u = .ok du ∧ d = du.add e.weight)
  pos : g.NonNeg → ∀ x d, vget st.distances x = .ok d → Dbl.zero.le d = true
  vle : g.NonNeg → ∀ x d, vget st.visited x = .ok true → vget st.distances x = .ok d →
    ∀ y ∈ st.pq, d.le y.1 = true
  bellv : g.NonNeg → ∀ x dx, vget st.visited x = .ok true → vget st.distances x = .ok dx →
    ∀ e, g.HasEdge x e → vget st.visited e.destination_node_id = .ok true →
    ∀ dv, vget st.distances e.destination_node_id = .ok dv → dv.le (dx.add e.weight) = true

/-- Invariant of `while (!pq.empty())` in `Dijkstra`, at the loop head: every edge
leaving a visited node has been relaxed. -/
structure DHead (g : Graph) (s : Int) (st : DState) : Prop where
  core : DCore g s st
  rel : ∀ x dx, vget st.visited x = .ok true → vget st.distances x = .ok dx →
    ∀ e, g.HasEdge x e → vget st.visited e.destination_node_id = .ok false →
    ∀ dv, vget st.distances e.destination_node_id = .ok dv → (dx.add e.weight).lt dv = false

/-- Invariant of the `for` loop of `Dijkstra` over the edges of the removed node `u`,
removed with distance `rd`; `pending` are the edges still to be relaxed and `fresh`
tells whether `u` was unvisited when it was removed. -/
structure DMid (g : Graph) (s : Int) (st : DState) (u : Int) (rd : Dbl) (fresh : Bool)
    (pending : List Edge) : Prop where
  core : DCore g s st
  uvis : vget st.visited u = .ok true
  rdl : rd.lt Dbl.pinf = true
  ud : ∃ du, vget st.distances u = .ok du ∧ du.le rd = true ∧ (fresh = true → rd = du)
  pend : ∀ e ∈ pending, g.HasEdge u e
  rel : ∀ x dx, vget st.visited x = .ok true → vget st.distances x = .ok dx →
    ∀ e, g.HasEdge x e → vget st.visited e.destination_node_id = .ok false →
    ∀ dv, vget st.distances e.destination_node_id = .ok dv →
    (x = u ∧ e ∈ pending ∧ fresh = true) ∨ (dx.add e.weight).lt dv = false
  vrd : g.NonNeg → ∀ x d, vget st.visited x = .ok true → vget st.distances x = .ok d →
    d.le rd = true

/-! ## Vocabulary for the loaded node table -/

/-- Name of the last node record with id `i`, the empty string when no record has
that id. -/
def lastName (recs : List NodeRecord) (i : Int) : String :=
  recs.foldl (fun acc r => if r.1 = i then r.2 else acc) ""

/-- The node table holds, in every slot `i` of `[0, numNodes)`, the node with id `i`,
name `names i` and no edges. -/
def Graph.Tab (g : Graph) (names : Int → String) : Prop :=
  g.SizeOk ∧ ∀ i, 0 ≤ i → i < g.numNodes →
    vget g.nodes_list i = .ok { id := i, name := names i, edges := [] }

/-! ## Vocabulary for the store and session invariants -/

/-- Adjacency list stored on node `u`; empty when `u` is no slot of the table. -/
def Graph.adj (g : Graph) (u : Int) : List Edge :=
  match vget g.nodes_list u with
  | .ok nd => nd.edges
  | .error _ => []

/-- Every node of the table carries its own position as id. -/
def Graph.IdsOk (g : Graph) : Prop := ∀ j nd, vget g.nodes_list j = .ok nd → nd.id = j

/-- Symmetry with identical weights: the list of `u` holds the entry `{v, w}` as many
times as the list of `v` holds the entry `{u, w}`. -/
def Graph.Symmetric (g : Graph) : Prop :=
  ∀ (u v : Int) (w : Dbl), (g.adj u).count ⟨v, w⟩ = (g.adj v).count ⟨u, w⟩

/-- Graphs that the store operations build: the empty graph and `Graph(n)`, closed
under `addNode` with `id >= 0`, `addEdge` with both ids in range, and a successful
`map_to_graph` into an empty graph. -/
inductive StoreReach : Graph → Prop
  | empty : StoreReach {}
  | sized (n : Nat) : StoreReach (Graph.mk_n n)
  | addNode (g g1 : Graph) (id : Int) (name : String) :
      StoreReach g → 0 ≤ id → g.addNode id name = .ok g1 → StoreReach g1
  | addEdge (g g1 : Graph) (s d : Int) (w : Dbl) :
      StoreReach g → 0 ≤ s → s < g.numNodes → 0 ≤ d → d < g.numNodes →
      g.addEdge s d w = .ok g1 → StoreReach g1
  | load (g g1 : Graph) (m m1 : Map) (nodeRecords : List NodeRecord)
      (edgeRecords : List EdgeRecord) :
      StoreReach g → g = {} →
      Map.map_to_graph m g (some nodeRecords) (some edgeRecords) = .ok (true, m1, g1) →
      StoreReach g1

/-- Graphs of a session: a successful `map_to_graph` into an empty graph, followed by
accepted add-location operations and accepted add-route operations of the window (with
any value of the weight field) and of the console (with any attempts typed). -/
inductive Session : Graph → Prop
  | load (m m1 : Map) (g : Graph) (nodeRecords : List NodeRecord)
      (edgeRecords : List EdgeRecord) :
      Map.map_to_graph m {} (some nodeRecords) (some edgeRecords) = .ok (true, m1, g) →
      Session g
  | addLocation (g g1 : Graph) (file file1 : Option (List Char)) (name : String) (id : Int) :
      Session g → handleAddData_location g file name = .ok (.locationAdded id, g1, file1) →
      Session g1
  | addRouteGUI (g g1 : Graph) (source_name dest_name : String) (w : Dbl) (s d : Int) :
      Session g →
      handleAddDataGUI_route g source_name dest_name w = .ok (.routeAdded s d, g1) →
      Session g1
  | addRouteConsole (g g1 : Graph) (source_name dest_name : String)
      (weightInputs : List (Option Dbl)) (s d : Int) :
      Session g →
      handleAddData_route g source_name dest_name weightInputs = .ok (.routeAdded s d, g1) →
      Session g1

/-- The graph with every stored weight replaced by `0.0`: what is left is the nodes
and, per node, the adjacency destinations in their order. -/
def Graph.stripWeights (g : Graph) : Graph :=
  { g with nodes_list := g.nodes_list.map (fun nd =>
      { nd with edges := nd.edges.map (fun e => { e with weight := Dbl.zero }) }) }

/-- Two graphs with the same nodes and the same adjacency destinations in the same
order; the weights may differ. -/
def SameShape (g1 g2 : Graph) : Prop := g1.stripWeights = g2.stripWeights

/-- The scenario graph with the weight `5.0` of its edge replaced by `7.5` in one
direction and by `-2` in the other. -/
def scenarioGraphReweighted : Graph :=
  { nodes_list := [{ id := 0, name := "Campus", edges := [⟨1, Dbl.fin (15 / 2)⟩] },
                   { id := 1, name := "Home", edges := [⟨0, Dbl.fin (-2)⟩] }],
    numNodes := 2 }

/-- The graph left by `addNode(2, "Depot")` on the empty graph followed by
`addEdge(0, 2, 3.0)`. -/
def storeExample : Graph :=
  { nodes_list := [{ id := 0, edges := [⟨2, Dbl.fin 3⟩] }, { id := 1 },
                   { id := 2, name := "Depot", edges := [⟨0, Dbl.fin 3⟩] }],
    numNodes := 3 }

/-- Invariant of a session: the table invariant, every adjacency entry in range and of
a weight that fails the test `weight < 0`, and symmetry. -/
def Graph.SessionOk (g : Graph) : Prop :=
  g.SizeOk ∧
  (∀ x, ∀ e ∈ g.adj x, 0 ≤ e.destination_node_id ∧ e.destination_node_id < g.numNodes) ∧
  (∀ x, ∀ e ∈ g.adj x, e.weight.lt Dbl.zero = false) ∧
  g.Symmetric

/-- The scenario graph after the location `Library` was added. -/
def sessionLocated : Graph :=
  { nodes_list := [{ id := 0, name := "Campus", edges := [⟨1, Dbl.fin 5⟩] },
                   { id := 1, name := "Home", edges := [⟨0, Dbl.fin 5⟩] },
                   { id := 2, name := "Library" }],
    numNodes := 3 }

/-- The scenario graph after the location `Library` and the route `Home`-`Library` of
weight `2.5` were added. -/
def sessionExample : Graph :=
  { nodes_list := [{ id := 0, name := "Campus", edges := [⟨1, Dbl.fin 5⟩] },
                   { id := 1, name := "Home",
                     edges := [⟨0, Dbl.fin 5⟩, ⟨2, Dbl.fin (5 / 2)⟩] },
                   { id := 2, name := "Library", edges := [⟨1, Dbl.fin (5 / 2)⟩] }],
    numNodes := 3 }

/-! ## Real-number weights of a path, and graphs on which binary64 addition shows -/

/-- The weights, as real numbers, of the adjacency entries of `u` that point to `v`
and carry a finite weight. -/
def Graph.realWeights (g : Graph) (u v : Int) : List ℚ :=
  (g.adj u).filterMap (fun e =>
    if e.destination_node_id = v then
      match e.weight with
      | Dbl.fin q => some q
      | _ => none
    else none)

/-- The exact sums, in real arithmetic, of the weights along a node sequence: one sum
for every way of choosing an adjacency entry for each consecutive pair. -/
def Graph.exactSums (g : Graph) : List Int → List ℚ
  | [] => []
  | [_] => [0]
  | u :: v :: rest =>
    (g.realWeights u v).flatMap (fun w => (g.exactSums (v :: rest)).map (fun x => w + x))

/-- The binary64 value written `0.1`. -/
def dblTenth : ℚ := 3602879701896397 / 36028797018963968

/-- The binary64 value written `0.2`. -/
def dblFifth : ℚ := 3602879701896397 / 18014398509481984

/-- The binary64 value written `0.30000000000000004`, which is `0.1 + 0.2` in binary64
arithmetic. -/
def dblThreeTenths : ℚ := 1351079888211149 / 4503599627370496

/-- Nodes 0, 1, 2 with the routes 0-1 of weight `0.1` and 1-2 of weight `0.2`. -/
def roundingChain : Graph :=
  { nodes_list := [{ id := 0, name := "A", edges := [⟨1, Dbl.fin dblTenth⟩] },
                   { id := 1, name := "B",
                     edges := [⟨0, Dbl.fin dblTenth⟩, ⟨2, Dbl.fin dblFifth⟩] },
                   { id := 2, name := "C", edges := [⟨1, Dbl.fin dblFifth⟩] }],
    numNodes := 3 }

/-- The graph `roundingChain` with the further route 0-2 of weight
`0.30000000000000004`. -/
def roundingGraph : Graph :=
  { nodes_list := [{ id := 0, name := "A",
                     edges := [⟨1, Dbl.fin dblTenth⟩, ⟨2, Dbl.fin dblThreeTenths⟩] },
                   { id := 1, name := "B",
                     edges := [⟨0, Dbl.fin dblTenth⟩, ⟨2, Dbl.fin dblFifth⟩] },
                   { id := 2, name := "C",
                     edges := [⟨1, Dbl.fin dblFifth⟩, ⟨0, Dbl.fin dblThreeTenths⟩] }],
    numNodes := 3 }

/-- Nodes 0, 1, 2 with the routes 0-1 and 1-2, both of the finite weight `2^1023`
(about `8.99e307`). -/
def overflowChain : Graph :=
  { nodes_list := [{ id := 0, name := "A", edges := [⟨1, Dbl.fin (2 ^ 1023)⟩] },
                   { id := 1, name := "B",
                     edges := [⟨0, Dbl.fin (2 ^ 1023)⟩, ⟨2, Dbl.fin (2 ^ 1023)⟩] },
                   { id := 2, name := "C", edges := [⟨1, Dbl.fin (2 ^ 1023)⟩] }],
    numNodes := 3 }

/-- Every stored weight is a value of the C++ type `double`. -/
def Graph.DoubleWeights (g : Graph) : Prop :=
  ∀ nd ∈ g.nodes_list, ∀ e ∈ nd.edges, e.weight.isDouble = true

/-- The calls `addNode(id, name)` for the node records, in order, on the graph `g`. -/
def addNodeRecords : Graph → List NodeRecord → Except Fault Graph
  | g, [] => .ok g
  | g, (id, name) :: rest =>
    match g.addNode id name with
    | .error f => .error f
    | .ok g1 => addNodeRecords g1 rest

/-! ## Fuel -/

theorem dijkstraLoop_fuel_succ (g : Graph) :
    ∀ (fuel : Nat) (st r : DState), Graph.dijkstraLoop g fuel st = .ok r →
      Graph.dijkstraLoop g (fuel + 1) st = .ok r := by
  intro fuel
  induction fuel with
  | zero =>
    intro st r h
    unfold Graph.dijkstraLoop at h ⊢
    cases hq : Graph.pqTop st.pq with
    | none => simpa [hq] using h
    | some top => simp [hq] at h
  | succ k ih =>
    intro st r h
    unfold Graph.dijkstraLoop at h ⊢
    cases hq : Graph.pqTop st.pq with
    | none => simpa [hq] using h
    | some top =>
      simp only [hq] at h ⊢
      cases hs : Graph.dijkstraStep g st top with
      | error f => simp [hs] at h
      | ok st1 =>
        simp only [hs] at h ⊢
        exact ih st1 r h

theorem dijkstraLoop_fuel_le (g : Graph) (fuel fuel1 : Nat) (st r : DState)
    (h : Graph.dijkstraLoop g fuel st = .ok r) (hle : fuel ≤ fuel1) :
    Graph.dijkstraLoop g fuel1 st = .ok r := by
  induction hle with
  | refl => exact h
  | step _ ih => exact dijkstraLoop_fuel_succ g _ st r ih

theorem walkBack_fuel_succ (previous : List Int) :
    ∀ (fuel : Nat) (cur : Int) (acc r : List Int), Graph.walkBack previous fuel cur acc = .ok r →
      Graph.walkBack previous (fuel + 1) cur acc = .ok r := by
  intro fuel
  induction fuel with
  | zero =>
    intro cur acc r h
    unfold Graph.walkBack at h ⊢
    by_cases hc : cur = -1
    · simpa [hc] using h
    · simp [hc] at h
  | succ k ih =>
    intro cur acc r h
    unfold Graph.walkBack at h ⊢
    by_cases hc : cur = -1
    · simpa [hc] using h
    · simp only [hc, if_false] at h ⊢
      cases hp : vget previous cur with
      | error f => simp [hp] at h
      | ok p =>
        simp only [hp] at h ⊢
        exact ih p _ r h

theorem walkBack_fuel_le (previous : List Int) (fuel fuel1 : Nat) (cur : Int) (acc r : List Int)
    (h : Graph.walkBack previous fuel cur acc = .ok r) (hle : fuel ≤ fuel1) :
    Graph.walkBack previous fuel1 cur acc = .ok r := by
  induction hle with
  | refl => exact h
  | step _ ih => exact walkBack_fuel_succ previous _ cur acc r ih

theorem bfsLoop_fuel_succ (g : Graph) (endNodeId : Int) :
    ∀ (fuel : Nat) (st : BState) (r : Bool × BState), Graph.bfsLoop g endNodeId fuel st = .ok r →
      Graph.bfsLoop g endNodeId (fuel + 1) st = .ok r := by
  intro fuel
  induction fuel with
  | zero =>
    intro st r h
    unfold Graph.bfsLoop at h ⊢
    cases hq : st.q with
    | nil => simpa [hq] using h
    | cons u rest => simp [hq] at h
  | succ k ih =>
    intro st r h
    unfold Graph.bfsLoop at h ⊢
    cases hq : st.q with
    | nil => simpa [hq] using h
    | cons u rest =>
      simp only [hq] at h ⊢
      by_cases hu : u = endNodeId
      · simpa [hu] using h
      · simp only [hu, if_false] at h ⊢
        cases hn : vget g.nodes_list u with
        | error f => simp [hn] at h
        | ok nd =>
          simp only [hn] at h ⊢
          cases he : Graph.exploreEdges u { st with q := rest } nd.edges with
          | error f => simp [he] at h
          | ok st1 =>
            simp only [he] at h ⊢
            exact ih st1 r h

theorem bfsLoop_fuel_le (g : Graph) (endNodeId : Int) (fuel fuel1 : Nat) (st : BState)
    (r : Bool × BState) (h : Graph.bfsLoop g endNodeId fuel st = .ok r) (hle : fuel ≤ fuel1) :
    Graph.bfsLoop g endNodeId fuel1 st = .ok r := by
  induction hle with
  | refl => exact h
  | step _ ih => exact bfsLoop_fuel_succ g endNodeId _ st r ih

theorem Dijkstra_fuel_le (g : Graph) (fuel fuel1 : Nat) (s e : Int) (r : PathDetails)
    (h : g.Dijkstra fuel s e = .ok r) (hle : fuel ≤ fuel1) : g.Dijkstra fuel1 s e = .ok r := by
  unfold Graph.Dijkstra at h ⊢
  by_cases hb : s ≥ g.numNodes ∨ e ≥ g.numNodes ∨ s < 0 ∨ e < 0
  · simpa [hb] using h
  · simp only [hb, if_false] at h ⊢
    by_cases hse : s = e
    · simpa [hse] using h
    · simp only [hse, if_false] at h ⊢
      cases hd : vset (List.replicate g.numNodes.toNat Dbl.DOUBLE_INF) s Dbl.zero with
      | error f => simp [hd] at h
      | ok distances =>
        simp only [hd] at h ⊢
        cases hl : Graph.dijkstraLoop g fuel
            { distances := distances, previous := List.replicate g.numNodes.toNat (-1),
              visited := List.replicate g.numNodes.toNat false, pq := [(Dbl.zero, s)] } with
        | error f => simp [hl] at h
        | ok st =>
          simp only [hl] at h
          simp only [dijkstraLoop_fuel_le g fuel fuel1 _ st hl hle]
          cases hg : vget st.distances e with
          | error f => simp [hg] at h
          | ok dEnd =>
            simp only [hg] at h ⊢
            by_cases hne : dEnd.ne Dbl.DOUBLE_INF = true
            · simp only [hne, if_true] at h ⊢
              cases hw : Graph.walkBack st.previous fuel e [] with
              | error f => simp [hw] at h
              | ok path =>
                simp only [hw] at h
                simp only [walkBack_fuel_le st.previous fuel fuel1 e [] path hw hle]
                exact h
            · simpa [hne] using h

theorem BFS_fuel_le (g : Graph) (fuel fuel1 : Nat) (s e : Int) (r : PathDetails)
    (h : g.BFS fuel s e = .ok r) (hle : fuel ≤ fuel1) : g.BFS fuel1 s e = .ok r := by
  unfold Graph.BFS at h ⊢
  by_cases hb : s ≥ g.numNodes ∨ e ≥ g.numNodes ∨ s < 0 ∨ e < 0
  · simpa [hb] using h
  · simp only [hb, if_false] at h ⊢
    by_cases hse : s = e
    · simpa [hse] using h
    · simp only [hse, if_false] at h ⊢
      cases hd : vset (List.replicate g.numNodes.toNat false) s true with
      | error f => simp [hd] at h
      | ok visited =>
        simp only [hd] at h ⊢
        cases hl : Graph.bfsLoop g e fuel
            { q := [s], visited := visited, prev := List.replicate g.numNodes.toNat (-1) } with
        | error f => simp [hl] at h
        | ok res =>
          obtain ⟨found, st⟩ := res
          simp only [hl] at h
          simp only [bfsLoop_fuel_le g e fuel fuel1 _ _ hl hle]
          cases found with
          | false => simpa using h
          | true =>
            simp only [if_true] at h ⊢
            cases hw : Graph.walkBack st.prev fuel e [] with
            | error f => simp [hw] at h
            | ok path =>
              simp only [hw] at h
              simp only [walkBack_fuel_le st.prev fuel fuel1 e [] path hw hle]
              exact h

theorem returns_of_run {α : Type} (run : Nat → Except Fault α) (r : α) (fuel0 : Nat)
    (h : run fuel0 = .ok r)
    (mono : ∀ fuel fuel1 r, run fuel = .ok r → fuel ≤ fuel1 → run fuel1 = .ok r) :
    Returns run r :=
  ⟨fuel0, fun fuel hle => mono fuel0 fuel r h hle⟩

theorem returns_unique {α : Type} (run : Nat → Except Fault α) (r r1 : α)
    (h : Returns run r) (h1 : Returns run r1) : r = r1 := by
  obtain ⟨a, ha⟩ := h
  obtain ⟨b, hb⟩ := h1
  have e1 := ha (max a b) (le_max_left a b)
  have e2 := hb (max a b) (le_max_right a b)
  rw [e1] at e2
  injection e2

theorem Dijkstra_returns (g : Graph) (fuel : Nat) (s e : Int) (r : PathDetails)
    (h : g.Dijkstra fuel s e = .ok r) : Returns (fun f => g.Dijkstra f s e) r :=
  returns_of_run _ r fuel h (fun a b r1 h1 hle => Dijkstra_fuel_le g a b s e r1 h1 hle)

theorem BFS_returns (g : Graph) (fuel : Nat) (s e : Int) (r : PathDetails)
    (h : g.BFS fuel s e = .ok r) : Returns (fun f => g.BFS f s e) r :=
  returns_of_run _ r fuel h (fun a b r1 h1 hle => BFS_fuel_le g a b s e r1 h1 hle)

/-! ## Vectors -/

theorem vget_eq_ok {α : Type} (v : List α) (i : Int) (a : α) :
    vget v i = .ok a ↔ 0 ≤ i ∧ v[i.toNat]? = some a := by
  unfold vget
  by_cases h : 0 ≤ i
  · cases hv : v[i.toNat]? <;> simp [h, hv]
  · simp [h]

theorem vget_fault {α : Type} (v : List α) (i : Int) (f : Fault) (h : vget v i = .error f) :
    f = .outOfBounds := by
  unfold vget at h
  by_cases h0 : 0 ≤ i
  · cases hv : v[i.toNat]? <;> simp [h0, hv] at h
    exact h.symm
  · simp [h0] at h
    exact h.symm

theorem vget_inRange {α : Type} (v : List α) (i : Int) (a : α) (h : vget v i = .ok a) :
    0 ≤ i ∧ i < v.length := by
  rw [vget_eq_ok] at h
  obtain ⟨h0, h1⟩ := h
  have := (List.getElem?_eq_some_iff.mp h1).1
  omega

theorem vget_exists {α : Type} (v : List α) (i : Int) (h0 : 0 ≤ i) (h1 : i < v.length) :
    ∃ a, vget v i = .ok a := by
  have hlt : i.toNat < v.length := by omega
  refine ⟨v[i.toNat], ?_⟩
  rw [vget_eq_ok]
  exact ⟨h0, List.getElem?_eq_getElem hlt⟩

theorem vget_mem {α : Type} (v : List α) (i : Int) (a : α) (h : vget v i = .ok a) : a ∈ v := by
  rw [vget_eq_ok] at h
  exact List.getElem?_mem h.2

theorem vset_eq_ok {α : Type} (v : List α) (i : Int) (a : α) (w : List α) :
    vset v i a = .ok w ↔ (0 ≤ i ∧ i.toNat < v.length) ∧ w = v.set i.toNat a := by
  unfold vset
  by_cases h : 0 ≤ i ∧ i.toNat < v.length
  · simp only [h, and_self, if_true, true_and, Except.ok.injEq]
    exact eq_comm
  · simp [h]

theorem vset_fault {α : Type} (v : List α) (i : Int) (a : α) (f : Fault)
    (h : vset v i a = .error f) : f = .outOfBounds := by
  unfold vset at h
  by_cases h0 : 0 ≤ i ∧ i.toNat < v.length
  · simp [h0] at h
  · simp [h0] at h
    exact h.symm

theorem vset_exists {α : Type} (v : List α) (i : Int) (a : α) (h0 : 0 ≤ i) (h1 : i < v.length) :
    ∃ w, vset v i a = .ok w := by
  refine ⟨v.set i.toNat a, ?_⟩
  rw [vset_eq_ok]
  exact ⟨⟨h0, by omega⟩, rfl⟩

theorem vset_inRange {α : Type} (v : List α) (i : Int) (a : α) (w : List α)
    (h : vset v i a = .ok w) : 0 ≤ i ∧ i < v.length := by
  rw [vset_eq_ok] at h
  omega

theorem vset_length {α : Type} (v : List α) (i : Int) (a : α) (w : List α)
    (h : vset v i a = .ok w) : w.length = v.length := by
  rw [vset_eq_ok] at h
  rw [h.2, List.length_set]

theorem vget_vset_same {α : Type} (v : List α) (i : Int) (a : α) (w : List α)
    (h : vset v i a = .ok w) : vget w i = .ok a := by
  rw [vset_eq_ok] at h
  obtain ⟨⟨h0, h1⟩, rfl⟩ := h
  rw [vget_eq_ok]
  refine ⟨h0, ?_⟩
  rw [List.getElem?_set_self h1]

theorem vget_vset_ne {α : Type} (v : List α) (i j : Int) (a : α) (w : List α)
    (h : vset v i a = .ok w) (hij : j ≠ i) : vget w j = vget v j := by
  rw [vset_eq_ok] at h
  obtain ⟨⟨h0, h1⟩, rfl⟩ := h
  unfold vget
  by_cases hj : 0 ≤ j
  · have hne : i.toNat ≠ j.toNat := by omega
    simp only [hj, if_true]
    rw [List.getElem?_set_ne hne]
  · simp [hj]

theorem vget_replicate {α : Type} (n : Nat) (a : α) (i : Int) (h0 : 0 ≤ i) (h1 : i < n) :
    vget (List.replicate n a) i = .ok a := by
  rw [vget_eq_ok]
  refine ⟨h0, ?_⟩
  rw [List.getElem?_replicate]
  have : i.toNat < n := by omega
  simp [this]

theorem vget_replicate_val {α : Type} (n : Nat) (a b : α) (i : Int)
    (h : vget (List.replicate n a) i = .ok b) : b = a := by
  have hm := vget_mem _ _ _ h
  exact (List.mem_replicate.mp hm).2

theorem vresize_length {α : Type} (d : α) (v : List α) (n : Nat) :
    (vresize d v n).length = n := by
  unfold vresize
  simp only [List.length_append, List.length_take, List.length_replicate]
  omega

theorem vresize_self {α : Type} (d : α) (v : List α) : vresize d v v.length = v := by
  unfold vresize
  simp

/-! ## Graph store and loader: absence of faults -/

theorem setIds_ok : ∀ (k : Nat) (v : List Node) (i : Int), 0 ≤ i → i + k ≤ v.length →
    ∃ w, Graph.setIds v k i = .ok w ∧ w.length = v.length := by
  intro k
  induction k with
  | zero => intro v i _ _; exact ⟨v, rfl, rfl⟩
  | succ k ih =>
    intro v i h0 h1
    have hlt : i < v.length := by push_cast at h1; omega
    obtain ⟨nd, hnd⟩ := vget_exists v i h0 hlt
    obtain ⟨v1, hv1⟩ := vset_exists v i { nd with id := i } h0 hlt
    have hlen := vset_length _ _ _ _ hv1
    obtain ⟨w, hw, hwl⟩ := ih v1 (i + 1) (by omega) (by push_cast at h1; omega)
    refine ⟨w, ?_, by omega⟩
    unfold Graph.setIds
    simp only [hnd, hv1]
    exact hw

theorem addNode_ok (g : Graph) (id : Int) (name : String) (hs : g.SizeOk) (h0 : 0 ≤ id) :
    ∃ g1, g.addNode id name = .ok g1 ∧ g1.SizeOk ∧ g1.numNodes = max g.numNodes (id + 1) := by
  unfold Graph.SizeOk at hs
  unfold Graph.addNode
  by_cases hge : id ≥ g.numNodes
  · simp only [hge, if_true]
    have hvl := vresize_length ({} : Node) g.nodes_list (id + 1).toNat
    obtain ⟨v1, hv1, hl1⟩ := setIds_ok (id + 1 - g.numNodes).toNat
      (vresize ({} : Node) g.nodes_list (id + 1).toNat) g.numNodes (by omega) (by omega)
    obtain ⟨v2, hv2⟩ := vset_exists v1 id { id := id, name := name } h0 (by omega)
    have hl2 := vset_length _ _ _ _ hv2
    refine ⟨{ nodes_list := v2, numNodes := id + 1 }, ?_, ?_, ?_⟩
    · simp only [hv1, hv2]
    · unfold Graph.SizeOk; simp only; omega
    · simp only; omega
  · simp only [hge, if_false]
    obtain ⟨v2, hv2⟩ := vset_exists g.nodes_list id { id := id, name := name } h0 (by omega)
    have hl2 := vset_length _ _ _ _ hv2
    refine ⟨{ g with nodes_list := v2 }, ?_, ?_, ?_⟩
    · simp only [hv2]
    · unfold Graph.SizeOk; simp only; omega
    · simp only; omega

theorem addEdge_ok (g : Graph) (s d : Int) (w : Dbl) (hs : g.SizeOk)
    (hs0 : 0 ≤ s) (hs1 : s < g.numNodes) (hd0 : 0 ≤ d) (hd1 : d < g.numNodes) :
    ∃ g1, g.addEdge s d w = .ok g1 ∧ g1.SizeOk ∧ g1.numNodes = g.numNodes := by
  unfold Graph.SizeOk at hs
  unfold Graph.addEdge
  obtain ⟨src, hsrc⟩ := vget_exists g.nodes_list s hs0 (by omega)
  obtain ⟨v1, hv1⟩ := vset_exists g.nodes_list s
    { src with edges := src.edges ++ [⟨d, w⟩] } hs0 (by omega)
  have hl1 := vset_length _ _ _ _ hv1
  obtain ⟨dst, hdst⟩ := vget_exists v1 d hd0 (by omega)
  obtain ⟨v2, hv2⟩ := vset_exists v1 d { dst with edges := dst.edges ++ [⟨s, w⟩] } hd0 (by omega)
  have hl2 := vset_length _ _ _ _ hv2
  refine ⟨{ g with nodes_list := v2 }, ?_, ?_, rfl⟩
  · simp only [hsrc, hv1, hdst, hv2]
  · unfold Graph.SizeOk; simp only; omega

theorem fixIds_ok : ∀ (k : Nat) (v : List Node) (i : Int), 0 ≤ i → i + k ≤ v.length →
    ∃ w, Map.fixIds v k i = .ok w ∧ w.length = v.length := by
  intro k
  induction k with
  | zero => intro v i _ _; exact ⟨v, rfl, rfl⟩
  | succ k ih =>
    intro v i h0 h1
    have hlt : i < v.length := by push_cast at h1; omega
    obtain ⟨nd, hnd⟩ := vget_exists v i h0 hlt
    unfold Map.fixIds
    simp only [hnd]
    by_cases hid : nd.id = -1
    · obtain ⟨v1, hv1⟩ := vset_exists v i { nd with id := i } h0 hlt
      have hlen := vset_length _ _ _ _ hv1
      obtain ⟨w, hw, hwl⟩ := ih v1 (i + 1) (by omega) (by push_cast at h1; omega)
      refine ⟨w, ?_, by omega⟩
      simp only [hid, if_true, hv1]
      exact hw
    · obtain ⟨w, hw, hwl⟩ := ih v (i + 1) (by omega) (by push_cast at h1; omega)
      refine ⟨w, ?_, hwl⟩
      simp only [hid, if_false]
      exact hw

theorem loadNodes_spec : ∀ (recs : List NodeRecord) (m : Map) (g : Graph) (mx : Int),
    g.SizeOk → g.numNodes = mx + 1 →
    ∃ b m1 g1 mx1, Map.loadNodes m g mx recs = .ok (b, m1, g1, mx1) ∧
      (b = true ↔ ∀ r ∈ recs, NodeRecordValid r) ∧
      (b = true → g1.SizeOk ∧ g1.numNodes = mx1 + 1 ∧
        mx1 = recs.foldl (fun a r => max a r.1) mx) := by
  intro recs
  induction recs with
  | nil =>
    intro m g mx hs hn
    exact ⟨true, m, g, mx, rfl, by simp, fun _ => ⟨hs, hn, rfl⟩⟩
  | cons r rest ih =>
    intro m g mx hs hn
    obtain ⟨id, name⟩ := r
    unfold Map.loadNodes
    by_cases hbad : id < 0 ∨ name = ""
    · refine ⟨false, m, g, mx, by simp only [hbad, if_true], ?_, by simp⟩
      simp only [Bool.false_eq_true, false_iff, List.mem_cons, forall_eq_or_imp, not_and]
      intro hv
      exfalso
      unfold NodeRecordValid at hv
      simp only at hv
      rcases hbad with h | h
      · omega
      · exact hv.2 h
    · simp only [hbad, if_false]
      have h0 : 0 ≤ id := by omega
      obtain ⟨g1, hg1, hs1, hn1⟩ := addNode_ok g id name hs h0
      simp only [hg1]
      have hmx : g1.numNodes = (if id > mx then id else mx) + 1 := by
        rw [hn1, hn]; split <;> omega
      obtain ⟨b, m2, g2, mx2, hrun, hiff, hpost⟩ :=
        ih (if id = 0 then { m with university_name := name } else m) g1
          (if id > mx then id else mx) hs1 hmx
      refine ⟨b, m2, g2, mx2, hrun, ?_, ?_⟩
      · rw [hiff]
        simp only [List.mem_cons, forall_eq_or_imp]
        have hvalid : NodeRecordValid (id, name) := by
          unfold NodeRecordValid
          exact ⟨h0, fun h => hbad (Or.inr h)⟩
        exact ⟨fun h => ⟨hvalid, h⟩, fun h => h.2⟩
      · intro hb
        obtain ⟨a1, a2, a3⟩ := hpost hb
        refine ⟨a1, a2, ?_⟩
        rw [a3, List.foldl_cons]
        congr 1
        split
        · exact (max_eq_right (by omega)).symm
        · exact (max_eq_left (by omega)).symm

theorem loadEdges_spec : ∀ (recs : List EdgeRecord) (g : Graph), g.SizeOk →
    ∃ b g1, Map.loadEdges g recs = .ok (b, g1) ∧
      (b = true ↔ ∀ e ∈ recs, EdgeRecordValid g.numNodes e) := by
  intro recs
  induction recs with
  | nil => intro g _; exact ⟨true, g, rfl, by simp⟩
  | cons r rest ih =>
    intro g hs
    obtain ⟨s, d, w⟩ := r
    unfold Map.loadEdges
    by_cases hbad : s < 0 ∨ s ≥ g.getNumNodes ∨ d < 0 ∨ d ≥ g.getNumNodes ∨ w < 0
    · refine ⟨false, g, by simp only [hbad, if_true], ?_⟩
      simp only [Bool.false_eq_true, false_iff, List.mem_cons, forall_eq_or_imp, not_and]
      intro hv
      exfalso
      unfold EdgeRecordValid at hv
      unfold Graph.getNumNodes at hbad
      simp only at hv
      obtain ⟨⟨a1, a2⟩, ⟨a3, a4⟩, a5⟩ := hv
      rcases hbad with h | h | h | h | h
      · omega
      · omega
      · omega
      · omega
      · exact absurd h (not_lt.mpr a5)
    · simp only [hbad, if_false]
      unfold Graph.getNumNodes at hbad
      have hvalid : EdgeRecordValid g.numNodes (s, d, w) := by
        unfold EdgeRecordValid
        simp only
        refine ⟨⟨by omega, by omega⟩, ⟨by omega, by omega⟩, ?_⟩
        by_contra hw
        exact hbad (Or.inr (Or.inr (Or.inr (Or.inr (not_le.mp hw)))))
      obtain ⟨g1, hg1, hs1, hn1⟩ := addEdge_ok g s d (Dbl.fin w) hs
        hvalid.1.1 hvalid.1.2 hvalid.2.1.1 hvalid.2.1.2
      simp only [hg1]
      obtain ⟨b, g2, hrun, hiff⟩ := ih g1 hs1
      refine ⟨b, g2, hrun, ?_⟩
      rw [hiff, hn1]
      simp only [List.mem_cons, forall_eq_or_imp]
      exact ⟨fun h => ⟨hvalid, h⟩, fun h => h.2⟩

theorem map_to_graph_spec (m : Map) (nodeRecords : List NodeRecord)
    (edgeRecords : List EdgeRecord) :
    ∃ b m1 g1, Map.map_to_graph m {} (some nodeRecords) (some edgeRecords) = .ok (b, m1, g1) ∧
      (b = true ↔ (∀ r ∈ nodeRecords, NodeRecordValid r) ∧
        (∀ e ∈ edgeRecords, EdgeRecordValid (maxNodeId nodeRecords + 1) e)) := by
  have hs0 : ({} : Graph).SizeOk := by unfold Graph.SizeOk; rfl
  obtain ⟨b, m1, g1, mx1, hrun, hiff, hpost⟩ :=
    loadNodes_spec nodeRecords m {} (-1) hs0 (by rfl)
  unfold Map.map_to_graph
  simp only [hrun]
  cases b with
  | false =>
    refine ⟨false, m1, g1, rfl, ?_⟩
    simp only [Bool.false_eq_true, false_iff, not_and]
    intro hv
    exact absurd (hiff.mpr hv) (by simp)
  | true =>
    obtain ⟨a1, a2, a3⟩ := hpost rfl
    unfold Graph.SizeOk at a1
    have hlen : (mx1 + 1).toNat = g1.nodes_list.length := by omega
    simp only [hlen, vresize_self]
    obtain ⟨v1, hv1, hl1⟩ := fixIds_ok g1.nodes_list.length g1.nodes_list 0 (by omega) (by omega)
    simp only [hv1]
    have hs2 : ({ nodes_list := v1, numNodes := mx1 + 1 } : Graph).SizeOk := by
      unfold Graph.SizeOk; simp only; omega
    obtain ⟨b2, g3, hrun2, hiff2⟩ := loadEdges_spec edgeRecords _ hs2
    simp only [hrun2]
    refine ⟨b2, m1, g3, rfl, ?_⟩
    rw [hiff2]
    have hmx : maxNodeId nodeRecords = mx1 := by unfold maxNodeId; exact a3.symm
    simp only [hmx]
    have hall := hiff.mp rfl
    exact ⟨fun h => ⟨hall, h⟩, fun h => h.2⟩

/-! ## Predecessor chains and walks -/

theorem prevChain_nonneg (prev : List Int) (s v : Int) (p : List Int)
    (h : PrevChain prev s v p) : 0 ≤ v := by
  cases h with
  | base h0 => exact (vget_inRange _ _ _ h0).1
  | step u v1 p1 _ hv => exact (vget_inRange _ _ _ hv).1

theorem prevChain_mem (prev : List Int) (s v : Int) (p : List Int)
    (h : PrevChain prev s v p) : v ∈ p := by
  cases h with
  | base h0 => simp
  | step u v1 p1 _ hv => simp

theorem prevChain_congr (prev prev1 : List Int) (s v : Int) (p : List Int)
    (h : PrevChain prev s v p) (hag : ∀ x ∈ p, vget prev1 x = vget prev x) :
    PrevChain prev1 s v p := by
  induction h with
  | base h0 =>
    exact PrevChain.base (by rw [hag s (by simp)]; exact h0)
  | step u v p1 hc hv ih =>
    refine PrevChain.step u v p1 (ih ?_) ?_
    · intro x hx
      exact hag x (List.mem_append_left _ hx)
    · rw [hag v (by simp)]
      exact hv

theorem walkBack_chain (prev : List Int) (s v : Int) (p : List Int)
    (h : PrevChain prev s v p) :
    ∀ (fuel : Nat) (acc : List Int), p.length ≤ fuel →
      Graph.walkBack prev fuel v acc = .ok (p ++ acc) := by
  induction h with
  | base h0 =>
    intro fuel acc hf
    have hs : s ≠ -1 := by have := (vget_inRange _ _ _ h0).1; omega
    cases fuel with
    | zero => simp at hf
    | succ k =>
      unfold Graph.walkBack
      simp only [hs, if_false, h0]
      unfold Graph.walkBack
      simp
  | step u v p1 hc hv ih =>
    intro fuel acc hf
    have hvne : v ≠ -1 := by have := (vget_inRange _ _ _ hv).1; omega
    cases fuel with
    | zero => simp at hf
    | succ k =>
      unfold Graph.walkBack
      simp only [hvne, if_false, hv]
      rw [ih k (v :: acc) (by simp at hf; omega)]
      simp

theorem walk_mem_last (g : Graph) (s t : Int) (p : List Int) (a : Dbl)
    (h : g.Walk s t p a) : p.getLast? = some t := by
  cases h with
  | start => rfl
  | step u p1 a1 e _ _ => simp

theorem walk_head (g : Graph) (s t : Int) (p : List Int) (a : Dbl)
    (h : g.Walk s t p a) : p.head? = some s := by
  induction h with
  | start => rfl
  | step u p1 a1 e _ _ ih =>
    cases p1 with
    | nil => simp at ih
    | cons x xs => simpa using ih

theorem walk_length_pos (g : Graph) (s t : Int) (p : List Int) (a : Dbl)
    (h : g.Walk s t p a) : 0 < p.length := by
  cases h with
  | start => simp
  | step u p1 a1 e _ _ => simp

theorem walk_chain (g : Graph) (s t : Int) (p : List Int) (a : Dbl)
    (h : g.Walk s t p a) : p.Chain' (fun u v => g.Adjacent u v) := by
  induction h with
  | start => simp
  | step u p1 a1 e hw he ih =>
    rw [List.chain'_append]
    refine ⟨ih, by simp, ?_⟩
    intro x hx y hy
    have hl := walk_mem_last g s u p1 a1 hw
    rw [hl] at hx
    simp only [Option.mem_def, Option.some.injEq] at hx
    simp only [List.head?_cons, Option.mem_def, Option.some.injEq] at hy
    subst hx; subst hy
    exact ⟨e, he, rfl⟩

theorem unvisitedCount_set : ∀ (l : List Bool) (k : Nat), l[k]? = some false →
    (l.set k true).count false + 1 = l.count false := by
  intro l
  induction l with
  | nil => intro k h; simp at h
  | cons b l ih =>
    intro k h
    cases k with
    | zero =>
      simp only [List.getElem?_cons_zero, Option.some.injEq] at h
      subst h
      simp
    | succ k =>
      simp only [List.getElem?_cons_succ] at h
      have := ih k h
      simp only [List.set_cons_succ, List.count_cons]
      omega

theorem unvisitedCount_vset (vis w : List Bool) (i : Int) (h0 : vget vis i = .ok false)
    (h : vset vis i true = .ok w) : unvisitedCount w + 1 = unvisitedCount vis := by
  rw [vget_eq_ok] at h0
  rw [vset_eq_ok] at h
  obtain ⟨_, rfl⟩ := h
  exact unvisitedCount_set vis i.toNat h0.2

/-! ## Hop search: invariant of the inner loop -/

theorem exploreEdge_inv (g : Graph) (s t : Int) (hs : g.SizeOk) (hr : g.InRange)
    (st : BState) (L : Int → Nat) (u : Int) (e : Edge) (es : List Edge)
    (h : BMid g s t st L u (e :: es)) :
    ∃ st1 L1, Graph.exploreEdge u st e = .ok st1 ∧ BMid g s t st1 L1 u es ∧
      st1.q.length + unvisitedCount st1.visited = st.q.length + unvisitedCount st.visited := by
  have he : g.HasEdge u e := h.pend e (by simp)
  obtain ⟨nd, hnd, hmem⟩ := he
  have hrange := hr nd (vget_mem _ _ _ hnd) e hmem
  unfold Graph.SizeOk at hs
  have hvlt : e.destination_node_id < st.visited.length := by rw [h.core.lenV]; omega
  have hplt : e.destination_node_id < st.prev.length := by rw [h.core.lenP]; omega
  obtain ⟨b, hb⟩ := vget_exists st.visited e.destination_node_id hrange.1 hvlt
  unfold Graph.exploreEdge
  cases b with
  | true =>
    simp only [hb]
    refine ⟨st, L, rfl, ?_, rfl⟩
    refine { core := h.core, uvis := h.uvis, unq := h.unq,
             pend := fun e1 he1 => h.pend e1 (List.mem_cons_of_mem _ he1),
             closed := ?_, qlo := h.qlo, plo := h.plo }
    intro x hx hxq e1 he1
    rcases h.closed x hx hxq e1 he1 with ⟨hxu, hin⟩ | hgood
    · rcases List.mem_cons.mp hin with h1 | h1
      · right
        subst h1
        refine ⟨hb, ?_⟩
        subst hxu
        by_cases hq : e1.destination_node_id ∈ st.q
        · exact (h.qlo _ hq).2
        · exact Nat.le_succ_of_le (h.plo _ hb hq)
      · left; exact ⟨hxu, h1⟩
    · right; exact hgood
  | false =>
    simp only [hb]
    obtain ⟨vis, hvis⟩ := vset_exists st.visited e.destination_node_id true hrange.1 hvlt
    obtain ⟨pv, hpv⟩ := vset_exists st.prev e.destination_node_id u hrange.1 hplt
    simp only [hvis, hpv]
    have hne : ∀ x, vget st.visited x = .ok true → x ≠ e.destination_node_id := by
      intro x hx hxe
      rw [hxe, hb] at hx
      simp at hx
    have hv3 : vget vis e.destination_node_id = .ok true := vget_vset_same _ _ _ _ hvis
    have hv2 : ∀ x, vget st.visited x = .ok true → vget vis x = .ok true := by
      intro x hx
      rw [vget_vset_ne _ _ _ _ _ hvis (hne x hx)]
      exact hx
    have hv1 : ∀ x, vget vis x = .ok true → x ≠ e.destination_node_id →
        vget st.visited x = .ok true := by
      intro x hx hxe
      rw [vget_vset_ne _ _ _ _ _ hvis hxe] at hx
      exact hx
    obtain ⟨L1, hL, hLv⟩ : ∃ L1 : Int → Nat,
        (∀ x, x ≠ e.destination_node_id → L1 x = L x) ∧
        L1 e.destination_node_id = L u + 1 :=
      ⟨fun y => if y = e.destination_node_id then L u + 1 else L y,
        fun x hx => by simp only [hx, if_false], by simp only [if_true]⟩
    have hvq : e.destination_node_id ∉ st.q := fun hq => hne _ (h.core.qvis _ hq) rfl
    have hune := hne u h.uvis
    refine ⟨_, L1, rfl, ?_, ?_⟩
    · refine { core := ?_, uvis := hv2 u h.uvis, unq := ?_, pend := ?_, closed := ?_,
               qlo := ?_, plo := ?_ }
      · refine { lenV := ?_, lenP := ?_, qvis := ?_, nodup := ?_, tq := ?_, ls := ?_,
                 svis := hv2 s h.core.svis, chain := ?_, sorted := ?_ }
        · rw [vset_length _ _ _ _ hvis]; exact h.core.lenV
        · rw [vset_length _ _ _ _ hpv]; exact h.core.lenP
        · intro x hx
          rcases List.mem_append.mp hx with h1 | h1
          · exact hv2 x (h.core.qvis x h1)
          · simp only [List.mem_singleton] at h1
            rw [h1]; exact hv3
        · refine List.Nodup.append h.core.nodup (List.nodup_singleton _) ?_
          intro x hx hx1
          simp only [List.mem_singleton] at hx1
          rw [hx1] at hx
          exact hvq hx
        · intro ht
          by_cases htv : t = e.destination_node_id
          · simp [htv]
          · exact List.mem_append_left _ (h.core.tq (hv1 t ht htv))
        · rw [hL s (hne s h.core.svis)]; exact h.core.ls
        · intro x hx
          by_cases hxv : x = e.destination_node_id
          · obtain ⟨p, a, hc, hlen, hw, hnd1, hall⟩ := h.core.chain u h.uvis
            refine ⟨p ++ [e.destination_node_id], a.add e.weight, ?_, ?_, ?_, ?_, ?_⟩
            · rw [hxv]
              refine PrevChain.step u _ p (prevChain_congr _ _ _ _ _ hc ?_)
                (vget_vset_same _ _ _ _ hpv)
              intro y hy
              exact vget_vset_ne _ _ _ _ _ hpv (hne y (hall y hy))
            · rw [hxv, hLv]; simp [hlen]
            · rw [hxv]; exact Graph.Walk.step u p a e hw ⟨nd, hnd, hmem⟩
            · refine List.Nodup.append hnd1 (List.nodup_singleton _) ?_
              intro y hy hy1
              simp only [List.mem_singleton] at hy1
              exact hne y (hall y hy) hy1
            · intro y hy
              rcases List.mem_append.mp hy with h1 | h1
              · exact hv2 y (hall y h1)
              · simp only [List.mem_singleton] at h1
                rw [h1]; exact hv3
          · obtain ⟨p, a, hc, hlen, hw, hnd1, hall⟩ := h.core.chain x (hv1 x hx hxv)
            refine ⟨p, a, ?_, ?_, hw, hnd1, fun y hy => hv2 y (hall y hy)⟩
            · refine prevChain_congr _ _ _ _ _ hc ?_
              intro y hy
              exact vget_vset_ne _ _ _ _ _ hpv (hne y (hall y hy))
            · rw [hL x hxv]; exact hlen
        · rw [List.pairwise_append]
          refine ⟨?_, List.pairwise_singleton _ _, ?_⟩
          · refine List.Pairwise.imp_of_mem ?_ h.core.sorted
            intro a b ha hb1 hab
            rw [hL a (hne a (h.core.qvis a ha)), hL b (hne b (h.core.qvis b hb1))]
            exact hab
          · intro a ha b hb1
            simp only [List.mem_singleton] at hb1
            rw [hb1, hLv, hL a (hne a (h.core.qvis a ha))]
            exact (h.qlo a ha).2
      · intro hu
        rcases List.mem_append.mp hu with h1 | h1
        · exact h.unq h1
        · simp only [List.mem_singleton] at h1
          exact hune h1
      · exact fun e1 he1 => h.pend e1 (List.mem_cons_of_mem _ he1)
      · intro x hx hxq e1 he1
        have hxv : x ≠ e.destination_node_id := fun hxe => hxq (by simp [hxe])
        have hxq1 : x ∉ st.q := fun hq => hxq (List.mem_append_left _ hq)
        rcases h.closed x (hv1 x hx hxv) hxq1 e1 he1 with ⟨hxu, hin⟩ | hgood
        · rcases List.mem_cons.mp hin with h1 | h1
          · right
            rw [h1, hLv, hL x hxv, hxu]
            exact ⟨hv3, le_refl _⟩
          · left; exact ⟨hxu, h1⟩
        · right
          refine ⟨hv2 _ hgood.1, ?_⟩
          rw [hL _ (hne _ hgood.1), hL x hxv]
          exact hgood.2
      · intro y hy
        rw [hL u hune]
        rcases List.mem_append.mp hy with h1 | h1
        · rw [hL y (hne y (h.core.qvis y h1))]
          exact h.qlo y h1
        · simp only [List.mem_singleton] at h1
          rw [h1, hLv]
          omega
      · intro x hx hxq
        have hxv : x ≠ e.destination_node_id := fun hxe => hxq (by simp [hxe])
        have hxq1 : x ∉ st.q := fun hq => hxq (List.mem_append_left _ hq)
        rw [hL x hxv, hL u hune]
        exact h.plo x (hv1 x hx hxv) hxq1
    · have := unvisitedCount_vset _ _ _ hb hvis
      simp only [List.length_append, List.length_singleton]
      omega

theorem exploreEdges_inv (g : Graph) (s t : Int) (hs : g.SizeOk) (hr : g.InRange) (u : Int) :
    ∀ (es : List Edge) (st : BState) (L : Int → Nat), BMid g s t st L u es →
    ∃ st1 L1, Graph.exploreEdges u st es = .ok st1 ∧ BMid g s t st1 L1 u [] ∧
      st1.q.length + unvisitedCount st1.visited = st.q.length + unvisitedCount st.visited := by
  intro es
  induction es with
  | nil => intro st L h; exact ⟨st, L, rfl, h, rfl⟩
  | cons e es ih =>
    intro st L h
    obtain ⟨st1, L1, hrun, hinv, hm⟩ := exploreEdge_inv g s t hs hr st L u e es h
    obtain ⟨st2, L2, hrun2, hinv2, hm2⟩ := ih st1 L1 hinv
    refine ⟨st2, L2, ?_, hinv2, by omega⟩
    unfold Graph.exploreEdges
    simp only [hrun]
    exact hrun2

/-! ## Hop search: the main loop -/

theorem bhead_init (g : Graph) (s t : Int) (hs : g.SizeOk) (hs0 : 0 ≤ s)
    (hst : s ≠ t) (vis : List Bool)
    (hvis : vset (List.replicate g.numNodes.toNat false) s true = .ok vis) :
    BHead g s t { q := [s], visited := vis, prev := List.replicate g.numNodes.toNat (-1) }
      (fun _ => 0) := by
  unfold Graph.SizeOk at hs
  have hn : g.numNodes.toNat = g.nodes_list.length := by omega
  have hsr := vset_inRange _ _ _ _ hvis
  simp only [List.length_replicate] at hsr
  have hsv : vget vis s = .ok true := vget_vset_same _ _ _ _ hvis
  have honly : ∀ x, vget vis x = .ok true → x = s := by
    intro x hx
    by_contra hxs
    rw [vget_vset_ne _ _ _ _ _ hvis hxs] at hx
    have := vget_replicate_val _ _ _ _ hx
    simp at this
  refine { core := ?_, closed := ?_, span := ?_, plo := ?_ }
  · refine { lenV := ?_, lenP := ?_, qvis := ?_, nodup := ?_, tq := ?_, ls := rfl,
             svis := hsv, chain := ?_, sorted := ?_ }
    · simp only [vset_length _ _ _ _ hvis, List.length_replicate, hn]
    · simp only [List.length_replicate, hn]
    · intro x hx
      simp only [List.mem_singleton] at hx
      rw [hx]; exact hsv
    · simp
    · intro ht
      exact absurd (honly t ht).symm hst
    · intro v hv
      have hvs := honly v hv
      subst hvs
      refine ⟨[v], Dbl.zero, PrevChain.base ?_, rfl, Graph.Walk.start, by simp, ?_⟩
      · exact vget_replicate _ _ _ hs0 hsr.2
      · intro x hx
        simp only [List.mem_singleton] at hx
        rw [hx]; exact hsv
    · simp
  · intro x hx hxq
    exact absurd (honly x hx) (by simpa using hxq)
  · intro a ha b hb
    simp
  · intro x hx hxq
    exact absurd (honly x hx) (by simpa using hxq)

theorem bhead_pop (g : Graph) (s t : Int) (st : BState) (L : Int → Nat) (u : Int)
    (rest : List Int) (nd : Node) (h : BHead g s t st L) (hq : st.q = u :: rest)
    (hut : u ≠ t) (hnd : vget g.nodes_list u = .ok nd) :
    BMid g s t { st with q := rest } L u nd.edges := by
  have hnodup := h.core.nodup
  have hsorted := h.core.sorted
  rw [hq] at hnodup hsorted
  rw [List.nodup_cons] at hnodup
  rw [List.pairwise_cons] at hsorted
  have huq : u ∈ st.q := by rw [hq]; simp
  have hsub : ∀ x, x ∈ rest → x ∈ st.q := by intro x hx; rw [hq]; exact List.mem_cons_of_mem _ hx
  have hnot : ∀ x, x ∉ rest → x ≠ u → x ∉ st.q := by
    intro x hx hxu hxq
    rw [hq] at hxq
    rcases List.mem_cons.mp hxq with h1 | h1
    · exact hxu h1
    · exact hx h1
  refine { core := ?_, uvis := h.core.qvis u huq, unq := hnodup.1, pend := ?_, closed := ?_,
           qlo := ?_, plo := ?_ }
  · refine { lenV := h.core.lenV, lenP := h.core.lenP, qvis := ?_, nodup := hnodup.2, tq := ?_,
             ls := h.core.ls, svis := h.core.svis, chain := h.core.chain, sorted := hsorted.2 }
    · intro x hx
      exact h.core.qvis x (hsub x hx)
    · intro ht
      have := h.core.tq ht
      rw [hq] at this
      rcases List.mem_cons.mp this with h1 | h1
      · exact absurd h1.symm hut
      · exact h1
  · intro e he
    exact ⟨nd, hnd, he⟩
  · intro x hx hxq e he
    by_cases hxu : x = u
    · left
      refine ⟨hxu, ?_⟩
      obtain ⟨nd1, hnd1, hmem⟩ := he
      rw [hxu, hnd] at hnd1
      injection hnd1 with hnd1
      rw [hnd1]; exact hmem
    · right
      exact h.closed x hx (hnot x hxq hxu) e he
  · intro y hy
    exact ⟨hsorted.1 y hy, h.span u huq y (hsub y hy)⟩
  · intro x hx hxq
    by_cases hxu : x = u
    · rw [hxu]
    · exact h.plo x hx (hnot x hxq hxu) u huq

theorem bmid_done (g : Graph) (s t : Int) (st : BState) (L : Int → Nat) (u : Int)
    (h : BMid g s t st L u []) : BHead g s t st L := by
  refine { core := h.core, closed := ?_, span := ?_, plo := ?_ }
  · intro x hx hxq e he
    rcases h.closed x hx hxq e he with ⟨_, hin⟩ | hgood
    · simp at hin
    · exact hgood
  · intro a ha b hb
    have h1 := h.qlo a ha
    have h2 := h.qlo b hb
    omega
  · intro x hx hxq y hy
    have h1 := h.plo x hx hxq
    have h2 := h.qlo y hy
    omega

theorem bfsLoop_spec (g : Graph) (s t : Int) (hs : g.SizeOk) (hr : g.InRange) :
    ∀ (fuel : Nat) (st : BState) (L : Int → Nat), BHead g s t st L →
      st.q.length + unvisitedCount st.visited ≤ fuel →
      ∃ b st1 st0 L0, Graph.bfsLoop g t fuel st = .ok (b, st1) ∧ BHead g s t st0 L0 ∧
        st1.visited = st0.visited ∧ st1.prev = st0.prev ∧
        (b = true → t ∈ st0.q ∧ ∀ y ∈ st0.q, L0 t ≤ L0 y) ∧ (b = false → st0.q = []) := by
  intro fuel
  induction fuel with
  | zero =>
    intro st L h hm
    have hq : st.q = [] := by
      cases hq : st.q with
      | nil => rfl
      | cons a l => rw [hq] at hm; simp at hm
    refine ⟨false, st, st, L, ?_, h, rfl, rfl, by simp, fun _ => hq⟩
    unfold Graph.bfsLoop
    simp only [hq]
  | succ k ih =>
    intro st L h hm
    cases hq : st.q with
    | nil =>
      refine ⟨false, st, st, L, ?_, h, rfl, rfl, by simp, fun _ => hq⟩
      unfold Graph.bfsLoop
      simp only [hq]
    | cons u rest =>
      by_cases hut : u = t
      · refine ⟨true, { st with q := rest }, st, L, ?_, h, rfl, rfl, ?_, by simp⟩
        · unfold Graph.bfsLoop
          simp only [hq, hut, if_true]
        · intro _
          have hsorted := h.core.sorted
          rw [hq, List.pairwise_cons] at hsorted
          refine ⟨by rw [hq, hut]; simp, ?_⟩
          intro y hy
          rw [hq] at hy
          rcases List.mem_cons.mp hy with h1 | h1
          · rw [h1, hut]
          · rw [← hut]; exact hsorted.1 y h1
      · have huvis := h.core.qvis u (by rw [hq]; simp)
        have hur := vget_inRange _ _ _ huvis
        rw [h.core.lenV] at hur
        obtain ⟨nd, hnd⟩ := vget_exists g.nodes_list u hur.1 hur.2
        have hmid := bhead_pop g s t st L u rest nd h hq hut hnd
        obtain ⟨st1, L1, hrun, hinv, hmeas⟩ :=
          exploreEdges_inv g s t hs hr u nd.edges _ L hmid
        have hhead := bmid_done g s t st1 L1 u hinv
        simp only at hmeas
        rw [hq] at hm
        simp only [List.length_cons] at hm
        obtain ⟨b, st2, st0, L0, hrun2, hh0, e1, e2, e3, e4⟩ := ih st1 L1 hhead (by omega)
        refine ⟨b, st2, st0, L0, ?_, hh0, e1, e2, e3, e4⟩
        unfold Graph.bfsLoop
        simp only [hq, hut, if_false, hnd, hrun]
        exact hrun2

theorem bhead_walk_bound (g : Graph) (s t : Int) (st : BState) (L : Int → Nat)
    (h : BHead g s t st L) (x : Int) (p : List Int) (a : Dbl) (hw : g.Walk s x p a) :
    (∃ y ∈ st.q, L y + 1 ≤ p.length) ∨
    (vget st.visited x = .ok true ∧ x ∉ st.q ∧ L x + 1 ≤ p.length) := by
  induction hw with
  | start =>
    by_cases hq : s ∈ st.q
    · left; exact ⟨s, hq, by simp [h.core.ls]⟩
    · right; exact ⟨h.core.svis, hq, by simp [h.core.ls]⟩
  | step u p1 a1 e hw1 he ih =>
    rcases ih with ⟨y, hy, hle⟩ | ⟨hvis, hnq, hle⟩
    · left
      refine ⟨y, hy, ?_⟩
      simp only [List.length_append, List.length_singleton]
      omega
    · have hc := h.closed u hvis hnq e he
      by_cases hq : e.destination_node_id ∈ st.q
      · left
        refine ⟨_, hq, ?_⟩
        simp only [List.length_append, List.length_singleton]
        omega
      · right
        refine ⟨hc.1, hq, ?_⟩
        simp only [List.length_append, List.length_singleton]
        omega

/-! ## Hop search: the result -/

theorem BFS_spec (g : Graph) (s t : Int) (hs : g.SizeOk) (hr : g.InRange)
    (hs0 : 0 ≤ s) (hs1 : s < g.numNodes) (ht0 : 0 ≤ t) (ht1 : t < g.numNodes) (hst : s ≠ t) :
    ∃ r, Returns (fun fuel => g.BFS fuel s t) r ∧ r.total_weight = Dbl.pinf ∧
      ((r.path_exists = true ∧ (∃ a, g.Walk s t r.node_ids_in_path a) ∧
          r.node_ids_in_path.Nodup ∧
          r.num_stops = (r.node_ids_in_path.length : Int) - 1 ∧
          ∀ p a, g.Walk s t p a → r.node_ids_in_path.length ≤ p.length) ∨
       (r = {} ∧ ¬ g.Reachable s t)) := by
  have hb : ¬ (s ≥ g.numNodes ∨ t ≥ g.numNodes ∨ s < 0 ∨ t < 0) := by omega
  obtain ⟨vis, hvis⟩ := vset_exists (List.replicate g.numNodes.toNat false) s true hs0
    (by simp only [List.length_replicate]; omega)
  have hinit := bhead_init g s t hs hs0 hst vis hvis
  obtain ⟨b, st1, st0, L0, hrun, hh0, e1, e2, e3, e4⟩ :=
    bfsLoop_spec g s t hs hr (1 + unvisitedCount vis) _ _ hinit (le_refl _)
  cases b with
  | false =>
    have hq := e4 rfl
    refine ⟨{}, ?_, rfl, Or.inr ⟨rfl, ?_⟩⟩
    · refine BFS_returns g (1 + unvisitedCount vis) s t _ ?_
      unfold Graph.BFS
      simp only [hb, if_false, hst, hvis, hrun]
      rfl
    · rintro ⟨p, a, hw⟩
      rcases bhead_walk_bound g s t st0 L0 hh0 t p a hw with ⟨y, hy, _⟩ | ⟨hv, hnq, _⟩
      · rw [hq] at hy; simp at hy
      · have := hh0.core.tq hv
        exact hnq this
  | true =>
    obtain ⟨htq, hmin⟩ := e3 rfl
    have htv := hh0.core.qvis t htq
    obtain ⟨p, a, hc, hlen, hw, hnd, hall⟩ := hh0.core.chain t htv
    have hwb := walkBack_chain st0.prev s t p hc
    refine ⟨{ path_exists := true, node_ids_in_path := p,
              num_stops := (p.length : Int) - 1 }, ?_, rfl, Or.inl ⟨rfl, ⟨a, hw⟩, hnd, rfl, ?_⟩⟩
    · refine BFS_returns g
        ((1 + unvisitedCount vis) + p.length) s t _ ?_
      unfold Graph.BFS
      simp only [hb, if_false, hst, hvis]
      rw [bfsLoop_fuel_le g t _ _ _ _ hrun (Nat.le_add_right _ _)]
      simp only [if_true]
      rw [e2, hwb _ [] (Nat.le_add_left _ _)]
      simp
    · intro p1 a1 hw1
      simp only
      rcases bhead_walk_bound g s t st0 L0 hh0 t p1 a1 hw1 with ⟨y, hy, hle⟩ | ⟨hv, hnq, _⟩
      · have := hmin y hy
        omega
      · exact absurd htq hnq

/-! ## Rounding to binary64 -/

theorem bitLenAux_zero (f : Nat) : Dbl.bitLenAux f 0 = 0 := by
  cases f <;> simp [Dbl.bitLenAux]

theorem bitLenAux_lt : ∀ (f n : Nat), n ≤ f → n < 2 ^ Dbl.bitLenAux f n := by
  intro f
  induction f with
  | zero =>
    intro n hn
    have : n = 0 := by omega
    subst this
    simp [Dbl.bitLenAux]
  | succ f ih =>
    intro n hn
    unfold Dbl.bitLenAux
    by_cases h0 : n = 0
    · simp [h0]
    · simp only [if_neg h0]
      have := ih (n / 2) (by omega)
      rw [pow_succ]
      omega

theorem bitLenAux_le : ∀ (f n : Nat), n ≠ 0 → n ≤ f →
    2 ^ (Dbl.bitLenAux f n - 1) ≤ n := by
  intro f
  induction f with
  | zero =>
    intro n h0 hn
    omega
  | succ f ih =>
    intro n h0 hn
    unfold Dbl.bitLenAux
    simp only [if_neg h0, Nat.add_sub_cancel]
    by_cases h2 : n / 2 = 0
    · rw [h2, bitLenAux_zero]
      simp
      omega
    · have h1 := ih (n / 2) h2 (by omega)
      have h3 := bitLenAux_lt f (n / 2) (by omega)
      have hpos : 1 ≤ Dbl.bitLenAux f (n / 2) := by
        by_contra hc
        have : Dbl.bitLenAux f (n / 2) = 0 := by omega
        rw [this] at h3
        simp at h3
        exact h2 h3
      have : Dbl.bitLenAux f (n / 2) = (Dbl.bitLenAux f (n / 2) - 1) + 1 := by omega
      rw [this, pow_succ]
      omega

theorem bitLen_lt (n : Nat) : n < 2 ^ Dbl.bitLen n := bitLenAux_lt n n (le_refl n)

theorem bitLen_le (n : Nat) (h : n ≠ 0) : 2 ^ (Dbl.bitLen n - 1) ≤ n :=
  bitLenAux_le n n h (le_refl n)

theorem bitLen_le_of_lt (n j : Nat) (h : n < 2 ^ j) : Dbl.bitLen n ≤ j := by
  by_cases h0 : n = 0
  · subst h0
    unfold Dbl.bitLen
    rw [bitLenAux_zero]
    exact Nat.zero_le j
  · have h1 := bitLen_le n h0
    have h2 : 2 ^ (Dbl.bitLen n - 1) < 2 ^ j := lt_of_le_of_lt h1 h
    have h3 := (Nat.pow_lt_pow_iff_right (by norm_num : 1 < 2)).mp h2
    omega

theorem bitLen_mono (m n : Nat) (h : m ≤ n) : Dbl.bitLen m ≤ Dbl.bitLen n :=
  bitLen_le_of_lt m _ (lt_of_le_of_lt h (bitLen_lt n))

theorem roundEven_bounds (x : ℚ) :
    ⌊x⌋ ≤ Dbl.roundEven x ∧ Dbl.roundEven x ≤ ⌊x⌋ + 1 := by
  unfold Dbl.roundEven
  split_ifs <;> constructor <;> omega

theorem roundEven_intCast (n : Int) : Dbl.roundEven (n : ℚ) = n := by
  unfold Dbl.roundEven
  simp

theorem roundEven_mono (x y : ℚ) (h : x ≤ y) : Dbl.roundEven x ≤ Dbl.roundEven y := by
  have hf : ⌊x⌋ ≤ ⌊y⌋ := Int.floor_mono h
  rcases lt_or_eq_of_le hf with hlt | heq
  · have h1 := (roundEven_bounds x).2
    have h2 := (roundEven_bounds y).1
    omega
  · unfold Dbl.roundEven
    rw [heq]
    have hxy : x - (⌊y⌋ : ℚ) ≤ y - (⌊y⌋ : ℚ) := by linarith
    split_ifs <;> first | omega | (exfalso; linarith)

theorem roundEven_le_of_le (x : ℚ) (n : Int) (h : x ≤ n) : Dbl.roundEven x ≤ n := by
  have := roundEven_mono x n h
  rwa [roundEven_intCast] at this

theorem le_roundEven_of_le (x : ℚ) (n : Int) (h : (n : ℚ) ≤ x) : n ≤ Dbl.roundEven x := by
  have := roundEven_mono n x h
  rwa [roundEven_intCast] at this

theorem lt_pow_bitLen_floor (A : ℚ) : A < 2 ^ Dbl.bitLen ⌊A⌋₊ := by
  have h1 : ⌊A⌋₊ + 1 ≤ 2 ^ Dbl.bitLen ⌊A⌋₊ := bitLen_lt ⌊A⌋₊
  have h2 : A < (⌊A⌋₊ : ℚ) + 1 := Nat.lt_floor_add_one A
  have h3 : ((⌊A⌋₊ + 1 : ℕ) : ℚ) ≤ ((2 ^ Dbl.bitLen ⌊A⌋₊ : ℕ) : ℚ) :=
    Nat.cast_le.mpr h1
  push_cast at h3
  linarith

theorem gridExp_mono (A B : ℚ) (h : A ≤ B) : Dbl.gridExp A ≤ Dbl.gridExp B := by
  unfold Dbl.gridExp
  exact Nat.sub_le_sub_right (bitLen_mono _ _ (Nat.floor_mono h)) 53

theorem div_gridExp_lt (A : ℚ) : A / 2 ^ Dbl.gridExp A < 2 ^ 53 := by
  have h := lt_pow_bitLen_floor A
  have hpos : (0 : ℚ) < 2 ^ Dbl.gridExp A := by positivity
  rw [div_lt_iff₀ hpos, ← pow_add]
  refine lt_of_lt_of_le h ?_
  apply pow_le_pow_right₀ (by norm_num)
  unfold Dbl.gridExp
  omega

theorem roundGrid_eq_natCast (A : ℚ) (h0 : 0 ≤ A) :
    ∃ m : Nat, m ≤ 2 ^ 53 ∧ Dbl.roundGrid A = ((m * 2 ^ Dbl.gridExp A : ℕ) : ℚ) := by
  have hpos : (0 : ℚ) < 2 ^ Dbl.gridExp A := by positivity
  have hm0 : 0 ≤ Dbl.roundEven (A / 2 ^ Dbl.gridExp A) :=
    le_roundEven_of_le _ 0 (by push_cast; exact div_nonneg h0 (le_of_lt hpos))
  have hm1 : Dbl.roundEven (A / 2 ^ Dbl.gridExp A) ≤ 2 ^ 53 :=
    roundEven_le_of_le _ _ (by push_cast; exact le_of_lt (div_gridExp_lt A))
  refine ⟨(Dbl.roundEven (A / 2 ^ Dbl.gridExp A)).toNat, ?_, ?_⟩
  · omega
  · unfold Dbl.roundGrid
    push_cast
    congr 1
    have : ((Dbl.roundEven (A / 2 ^ Dbl.gridExp A)).toNat : ℤ) =
        Dbl.roundEven (A / 2 ^ Dbl.gridExp A) := Int.toNat_of_nonneg hm0
    exact_mod_cast this.symm

theorem roundGrid_nonneg (A : ℚ) (h0 : 0 ≤ A) : 0 ≤ Dbl.roundGrid A := by
  obtain ⟨m, _, hm⟩ := roundGrid_eq_natCast A h0
  rw [hm]
  exact Nat.cast_nonneg _

theorem roundGrid_natCast_of_dvd (n k : Nat) (hk : Dbl.gridExp (n : ℚ) = k) (hd : 2 ^ k ∣ n) :
    Dbl.roundGrid (n : ℚ) = n := by
  obtain ⟨c, hc⟩ := hd
  unfold Dbl.roundGrid
  rw [hk]
  have h2 : ((n : ℚ) / 2 ^ k) = ((c : ℤ) : ℚ) := by
    rw [hc]
    push_cast
    field_simp
  rw [h2, roundEven_intCast, hc]
  push_cast
  ring

theorem roundGrid_fix (A : ℚ) (h0 : 0 ≤ A) :
    Dbl.roundGrid (Dbl.roundGrid A) = Dbl.roundGrid A := by
  obtain ⟨m, hm53, hm⟩ := roundGrid_eq_natCast A h0
  rw [hm]
  apply roundGrid_natCast_of_dvd _ _ rfl
  have hfl : ⌊((m * 2 ^ Dbl.gridExp A : ℕ) : ℚ)⌋₊ = m * 2 ^ Dbl.gridExp A :=
    Nat.floor_natCast _
  unfold Dbl.gridExp at *
  rw [hfl]
  generalize hk : Dbl.bitLen ⌊A⌋₊ - 53 = k at *
  rcases lt_or_eq_of_le hm53 with hlt | heq
  · have hlt2 : m * 2 ^ k < 2 ^ (53 + k) := by
      rw [pow_add]
      exact Nat.mul_lt_mul_of_lt_of_le hlt (le_refl _) (by positivity)
    have hb := bitLen_le_of_lt _ _ hlt2
    have hle : Dbl.bitLen (m * 2 ^ k) - 53 ≤ k := by omega
    exact Dvd.dvd.mul_left (pow_dvd_pow 2 hle) m
  · have hlt2 : m * 2 ^ k < 2 ^ (54 + k) := by
      rw [heq, ← pow_add]
      exact Nat.pow_lt_pow_right (by norm_num) (by omega)
    have hb := bitLen_le_of_lt _ _ hlt2
    have hle : Dbl.bitLen (m * 2 ^ k) - 53 ≤ 53 + k := by omega
    rw [heq, ← pow_add] at hle ⊢
    exact pow_dvd_pow 2 hle

theorem roundGrid_zero : Dbl.roundGrid 0 = 0 := by
  have := roundGrid_natCast_of_dvd 0 0 (by simp [Dbl.gridExp, Dbl.bitLen, Dbl.bitLenAux]) (by simp)
  simpa using this

theorem roundGrid_mono (A B : ℚ) (h0 : 0 ≤ A) (h : A ≤ B) :
    Dbl.roundGrid A ≤ Dbl.roundGrid B := by
  have hk := gridExp_mono A B h
  have hB0 : 0 ≤ B := le_trans h0 h
  rcases lt_or_eq_of_le hk with hlt | heq
  · have hbB : Dbl.bitLen ⌊B⌋₊ = Dbl.gridExp B + 53 := by
      unfold Dbl.gridExp at hlt ⊢
      omega
    have hbA : Dbl.bitLen ⌊A⌋₊ ≤ Dbl.gridExp B + 52 := by
      unfold Dbl.gridExp at hlt ⊢
      omega
    have hN0 : ⌊B⌋₊ ≠ 0 := by
      intro hc
      rw [hc] at hbB
      simp [Dbl.bitLen, Dbl.bitLenAux] at hbB
    have hlow : (2 : ℚ) ^ (Dbl.gridExp B + 52) ≤ B := by
      have h1 := bitLen_le ⌊B⌋₊ hN0
      rw [hbB, Nat.add_sub_assoc (by norm_num : 1 ≤ 53)] at h1
      have h2 : ((2 ^ (Dbl.gridExp B + 52) : ℕ) : ℚ) ≤ ((⌊B⌋₊ : ℕ) : ℚ) :=
        Nat.cast_le.mpr h1
      push_cast at h2
      exact le_trans h2 (Nat.floor_le hB0)
    have hup : A ≤ (2 : ℚ) ^ (Dbl.gridExp B + 52) :=
      le_trans (le_of_lt (lt_pow_bitLen_floor A)) (pow_le_pow_right₀ (by norm_num) hbA)
    have hposA : (0 : ℚ) < 2 ^ Dbl.gridExp A := by positivity
    have hposB : (0 : ℚ) < 2 ^ Dbl.gridExp B := by positivity
    have h1 : Dbl.roundGrid A ≤ (2 : ℚ) ^ (Dbl.gridExp B + 52) := by
      unfold Dbl.roundGrid
      have hle : Dbl.roundEven (A / 2 ^ Dbl.gridExp A) ≤
          2 ^ (Dbl.gridExp B + 52 - Dbl.gridExp A) := by
        apply roundEven_le_of_le
        rw [Int.cast_pow, Int.cast_ofNat, div_le_iff₀ hposA, ← pow_add]
        have : Dbl.gridExp B + 52 - Dbl.gridExp A + Dbl.gridExp A = Dbl.gridExp B + 52 := by omega
        rw [this]
        exact hup
      have hc : ((Dbl.roundEven (A / 2 ^ Dbl.gridExp A) : ℤ) : ℚ) ≤
          ((2 ^ (Dbl.gridExp B + 52 - Dbl.gridExp A) : ℤ) : ℚ) := Int.cast_le.mpr hle
      rw [Int.cast_pow, Int.cast_ofNat] at hc
      calc (Dbl.roundEven (A / 2 ^ Dbl.gridExp A) : ℚ) * 2 ^ Dbl.gridExp A
          ≤ 2 ^ (Dbl.gridExp B + 52 - Dbl.gridExp A) * 2 ^ Dbl.gridExp A :=
            mul_le_mul_of_nonneg_right hc (le_of_lt hposA)
        _ = 2 ^ (Dbl.gridExp B + 52) := by
            have e : Dbl.gridExp B + 52 - Dbl.gridExp A + Dbl.gridExp A =
                Dbl.gridExp B + 52 := by omega
            rw [← pow_add, e]
    have h2 : (2 : ℚ) ^ (Dbl.gridExp B + 52) ≤ Dbl.roundGrid B := by
      unfold Dbl.roundGrid
      obtain ⟨p, hp⟩ : ∃ p : ℕ, p = 52 := ⟨_, rfl⟩
      have hle : (2 : ℤ) ^ p ≤ Dbl.roundEven (B / 2 ^ Dbl.gridExp B) := by
        apply le_roundEven_of_le
        rw [Int.cast_pow, Int.cast_ofNat, le_div_iff₀ hposB, ← pow_add]
        have : p + Dbl.gridExp B = Dbl.gridExp B + 52 := by omega
        rw [this]
        exact hlow
      have hc : (((2 : ℤ) ^ p : ℤ) : ℚ) ≤
          ((Dbl.roundEven (B / 2 ^ Dbl.gridExp B) : ℤ) : ℚ) := Int.cast_le.mpr hle
      rw [Int.cast_pow, Int.cast_ofNat] at hc
      calc (2 : ℚ) ^ (Dbl.gridExp B + 52) = 2 ^ p * 2 ^ Dbl.gridExp B := by
            have e : p + Dbl.gridExp B = Dbl.gridExp B + 52 := by omega
            rw [← pow_add, e]
        _ ≤ (Dbl.roundEven (B / 2 ^ Dbl.gridExp B) : ℚ) * 2 ^ Dbl.gridExp B :=
            mul_le_mul_of_nonneg_right hc (le_of_lt hposB)
    exact le_trans h1 h2
  · unfold Dbl.roundGrid
    rw [heq]
    have hposB : (0 : ℚ) < 2 ^ Dbl.gridExp B := by positivity
    have hle : Dbl.roundEven (A / 2 ^ Dbl.gridExp B) ≤ Dbl.roundEven (B / 2 ^ Dbl.gridExp B) :=
      roundEven_mono _ _ (div_le_div_of_nonneg_right h (le_of_lt hposB))
    exact mul_le_mul_of_nonneg_right (Int.cast_le.mpr hle) (le_of_lt hposB)

theorem Dbl.scale_pos : (0 : ℚ) < Dbl.scale := by
  unfold Dbl.scale
  positivity

theorem Dbl.round64_of_nonneg (q : ℚ) (h : 0 ≤ q) :
    Dbl.round64 q = if Dbl.limit ≤ Dbl.roundGrid (q * Dbl.scale) then Dbl.pinf
      else Dbl.fin (Dbl.roundGrid (q * Dbl.scale) / Dbl.scale) := by
  unfold Dbl.round64
  rw [if_pos h]

theorem Dbl.round64_of_neg (q : ℚ) (h : q < 0) :
    Dbl.round64 q = if Dbl.limit ≤ Dbl.roundGrid (-q * Dbl.scale) then Dbl.ninf
      else Dbl.fin (-(Dbl.roundGrid (-q * Dbl.scale) / Dbl.scale)) := by
  unfold Dbl.round64
  rw [if_neg (not_le.mpr h)]

theorem Dbl.round64_zero : Dbl.round64 0 = Dbl.zero := by
  rw [Dbl.round64_of_nonneg 0 (le_refl 0), zero_mul, roundGrid_zero]
  have : ¬ Dbl.limit ≤ 0 := by
    unfold Dbl.limit
    exact not_le.mpr (by positivity)
  rw [if_neg this, zero_div]
  rfl

theorem Dbl.round64_mono (a b : ℚ) (h : a ≤ b) :
    (Dbl.round64 a).le (Dbl.round64 b) = true := by
  have hS := Dbl.scale_pos
  by_cases ha : 0 ≤ a
  · have hb : 0 ≤ b := le_trans ha h
    have hm : Dbl.roundGrid (a * Dbl.scale) ≤ Dbl.roundGrid (b * Dbl.scale) :=
      roundGrid_mono _ _ (mul_nonneg ha (le_of_lt hS)) (mul_le_mul_of_nonneg_right h (le_of_lt hS))
    rw [Dbl.round64_of_nonneg a ha, Dbl.round64_of_nonneg b hb]
    by_cases h1 : Dbl.limit ≤ Dbl.roundGrid (a * Dbl.scale)
    · rw [if_pos h1, if_pos (le_trans h1 hm)]
      rfl
    · rw [if_neg h1]
      by_cases h2 : Dbl.limit ≤ Dbl.roundGrid (b * Dbl.scale)
      · rw [if_pos h2]
        rfl
      · rw [if_neg h2]
        simp only [Dbl.le, decide_eq_true_eq]
        exact div_le_div_of_nonneg_right hm (le_of_lt hS)
  · have ha' : a < 0 := not_le.mp ha
    have hna : 0 ≤ Dbl.roundGrid (-a * Dbl.scale) :=
      roundGrid_nonneg _ (mul_nonneg (by linarith) (le_of_lt hS))
    rw [Dbl.round64_of_neg a ha']
    by_cases hb : 0 ≤ b
    · have hnb : 0 ≤ Dbl.roundGrid (b * Dbl.scale) :=
        roundGrid_nonneg _ (mul_nonneg hb (le_of_lt hS))
      rw [Dbl.round64_of_nonneg b hb]
      by_cases h1 : Dbl.limit ≤ Dbl.roundGrid (-a * Dbl.scale) <;>
        by_cases h2 : Dbl.limit ≤ Dbl.roundGrid (b * Dbl.scale) <;>
        simp only [h1, h2, if_true, if_false, Dbl.le, decide_eq_true_eq]
      have e1 : 0 ≤ Dbl.roundGrid (-a * Dbl.scale) / Dbl.scale := div_nonneg hna (le_of_lt hS)
      have e2 : 0 ≤ Dbl.roundGrid (b * Dbl.scale) / Dbl.scale := div_nonneg hnb (le_of_lt hS)
      linarith
    · have hb' : b < 0 := not_le.mp hb
      have hm : Dbl.roundGrid (-b * Dbl.scale) ≤ Dbl.roundGrid (-a * Dbl.scale) :=
        roundGrid_mono _ _ (mul_nonneg (by linarith) (le_of_lt hS))
          (mul_le_mul_of_nonneg_right (by linarith) (le_of_lt hS))
      rw [Dbl.round64_of_neg b hb']
      by_cases h1 : Dbl.limit ≤ Dbl.roundGrid (-a * Dbl.scale)
      · rw [if_pos h1]
        by_cases h2 : Dbl.limit ≤ Dbl.roundGrid (-b * Dbl.scale)
        · rw [if_pos h2]
          rfl
        · rw [if_neg h2]
          rfl
      · rw [if_neg h1, if_neg (fun hc => h1 (le_trans hc hm))]
        simp only [Dbl.le, decide_eq_true_eq]
        have := div_le_div_of_nonneg_right hm (le_of_lt hS)
        linarith

theorem Dbl.round64_fix (a v : ℚ) (h : Dbl.round64 a = Dbl.fin v) :
    Dbl.round64 v = Dbl.fin v := by
  have hS := Dbl.scale_pos
  by_cases ha : 0 ≤ a
  · rw [Dbl.round64_of_nonneg a ha] at h
    by_cases h1 : Dbl.limit ≤ Dbl.roundGrid (a * Dbl.scale)
    · rw [if_pos h1] at h
      cases h
    · rw [if_neg h1] at h
      replace h := Dbl.fin.inj h
      have hA : 0 ≤ a * Dbl.scale := mul_nonneg ha (le_of_lt hS)
      have hv0 : 0 ≤ v := by
        rw [← h]
        exact div_nonneg (roundGrid_nonneg _ hA) (le_of_lt hS)
      have hvS : v * Dbl.scale = Dbl.roundGrid (a * Dbl.scale) := by
        rw [← h]
        field_simp
      rw [Dbl.round64_of_nonneg v hv0, hvS, roundGrid_fix _ hA, if_neg h1, h]
  · have ha' : a < 0 := not_le.mp ha
    rw [Dbl.round64_of_neg a ha'] at h
    by_cases h1 : Dbl.limit ≤ Dbl.roundGrid (-a * Dbl.scale)
    · rw [if_pos h1] at h
      cases h
    · rw [if_neg h1] at h
      replace h := Dbl.fin.inj h
      have hA : 0 ≤ -a * Dbl.scale := mul_nonneg (by linarith) (le_of_lt hS)
      have hR := roundGrid_nonneg _ hA
      rcases lt_or_eq_of_le hR with hpos | hzero
      · have hv0 : v < 0 := by
          rw [← h]
          have := div_pos hpos hS
          linarith
        have hvS : -v * Dbl.scale = Dbl.roundGrid (-a * Dbl.scale) := by
          rw [← h]
          field_simp
        rw [Dbl.round64_of_neg v hv0, hvS, roundGrid_fix _ hA, if_neg h1, h]
      · have hv : v = 0 := by
          rw [← h, ← hzero]
          simp
        rw [hv]
        exact Dbl.round64_zero

theorem Dbl.round64_le_self (a : ℚ) : (Dbl.round64 a).le (Dbl.round64 a) = true :=
  Dbl.round64_mono a a (le_refl a)

theorem Dbl.isDouble_round64 (a : ℚ) : (Dbl.round64 a).isDouble = true := by
  cases h : Dbl.round64 a with
  | nan => rfl
  | ninf => rfl
  | pinf => rfl
  | fin v =>
    simp only [Dbl.isDouble, decide_eq_true_eq]
    exact Dbl.round64_fix a v h

theorem Dbl.isDouble_add (a b : Dbl) : (a.add b).isDouble = true := by
  cases a <;> cases b <;> first | rfl | exact Dbl.isDouble_round64 _

theorem Dbl.isDouble_zero : Dbl.zero.isDouble = true := by
  simp only [Dbl.isDouble, Dbl.zero, decide_eq_true_eq]
  exact Dbl.round64_zero

/-! ## Order and addition on `Dbl` -/

theorem Dbl.lt_irrefl (a : Dbl) : a.lt a = false := by
  cases a <;> simp [Dbl.lt]

theorem Dbl.lt_trans (a b c : Dbl) (h1 : a.lt b = true) (h2 : b.lt c = true) :
    a.lt c = true := by
  cases a <;> cases b <;> cases c <;> simp [Dbl.lt] at * <;> linarith

theorem Dbl.lt_pinf_of_lt (a b : Dbl) (h : a.lt b = true) : a.lt Dbl.pinf = true := by
  cases a <;> cases b <;> simp [Dbl.lt] at *

theorem Dbl.le_self_of_lt (a b : Dbl) (h : a.lt b = true) : a.le a = true := by
  cases a <;> cases b <;> simp [Dbl.lt, Dbl.le] at *

theorem Dbl.le_self_of_le (a b : Dbl) (h : a.le b = true) : a.le a = true := by
  cases a <;> cases b <;> simp [Dbl.le] at *

theorem Dbl.le_self_of_le_right (a b : Dbl) (h : a.le b = true) : b.le b = true := by
  cases a <;> cases b <;> simp [Dbl.le] at *

theorem Dbl.le_trans (a b c : Dbl) (h1 : a.le b = true) (h2 : b.le c = true) :
    a.le c = true := by
  cases a <;> cases b <;> cases c <;> simp [Dbl.le] at * <;> linarith

theorem Dbl.le_antisymm (a b : Dbl) (h1 : a.le b = true) (h2 : b.le a = true) : a = b := by
  cases a <;> cases b <;> simp [Dbl.le] at * <;> linarith

theorem Dbl.le_of_lt (a b : Dbl) (h : a.lt b = true) : a.le b = true := by
  cases a <;> cases b <;> simp [Dbl.lt, Dbl.le] at * <;> linarith

theorem Dbl.le_of_not_lt (a b : Dbl) (ha : a.le a = true) (hb : b.le b = true)
    (h : a.lt b = false) : b.le a = true := by
  cases a <;> cases b <;> simp [Dbl.lt, Dbl.le] at * <;> linarith

theorem Dbl.not_lt_of_le (a b : Dbl) (h : b.le a = true) : a.lt b = false := by
  cases a <;> cases b <;> simp [Dbl.lt, Dbl.le] at * <;> linarith

theorem Dbl.lt_of_lt_of_le (a b c : Dbl) (h1 : a.lt b = true) (h2 : b.le c = true) :
    a.lt c = true := by
  cases a <;> cases b <;> cases c <;> simp [Dbl.lt, Dbl.le] at * <;> linarith

theorem Dbl.ne_pinf_of_lt (a b : Dbl) (h : a.lt b = true) : a ≠ Dbl.pinf := by
  cases a <;> cases b <;> simp [Dbl.lt] at *

theorem Dbl.lt_of_le_of_lt (a b c : Dbl) (h1 : a.le b = true) (h2 : b.lt c = true) :
    a.lt c = true := by
  cases a <;> cases b <;> cases c <;> simp [Dbl.lt, Dbl.le] at * <;> linarith

theorem Dbl.add_fin_fin (a b : ℚ) : (Dbl.fin a).add (Dbl.fin b) = Dbl.round64 (a + b) := rfl

theorem Dbl.ninf_lt_of_lt (x c : Dbl) (h : x.lt c = true) (hx : x.le x = true) :
    Dbl.ninf.lt c = true := by
  cases x <;> cases c <;> simp [Dbl.lt, Dbl.le] at *

theorem Dbl.add_lt_of_le (a b w c : Dbl) (h1 : a.le b = true)
    (h2 : (b.add w).lt c = true) : (a.add w).lt c = true := by
  cases a with
  | nan => simp [Dbl.le] at h1
  | pinf =>
    cases b <;> simp [Dbl.le] at h1
    exact h2
  | ninf =>
    cases b with
    | nan => simp [Dbl.le] at h1
    | ninf => exact h2
    | pinf => cases w <;> cases c <;> simp [Dbl.add, Dbl.lt] at h2 ⊢
    | fin qb =>
      cases w with
      | nan => simp [Dbl.add, Dbl.lt] at h2
      | ninf => exact h2
      | pinf => cases c <;> simp [Dbl.add, Dbl.lt] at h2
      | fin qw =>
        rw [Dbl.add_fin_fin] at h2
        exact Dbl.ninf_lt_of_lt _ c h2 (Dbl.round64_le_self _)
  | fin qa =>
    cases b with
    | nan => simp [Dbl.le] at h1
    | ninf => simp [Dbl.le] at h1
    | pinf => cases w <;> cases c <;> simp [Dbl.add, Dbl.lt] at h2 ⊢
    | fin qb =>
      cases w with
      | nan => exact h2
      | ninf => exact h2
      | pinf => exact h2
      | fin qw =>
        rw [Dbl.add_fin_fin] at h2 ⊢
        simp only [Dbl.le, decide_eq_true_eq] at h1
        exact Dbl.lt_of_le_of_lt _ _ c (Dbl.round64_mono _ _ (by linarith)) h2

theorem Dbl.le_add_of_nonneg (a w : Dbl) (ha : Dbl.zero.le a = true)
    (hw : Dbl.zero.le w = true) (hd : a.isDouble = true) : a.le (a.add w) = true := by
  cases a with
  | nan => simp [Dbl.le, Dbl.zero] at ha
  | ninf => simp [Dbl.le, Dbl.zero] at ha
  | pinf => cases w <;> simp [Dbl.le, Dbl.zero, Dbl.add] at hw ⊢
  | fin qa =>
    cases w with
    | nan => simp [Dbl.le, Dbl.zero] at hw
    | ninf => simp [Dbl.le, Dbl.zero] at hw
    | pinf => rfl
    | fin qw =>
      simp only [Dbl.le, Dbl.zero, decide_eq_true_eq] at hw
      simp only [Dbl.isDouble, decide_eq_true_eq] at hd
      rw [Dbl.add_fin_fin]
      have := Dbl.round64_mono qa (qa + qw) (by linarith)
      rw [hd] at this
      exact this

theorem Dbl.add_nonneg (a w : Dbl) (ha : Dbl.zero.le a = true)
    (hw : Dbl.zero.le w = true) : Dbl.zero.le (a.add w) = true := by
  cases a with
  | nan => simp [Dbl.le, Dbl.zero] at ha
  | ninf => simp [Dbl.le, Dbl.zero] at ha
  | pinf => cases w <;> simp [Dbl.le, Dbl.zero, Dbl.add] at hw ⊢
  | fin qa =>
    cases w with
    | nan => simp [Dbl.le, Dbl.zero] at hw
    | ninf => simp [Dbl.le, Dbl.zero] at hw
    | pinf => rfl
    | fin qw =>
      simp only [Dbl.le, Dbl.zero, decide_eq_true_eq] at hw ha
      rw [Dbl.add_fin_fin]
      have := Dbl.round64_mono 0 (qa + qw) (by linarith)
      rw [Dbl.round64_zero] at this
      exact this

theorem Dbl.add_le_add (a b w : Dbl) (h : a.le b = true) (ha : Dbl.zero.le a = true)
    (hw : Dbl.zero.le w = true) : (a.add w).le (b.add w) = true := by
  cases w with
  | nan => simp [Dbl.le, Dbl.zero] at hw
  | ninf => simp [Dbl.le, Dbl.zero] at hw
  | pinf => cases a <;> cases b <;> simp [Dbl.le, Dbl.zero, Dbl.add] at h ha ⊢
  | fin qw =>
    cases a with
    | nan => simp [Dbl.le, Dbl.zero] at ha
    | ninf => simp [Dbl.le, Dbl.zero] at ha
    | pinf =>
      cases b <;> simp [Dbl.le] at h
      rfl
    | fin qa =>
      cases b with
      | nan => simp [Dbl.le] at h
      | ninf => simp [Dbl.le] at h
      | pinf =>
        rw [Dbl.add_fin_fin]
        show (Dbl.round64 (qa + qw)).le Dbl.pinf = true
        have := Dbl.round64_le_self (qa + qw)
        cases hr : Dbl.round64 (qa + qw) <;> rw [hr] at this <;> simp [Dbl.le] at this ⊢
      | fin qb =>
        simp only [Dbl.le, decide_eq_true_eq] at h
        rw [Dbl.add_fin_fin, Dbl.add_fin_fin]
        exact Dbl.round64_mono _ _ (by linarith)

theorem Dbl.le_pinf (a : Dbl) (ha : a.le a = true) : a.le Dbl.pinf = true := by
  cases a <;> simp [Dbl.le] at *

theorem Dbl.eq_pinf_of_le (a : Dbl) (h : Dbl.pinf.le a = true) : a = Dbl.pinf := by
  cases a <;> simp [Dbl.le] at *

theorem Dbl.pinf_add (w : Dbl) (hw : Dbl.zero.le w = true) : Dbl.pinf.add w = Dbl.pinf := by
  cases w <;> simp [Dbl.le, Dbl.add, Dbl.zero] at *

theorem Dbl.ne_pinf_iff (a : Dbl) (ha : a.le a = true) :
    a.ne Dbl.DOUBLE_INF = true ↔ a ≠ Dbl.pinf := by
  cases a <;> simp [Dbl.le, Dbl.ne, Dbl.DOUBLE_INF] at *

theorem Dbl.zero_le_zero : Dbl.zero.le Dbl.zero = true := by
  simp [Dbl.le, Dbl.zero]

theorem Dbl.zero_lt_pinf : Dbl.zero.lt Dbl.pinf = true := by
  simp [Dbl.lt, Dbl.zero]

theorem Dbl.ne_pinf_of_isFinite (a : Dbl) (ha : a.isFinite = true) : a ≠ Dbl.pinf := by
  cases a <;> simp [Dbl.isFinite] at *

/-! ## Weighted search: invariant of the inner loop -/

theorem dmid_skip (g : Graph) (s : Int) (st : DState) (u : Int) (rd : Dbl) (fresh : Bool)
    (e : Edge) (es : List Edge) (h : DMid g s st u rd fresh (e :: es))
    (hno : vget st.visited e.destination_node_id = .ok false →
      ∀ dv, vget st.distances e.destination_node_id = .ok dv →
        (rd.add e.weight).lt dv = false) :
    DMid g s st u rd fresh es := by
  refine { core := h.core, uvis := h.uvis, rdl := h.rdl, ud := h.ud,
           pend := fun e1 he1 => h.pend e1 (List.mem_cons_of_mem _ he1),
           rel := ?_, vrd := h.vrd }
  intro x dx hx hdx e1 he1 hu1 dv hdv
  rcases h.rel x dx hx hdx e1 he1 hu1 dv hdv with ⟨hxu, hin, hf⟩ | hgood
  · rcases List.mem_cons.mp hin with h1 | h1
    · right
      obtain ⟨du, hdu, _, hfr⟩ := h.ud
      rw [hxu, hdu] at hdx
      injection hdx with hdx
      rw [← hdx, ← hfr hf, h1]
      rw [h1] at hu1 hdv
      exact hno hu1 dv hdv
    · left; exact ⟨hxu, h1, hf⟩
  · right; exact hgood

theorem dmid_source_visited (g : Graph) (s : Int) (st : DState) (u : Int) (rd : Dbl)
    (fresh : Bool) (es : List Edge) (h : DMid g s st u rd fresh es) :
    vget st.visited s = .ok true := by
  have hsr := vget_inRange _ _ _ h.core.sd
  rw [h.core.lenD, ← h.core.lenV] at hsr
  obtain ⟨b, hb⟩ := vget_exists st.visited s hsr.1 hsr.2
  cases b with
  | true => exact hb
  | false =>
    exfalso
    rcases h.core.pre s Dbl.zero hb h.core.sd (by simp [Dbl.zero]) with ⟨hnone, _⟩ | hsome
    · exact hnone u h.uvis
    · obtain ⟨u1, e1, du1, hp, hv1, _⟩ := hsome
      rw [h.core.sp] at hp
      injection hp with hp
      have := (vget_inRange _ _ _ hv1).1
      omega

theorem relaxEdge_inv (g : Graph) (s : Int) (hs : g.SizeOk) (hr : g.InRange)
    (st : DState) (u : Int) (rd : Dbl) (fresh : Bool) (e : Edge) (es : List Edge)
    (h : DMid g s st u rd fresh (e :: es)) :
    ∃ st1, Graph.relaxEdge rd u st e = .ok st1 ∧ DMid g s st1 u rd fresh es ∧
      st1.visited = st.visited ∧
      st1.pq.length ≤ st.pq.length + (if fresh = true then 1 else 0) := by
  have he : g.HasEdge u e := h.pend e (by simp)
  obtain ⟨nd, hnd, hmem⟩ := he
  have hrange := hr nd (vget_mem _ _ _ hnd) e hmem
  unfold Graph.SizeOk at hs
  have hvlt : e.destination_node_id < st.visited.length := by rw [h.core.lenV]; omega
  have hdlt : e.destination_node_id < st.distances.length := by rw [h.core.lenD]; omega
  have hplt : e.destination_node_id < st.previous.length := by rw [h.core.lenP]; omega
  obtain ⟨b, hb⟩ := vget_exists st.visited e.destination_node_id hrange.1 hvlt
  obtain ⟨dv, hdv⟩ := vget_exists st.distances e.destination_node_id hrange.1 hdlt
  unfold Graph.relaxEdge
  cases b with
  | true =>
    simp only [hb]
    refine ⟨st, rfl, dmid_skip g s st u rd fresh e es h ?_, rfl, by omega⟩
    intro hf
    rw [hb] at hf
    simp at hf
  | false =>
    simp only [hb, hdv]
    by_cases hlt : (rd.add e.weight).lt dv = true
    swap
    · simp only [hlt]
      refine ⟨st, rfl, dmid_skip g s st u rd fresh e es h ?_, rfl, by omega⟩
      intro _ dv1 hdv1
      rw [hdv] at hdv1
      injection hdv1 with hdv1
      rw [← hdv1]
      simpa using hlt
    · simp only [hlt, if_true]
      obtain ⟨ds, hds⟩ := vset_exists st.distances e.destination_node_id
        (rd.add e.weight) hrange.1 hdlt
      obtain ⟨ps, hps⟩ := vset_exists st.previous e.destination_node_id u hrange.1 hplt
      simp only [hds, hps]
      obtain ⟨du, hdu, hdule, hfr⟩ := h.ud
      have hfresh : fresh = true := by
        rcases h.rel u du h.uvis hdu e ⟨nd, hnd, hmem⟩ hb dv hdv with ⟨_, _, hf⟩ | hbad
        · exact hf
        · have := Dbl.add_lt_of_le du rd e.weight dv hdule hlt
          rw [this] at hbad
          simp at hbad
      have hrd : rd = du := hfr hfresh
      have hne : ∀ x, vget st.visited x = .ok true → x ≠ e.destination_node_id := by
        intro x hx hxe
        rw [hxe, hb] at hx
        simp at hx
      have hune := hne u h.uvis
      have hsne := hne s (dmid_source_visited g s st u rd fresh _ h)
      have hdS : vget ds e.destination_node_id = .ok (rd.add e.weight) :=
        vget_vset_same _ _ _ _ hds
      have hdN : ∀ x, x ≠ e.destination_node_id → vget ds x = vget st.distances x :=
        fun x hx => vget_vset_ne _ _ _ _ _ hds hx
      have hpS : vget ps e.destination_node_id = .ok u := vget_vset_same _ _ _ _ hps
      have hpN : ∀ x, x ≠ e.destination_node_id → vget ps x = vget st.previous x :=
        fun x hx => vget_vset_ne _ _ _ _ _ hps hx
      have hnn := Dbl.le_self_of_lt _ _ hlt
      refine ⟨_, rfl, ?_, rfl, ?_⟩
      · refine { core := ?_, uvis := h.uvis, rdl := h.rdl, ud := ?_, pend := ?_, rel := ?_,
                 vrd := ?_ }
        · refine { lenD := ?_, lenP := ?_, lenV := h.core.lenV, pqr := ?_, dnn := ?_,
                   dbl := ?_, pqd := ?_, unv := ?_, sd := ?_, sp := ?_, fst := ?_,
                   chain := ?_, pre := ?_, pos := ?_, vle := ?_, bellv := ?_ }
          · rw [vset_length _ _ _ _ hds]; exact h.core.lenD
          · rw [vset_length _ _ _ _ hps]; exact h.core.lenP
          · intro y hy
            rcases List.mem_append.mp hy with h1 | h1
            · exact h.core.pqr y h1
            · simp only [List.mem_singleton] at h1
              rw [h1]
              exact ⟨⟨hrange.1, by omega⟩, Dbl.lt_pinf_of_lt _ _ hlt⟩
          · intro x d hx
            by_cases hxe : x = e.destination_node_id
            · rw [hxe, hdS] at hx
              injection hx with hx
              rw [← hx]; exact hnn
            · rw [hdN x hxe] at hx
              exact h.core.dnn x d hx
          · intro x d hx
            by_cases hxe : x = e.destination_node_id
            · rw [hxe, hdS] at hx
              injection hx with hx
              rw [← hx]; exact Dbl.isDouble_add _ _
            · rw [hdN x hxe] at hx
              exact h.core.dbl x d hx
          · intro y hy
            rcases List.mem_append.mp hy with h1 | h1
            · obtain ⟨d0, hd0, hle0⟩ := h.core.pqd y h1
              by_cases hye : y.2 = e.destination_node_id
              · refine ⟨rd.add e.weight, by rw [hye]; exact hdS, ?_⟩
                rw [hye, hdv] at hd0
                injection hd0 with hd0
                rw [← hd0] at hle0
                exact Dbl.le_trans _ _ _ (Dbl.le_of_lt _ _ hlt) hle0
              · exact ⟨d0, by rw [hdN _ hye]; exact hd0, hle0⟩
            · simp only [List.mem_singleton] at h1
              rw [h1]
              exact ⟨_, hdS, hnn⟩
          · intro x d hx hd
            by_cases hxe : x = e.destination_node_id
            · right
              rw [hxe, hdS] at hd
              injection hd with hd
              rw [← hd, hxe]
              simp
            · rw [hdN x hxe] at hd
              rcases h.core.unv x d hx hd with h1 | h1
              · left; exact h1
              · right; exact List.mem_append_left _ h1
          · rw [hdN s hsne]; exact h.core.sd
          · rw [hpN s hsne]; exact h.core.sp
          · intro hnone
            exact absurd h.uvis (hnone u)
          · intro v hv
            obtain ⟨p, d, hc, hd, hw, hnd1, hall⟩ := h.core.chain v hv
            refine ⟨p, d, prevChain_congr _ _ _ _ _ hc ?_, ?_, hw, hnd1, hall⟩
            · intro y hy
              exact hpN y (hne y (hall y hy))
            · rw [hdN v (hne v hv)]; exact hd
          · intro v d hv hd hdne
            right
            by_cases hve : v = e.destination_node_id
            · rw [hve, hdS] at hd
              injection hd with hd
              refine ⟨u, e, du, by rw [hve]; exact hpS, h.uvis, ⟨nd, hnd, hmem⟩, hve.symm,
                by rw [hdN u hune]; exact hdu, ?_⟩
              rw [← hd, hrd]
            · rw [hdN v hve] at hd
              rcases h.core.pre v d hv hd hdne with ⟨hnone, _⟩ | hsome
              · exact absurd h.uvis (hnone u)
              · obtain ⟨u1, e1, du1, a1, a2, a3, a4, a5, a6⟩ := hsome
                exact ⟨u1, e1, du1, by rw [hpN v hve]; exact a1, a2, a3, a4,
                  by rw [hdN u1 (hne u1 a2)]; exact a5, a6⟩
          · intro hN x d hx
            by_cases hxe : x = e.destination_node_id
            · rw [hxe, hdS] at hx
              injection hx with hx
              rw [← hx]
              have hdu0 := h.core.pos hN u du hdu
              exact Dbl.add_nonneg rd e.weight (Dbl.le_trans _ _ _ hdu0 hdule)
                (hN nd (vget_mem _ _ _ hnd) e hmem)
            · rw [hdN x hxe] at hx
              exact h.core.pos hN x d hx
          · intro hN x d hx hd y hy
            rw [hdN x (hne x hx)] at hd
            rcases List.mem_append.mp hy with h1 | h1
            · exact h.core.vle hN x d hx hd y h1
            · simp only [List.mem_singleton] at h1
              rw [h1]
              have hdu0 := h.core.pos hN u du hdu
              exact Dbl.le_trans _ _ _ (h.vrd hN x d hx hd)
                (Dbl.le_add_of_nonneg rd e.weight (Dbl.le_trans _ _ _ hdu0 hdule)
                  (hN nd (vget_mem _ _ _ hnd) e hmem)
                  (by rw [hrd]; exact h.core.dbl u du hdu))
          · intro hN x dx hx hdx e1 he1 hv1 dv1 hdv1
            rw [hdN x (hne x hx)] at hdx
            rw [hdN _ (hne _ hv1)] at hdv1
            exact h.core.bellv hN x dx hx hdx e1 he1 hv1 dv1 hdv1
        · exact ⟨du, by rw [hdN u hune]; exact hdu, hdule, hfr⟩
        · exact fun e1 he1 => h.pend e1 (List.mem_cons_of_mem _ he1)
        · intro x dx hx hdx e1 he1 hu1 dv1 hdv1
          rw [hdN x (hne x hx)] at hdx
          by_cases hde : e1.destination_node_id = e.destination_node_id
          · rw [hde, hdS] at hdv1
            injection hdv1 with hdv1
            rw [hde] at hu1
            have hdv2 : vget st.distances e1.destination_node_id = .ok dv := by
              rw [hde]; exact hdv
            have hu2 : vget st.visited e1.destination_node_id = .ok false := by
              rw [hde]; exact hu1
            rcases h.rel x dx hx hdx e1 he1 hu2 dv hdv2 with ⟨hxu, hin, hf⟩ | hgood
            · rcases List.mem_cons.mp hin with h1 | h1
              · right
                rw [hxu, hdu] at hdx
                injection hdx with hdx
                rw [← hdv1, ← hdx, ← hrd, h1]
                exact Dbl.lt_irrefl _
              · left; exact ⟨hxu, h1, hf⟩
            · right
              rw [← hdv1]
              by_contra hcon
              have hcon1 : (dx.add e1.weight).lt (rd.add e.weight) = true := by
                simpa using hcon
              rw [Dbl.lt_trans _ _ _ hcon1 hlt] at hgood
              simp at hgood
          · rw [hdN _ hde] at hdv1
            rcases h.rel x dx hx hdx e1 he1 hu1 dv1 hdv1 with ⟨hxu, hin, hf⟩ | hgood
            · rcases List.mem_cons.mp hin with h1 | h1
              · exact absurd (by rw [h1]) hde
              · left; exact ⟨hxu, h1, hf⟩
            · right; exact hgood
        · intro hN x d hx hd
          rw [hdN x (hne x hx)] at hd
          exact h.vrd hN x d hx hd
      · simp only [List.length_append, List.length_singleton, hfresh, if_true]
        exact le_refl _

theorem relaxEdges_inv (g : Graph) (s : Int) (hs : g.SizeOk) (hr : g.InRange) (u : Int)
    (rd : Dbl) (fresh : Bool) :
    ∀ (es : List Edge) (st : DState), DMid g s st u rd fresh es →
    ∃ st1, Graph.relaxEdges rd u st es = .ok st1 ∧ DMid g s st1 u rd fresh [] ∧
      st1.visited = st.visited ∧
      st1.pq.length ≤ st.pq.length + (if fresh = true then es.length else 0) := by
  intro es
  induction es with
  | nil => intro st h; exact ⟨st, rfl, h, rfl, by simp⟩
  | cons e es ih =>
    intro st h
    obtain ⟨st1, hrun, hinv, hvis, hlen⟩ := relaxEdge_inv g s hs hr st u rd fresh e es h
    obtain ⟨st2, hrun2, hinv2, hvis2, hlen2⟩ := ih st1 hinv
    refine ⟨st2, ?_, hinv2, by rw [hvis2, hvis], ?_⟩
    · unfold Graph.relaxEdges
      simp only [hrun]
      exact hrun2
    · simp only [List.length_cons]
      split at hlen <;> split at hlen2 <;> split <;> simp_all <;> omega

/-! ## Weighted search: the priority queue and the potential -/

theorem foldl_pairMin_spec : ∀ (xs : List (Dbl × Int)) (x : Dbl × Int),
    (∀ y ∈ x :: xs, y.1.le y.1 = true) →
    xs.foldl Graph.pairMin x ∈ x :: xs ∧
      ∀ y ∈ x :: xs, (xs.foldl Graph.pairMin x).1.le y.1 = true := by
  intro xs
  induction xs with
  | nil =>
    intro x hx
    simp only [List.foldl_nil, List.mem_singleton, true_and]
    intro y hy
    rw [hy]; exact hx x (by simp)
  | cons z zs ih =>
    intro x hx
    have hxn : x.1.le x.1 = true := hx x (by simp)
    have hzn : z.1.le z.1 = true := hx z (by simp)
    have hm0 : (Graph.pairMin x z = x ∨ Graph.pairMin x z = z) ∧
        (Graph.pairMin x z).1.le x.1 = true ∧ (Graph.pairMin x z).1.le z.1 = true := by
      unfold Graph.pairMin
      by_cases hlt : Graph.pairLt z x = true
      · rw [if_pos hlt]
        refine ⟨Or.inr rfl, ?_, hzn⟩
        unfold Graph.pairLt at hlt
        simp only [Bool.or_eq_true, Bool.and_eq_true, Bool.not_eq_true'] at hlt
        rcases hlt with h1 | ⟨h1, _⟩
        · exact Dbl.le_of_lt _ _ h1
        · exact Dbl.le_of_not_lt _ _ hxn hzn h1
      · rw [if_neg hlt]
        refine ⟨Or.inl rfl, hxn, ?_⟩
        unfold Graph.pairLt at hlt
        simp only [Bool.or_eq_true, not_or, Bool.not_eq_true] at hlt
        exact Dbl.le_of_not_lt _ _ hzn hxn hlt.1
    obtain ⟨hcase, hle1, hle2⟩ := hm0
    have hx1 : ∀ y ∈ Graph.pairMin x z :: zs, y.1.le y.1 = true := by
      intro y hy
      rcases List.mem_cons.mp hy with h1 | h1
      · rw [h1]; exact Dbl.le_self_of_le _ _ hle1
      · exact hx y (by simp [h1])
    obtain ⟨hin, hmin⟩ := ih (Graph.pairMin x z) hx1
    simp only [List.foldl_cons]
    constructor
    · rcases List.mem_cons.mp hin with h1 | h1
      · rw [h1]
        rcases hcase with h2 | h2
        · rw [h2]; simp
        · rw [h2]; simp
      · simp [h1]
    · intro y hy
      have hm := hmin (Graph.pairMin x z) (by simp)
      rcases List.mem_cons.mp hy with h1 | h1
      · rw [h1]; exact Dbl.le_trans _ _ _ hm hle1
      · rcases List.mem_cons.mp h1 with h2 | h2
        · rw [h2]; exact Dbl.le_trans _ _ _ hm hle2
        · exact hmin y (by simp [h2])

theorem pqTop_spec (pq : List (Dbl × Int)) (top : Dbl × Int)
    (hn : ∀ y ∈ pq, y.1.le y.1 = true) (h : Graph.pqTop pq = some top) :
    top ∈ pq ∧ ∀ y ∈ pq, top.1.le y.1 = true := by
  cases pq with
  | nil => simp [Graph.pqTop] at h
  | cons x xs =>
    simp only [Graph.pqTop, Option.some.injEq] at h
    rw [← h]
    exact foldl_pairMin_spec xs x hn

theorem pqTop_none (pq : List (Dbl × Int)) (h : Graph.pqTop pq = none) : pq = [] := by
  cases pq with
  | nil => rfl
  | cons x xs => simp [Graph.pqTop] at h

theorem pot_set : ∀ (vis : List Bool) (nodes : List Node) (k : Nat) (nd : Node),
    vis[k]? = some false → nodes[k]? = some nd →
    pot (vis.set k true) nodes + (nd.edges.length + 1) = pot vis nodes := by
  intro vis
  induction vis with
  | nil => intro nodes k nd h; simp at h
  | cons b bs ih =>
    intro nodes k nd hv hn
    cases nodes with
    | nil => simp at hn
    | cons n ns =>
      cases k with
      | zero =>
        simp only [List.getElem?_cons_zero, Option.some.injEq] at hv hn
        subst hv; subst hn
        simp [pot]
        omega
      | succ k =>
        simp only [List.getElem?_cons_succ] at hv hn
        have := ih ns k nd hv hn
        simp only [List.set_cons_succ, pot]
        omega

theorem pot_vset (vis w : List Bool) (nodes : List Node) (i : Int) (nd : Node)
    (hv : vget vis i = .ok false) (hn : vget nodes i = .ok nd)
    (h : vset vis i true = .ok w) :
    pot w nodes + (nd.edges.length + 1) = pot vis nodes := by
  rw [vget_eq_ok] at hv hn
  rw [vset_eq_ok] at h
  obtain ⟨_, rfl⟩ := h
  exact pot_set vis nodes i.toNat nd hv.2 hn.2

theorem list_set_same {α : Type} : ∀ (l : List α) (k : Nat) (a : α), l[k]? = some a →
    l.set k a = l := by
  intro l
  induction l with
  | nil => intro k a h; simp
  | cons b bs ih =>
    intro k a h
    cases k with
    | zero =>
      simp only [List.getElem?_cons_zero, Option.some.injEq] at h
      simp [h]
    | succ k =>
      simp only [List.getElem?_cons_succ] at h
      simp [ih k a h]

theorem vset_same_val {α : Type} (v : List α) (i : Int) (a : α) (h : vget v i = .ok a) :
    vset v i a = .ok v := by
  have hr := vget_inRange _ _ _ h
  rw [vget_eq_ok] at h
  rw [vset_eq_ok]
  exact ⟨⟨h.1, by omega⟩, (list_set_same v i.toNat a h.2).symm⟩

/-! ## Weighted search: removing the top of the queue -/

theorem dhead_pop_stale (g : Graph) (s : Int) (st : DState) (top : Dbl × Int) (nd : Node)
    (h : DHead g s st) (hmem : top ∈ st.pq)
    (hb : vget st.visited top.2 = .ok true) (hnd : vget g.nodes_list top.2 = .ok nd) :
    DMid g s { st with visited := st.visited, pq := st.pq.erase top } top.2 top.1 false
      nd.edges := by
  obtain ⟨_, hrdl⟩ := h.core.pqr top hmem
  obtain ⟨du, hdu, hdule⟩ := h.core.pqd top hmem
  have hsub : ∀ y, y ∈ st.pq.erase top → y ∈ st.pq := fun y hy => List.mem_of_mem_erase hy
  refine { core := ?_, uvis := hb, rdl := hrdl, ud := ⟨du, hdu, hdule, by simp⟩,
           pend := fun e he => ⟨nd, hnd, he⟩, rel := ?_, vrd := ?_ }
  · refine { lenD := h.core.lenD, lenP := h.core.lenP, lenV := h.core.lenV, pqr := ?_,
             dnn := h.core.dnn, dbl := h.core.dbl, pqd := ?_, unv := ?_, sd := h.core.sd,
             sp := h.core.sp, fst := ?_, chain := h.core.chain, pre := h.core.pre, pos := h.core.pos,
             vle := ?_, bellv := h.core.bellv }
    · exact fun y hy => h.core.pqr y (hsub y hy)
    · exact fun y hy => h.core.pqd y (hsub y hy)
    · intro x d hx hd
      rcases h.core.unv x d hx hd with h1 | h1
      · left; exact h1
      · right
        have hne : (d, x) ≠ top := by
          intro heq
          rw [← heq] at hb
          simp only at hb
          rw [hx] at hb
          simp at hb
        exact (List.mem_erase_of_ne hne).mpr h1
    · intro hnone
      exact absurd hb (hnone top.2)
    · exact fun hN x d hx hd y hy => h.core.vle hN x d hx hd y (hsub y hy)
  · intro x dx hx hdx e he hu dv hdv
    right
    exact h.rel x dx hx hdx e he hu dv hdv
  · intro hN x d hx hd
    exact h.core.vle hN x d hx hd top hmem

theorem dhead_pop_fresh (g : Graph) (s : Int) (st : DState) (top : Dbl × Int) (nd : Node)
    (vis : List Bool) (h : DHead g s st) (hmem : top ∈ st.pq)
    (hmin : ∀ y ∈ st.pq, top.1.le y.1 = true)
    (hb : vget st.visited top.2 = .ok false) (hnd : vget g.nodes_list top.2 = .ok nd)
    (hvis : vset st.visited top.2 true = .ok vis) :
    DMid g s { st with visited := vis, pq := st.pq.erase top } top.2 top.1 true nd.edges := by
  obtain ⟨_, hrdl⟩ := h.core.pqr top hmem
  obtain ⟨du, hdu, hdule⟩ := h.core.pqd top hmem
  have hsub : ∀ y, y ∈ st.pq.erase top → y ∈ st.pq := fun y hy => List.mem_of_mem_erase hy
  have hrd : top.1 = du := by
    rcases h.core.unv top.2 du hb hdu with h1 | h1
    · rw [h1] at hdule
      have := Dbl.eq_pinf_of_le _ hdule
      rw [this, Dbl.lt_irrefl] at hrdl
      simp at hrdl
    · exact Dbl.le_antisymm _ _ (hmin _ h1) hdule
  have hdune : du ≠ Dbl.pinf := by rw [← hrd]; exact Dbl.ne_pinf_of_lt _ _ hrdl
  have hvS : vget vis top.2 = .ok true := vget_vset_same _ _ _ _ hvis
  have hvN : ∀ x, x ≠ top.2 → vget vis x = vget st.visited x :=
    fun x hx => vget_vset_ne _ _ _ _ _ hvis hx
  have hne : ∀ x, vget st.visited x = .ok true → x ≠ top.2 := by
    intro x hx hxe
    rw [hxe, hb] at hx
    simp at hx
  have hold : ∀ x, vget st.visited x = .ok true → vget vis x = .ok true := by
    intro x hx
    rw [hvN x (hne x hx)]; exact hx
  have hnew : ∀ x, vget vis x = .ok true → x ≠ top.2 → vget st.visited x = .ok true := by
    intro x hx hxe
    rw [hvN x hxe] at hx; exact hx
  have hunv : ∀ x, vget vis x = .ok false → x ≠ top.2 ∧ vget st.visited x = .ok false := by
    intro x hx
    have hxe : x ≠ top.2 := by
      intro hxe
      rw [hxe, hvS] at hx
      simp at hx
    rw [hvN x hxe] at hx
    exact ⟨hxe, hx⟩
  have hwt : ∀ (hN : g.NonNeg) (x : Int) (e : Edge), g.HasEdge x e →
      Dbl.zero.le e.weight = true := by
    intro hN x e he
    obtain ⟨nd1, hnd1, hm1⟩ := he
    exact hN nd1 (vget_mem _ _ _ hnd1) e hm1
  refine { core := ?_, uvis := hvS, rdl := hrdl, ud := ⟨du, hdu, hdule, fun _ => hrd⟩,
           pend := fun e he => ⟨nd, hnd, he⟩, rel := ?_, vrd := ?_ }
  · refine { lenD := h.core.lenD, lenP := h.core.lenP, lenV := ?_, pqr := ?_,
             dnn := h.core.dnn, dbl := h.core.dbl, pqd := ?_, unv := ?_, sd := h.core.sd,
             sp := h.core.sp, fst := ?_, chain := ?_, pre := ?_, pos := h.core.pos,
             vle := ?_, bellv := ?_ }
    · simp only [vset_length _ _ _ _ hvis]; exact h.core.lenV
    · exact fun y hy => h.core.pqr y (hsub y hy)
    · exact fun y hy => h.core.pqd y (hsub y hy)
    · intro x d hx hd
      obtain ⟨hxe, hx1⟩ := hunv x hx
      rcases h.core.unv x d hx1 hd with h1 | h1
      · left; exact h1
      · right
        have hne1 : (d, x) ≠ top := by
          intro heq
          rw [← heq] at hxe
          exact hxe rfl
        exact (List.mem_erase_of_ne hne1).mpr h1
    · intro hnone
      exact absurd hvS (hnone top.2)
    · intro v hv
      by_cases hve : v = top.2
      · rcases h.core.pre top.2 du hb hdu hdune with ⟨hnone, hus⟩ | hsome
        · have hdz : du = Dbl.zero := by
            have := h.core.sd
            rw [← hus, hdu] at this
            injection this
          refine ⟨[s], Dbl.zero, ?_, ?_, ?_, by simp, ?_⟩
          · rw [hve, hus]; exact PrevChain.base h.core.sp
          · rw [hve, ← hdz]; exact hdu
          · rw [hve, hus]; exact Graph.Walk.start
          · intro x hx
            simp only [List.mem_singleton] at hx
            rw [hx, ← hus]; exact hvS
        · obtain ⟨u1, e1, du1, hp, hv1, he1, hdest, hdu1, hdeq⟩ := hsome
          obtain ⟨p, d1, hc, hd1, hw, hnd1, hall⟩ := h.core.chain u1 hv1
          rw [hdu1] at hd1
          injection hd1 with hd1
          refine ⟨p ++ [top.2], du, ?_, ?_, ?_, ?_, ?_⟩
          · rw [hve]; exact PrevChain.step u1 top.2 p hc hp
          · rw [hve]; exact hdu
          · have := Graph.Walk.step u1 p du1 e1 (by rw [hd1]; exact hw) he1
            rw [hdest, ← hdeq] at this
            rw [hve]; exact this
          · refine List.Nodup.append hnd1 (List.nodup_singleton _) ?_
            intro y hy hy1
            simp only [List.mem_singleton] at hy1
            exact hne y (hall y hy) hy1
          · intro y hy
            rcases List.mem_append.mp hy with h1 | h1
            · exact hold y (hall y h1)
            · simp only [List.mem_singleton] at h1
              rw [h1]; exact hvS
      · obtain ⟨p, d, hc, hd, hw, hnd1, hall⟩ := h.core.chain v (hnew v hv hve)
        exact ⟨p, d, hc, hd, hw, hnd1, fun y hy => hold y (hall y hy)⟩
    · intro v d hv hd hdne
      obtain ⟨hve, hv1⟩ := hunv v hv
      rcases h.core.pre v d hv1 hd hdne with ⟨hnone, hvs⟩ | hsome
      · exfalso
        have := h.core.fst hnone top hmem
        rw [this] at hve
        exact hve hvs
      · obtain ⟨u1, e1, du1, a1, a2, a3, a4, a5, a6⟩ := hsome
        right
        exact ⟨u1, e1, du1, a1, hold u1 a2, a3, a4, a5, a6⟩
    · intro hN x d hx hd y hy
      by_cases hxe : x = top.2
      · rw [hxe, hdu] at hd
        injection hd with hd
        rw [← hd, ← hrd]
        exact hmin y (hsub y hy)
      · exact h.core.vle hN x d (hnew x hx hxe) hd y (hsub y hy)
    · intro hN x dx hx hdx e he hv dv hdv
      have hw0 := hwt hN x e he
      by_cases hxe : x = top.2
      · rw [hxe, hdu] at hdx
        injection hdx with hdx
        have hdu0 := h.core.pos hN top.2 du hdu
        have hstep := Dbl.le_add_of_nonneg du e.weight hdu0 hw0 (h.core.dbl top.2 du hdu)
        rw [← hdx]
        by_cases hde : e.destination_node_id = top.2
        · rw [hde, hdu] at hdv
          injection hdv with hdv
          rw [← hdv]; exact hstep
        · have h1 := h.core.vle hN _ dv (hnew _ hv hde) hdv top hmem
          rw [hrd] at h1
          exact Dbl.le_trans _ _ _ h1 hstep
      · have hx1 := hnew x hx hxe
        by_cases hde : e.destination_node_id = top.2
        · have hb1 : vget st.visited e.destination_node_id = .ok false := by rw [hde]; exact hb
          have hdv1 := hdv
          rw [hde, hdu] at hdv1
          injection hdv1 with hdv1
          have hrel := h.rel x dx hx1 hdx e he hb1 dv hdv
          have hdx0 := h.core.pos hN x dx hdx
          have hsum := Dbl.add_nonneg dx e.weight hdx0 hw0
          exact Dbl.le_of_not_lt _ _ (Dbl.le_self_of_le_right _ _ hsum)
            (h.core.dnn _ dv hdv) hrel
        · exact h.core.bellv hN x dx hx1 hdx e he (hnew _ hv hde) dv hdv
  · intro x dx hx hdx e he hu dv hdv
    obtain ⟨hde, hu1⟩ := hunv _ hu
    by_cases hxe : x = top.2
    · left
      refine ⟨hxe, ?_, rfl⟩
      obtain ⟨nd1, hnd1, hm1⟩ := he
      rw [hxe, hnd] at hnd1
      injection hnd1 with hnd1
      rw [hnd1]; exact hm1
    · right
      exact h.rel x dx (hnew x hx hxe) hdx e he hu1 dv hdv
  · intro hN x d hx hd
    by_cases hxe : x = top.2
    · rw [hxe, hdu] at hd
      injection hd with hd
      rw [← hd]; exact hdule
    · exact h.core.vle hN x d (hnew x hx hxe) hd top hmem

theorem dmid_done (g : Graph) (s : Int) (st : DState) (u : Int) (rd : Dbl) (fresh : Bool)
    (h : DMid g s st u rd fresh []) : DHead g s st := by
  refine { core := h.core, rel := ?_ }
  intro x dx hx hdx e he hu dv hdv
  rcases h.rel x dx hx hdx e he hu dv hdv with ⟨_, hin, _⟩ | hgood
  · simp at hin
  · exact hgood

/-! ## Weighted search: the main loop -/

theorem dijkstraStep_spec (g : Graph) (s : Int) (hs : g.SizeOk) (hr : g.InRange)
    (st : DState) (top : Dbl × Int) (h : DHead g s st) (htop : Graph.pqTop st.pq = some top) :
    ∃ st1, Graph.dijkstraStep g st top = .ok st1 ∧ DHead g s st1 ∧
      st1.pq.length + pot st1.visited g.nodes_list <
        st.pq.length + pot st.visited g.nodes_list := by
  have hnn : ∀ y ∈ st.pq, y.1.le y.1 = true :=
    fun y hy => Dbl.le_self_of_lt _ _ (h.core.pqr y hy).2
  obtain ⟨hmem, hmin⟩ := pqTop_spec st.pq top hnn htop
  obtain ⟨⟨hu0, hu1⟩, _⟩ := h.core.pqr top hmem
  obtain ⟨b, hb⟩ := vget_exists st.visited top.2 hu0 (by rw [h.core.lenV]; exact hu1)
  obtain ⟨nd, hnd⟩ := vget_exists g.nodes_list top.2 hu0 hu1
  have hlen : (st.pq.erase top).length + 1 = st.pq.length := by
    rw [List.length_erase_of_mem hmem]
    have := List.length_pos_of_mem hmem
    omega
  unfold Graph.dijkstraStep
  cases b with
  | true =>
    have hmid := dhead_pop_stale g s st top nd h hmem hb hnd
    obtain ⟨st1, hrun, hinv, hvis, hpq⟩ := relaxEdges_inv g s hs hr top.2 top.1 false _ _ hmid
    refine ⟨st1, ?_, dmid_done g s st1 _ _ _ hinv, ?_⟩
    · simp only [vset_same_val _ _ _ hb, hnd]
      exact hrun
    · simp only [Bool.false_eq_true, if_false] at hpq
      rw [hvis]
      simp only
      omega
  | false =>
    obtain ⟨vis, hvis⟩ := vset_exists st.visited top.2 true hu0 (by rw [h.core.lenV]; exact hu1)
    have hmid := dhead_pop_fresh g s st top nd vis h hmem hmin hb hnd hvis
    obtain ⟨st1, hrun, hinv, hvis1, hpq⟩ := relaxEdges_inv g s hs hr top.2 top.1 true _ _ hmid
    refine ⟨st1, ?_, dmid_done g s st1 _ _ _ hinv, ?_⟩
    · simp only [hvis, hnd]
      exact hrun
    · have hpot := pot_vset st.visited vis g.nodes_list top.2 nd hb hnd hvis
      simp only [if_true] at hpq
      rw [hvis1]
      simp only
      omega

theorem dijkstraLoop_spec (g : Graph) (s : Int) (hs : g.SizeOk) (hr : g.InRange) :
    ∀ (fuel : Nat) (st : DState), DHead g s st →
      st.pq.length + pot st.visited g.nodes_list ≤ fuel →
      ∃ st1, Graph.dijkstraLoop g fuel st = .ok st1 ∧ DHead g s st1 ∧ st1.pq = [] := by
  intro fuel
  induction fuel with
  | zero =>
    intro st h hm
    have hq : st.pq = [] := by
      cases hq : st.pq with
      | nil => rfl
      | cons a l => rw [hq] at hm; simp at hm
    refine ⟨st, ?_, h, hq⟩
    unfold Graph.dijkstraLoop
    simp [hq, Graph.pqTop]
  | succ k ih =>
    intro st h hm
    cases htop : Graph.pqTop st.pq with
    | none =>
      refine ⟨st, ?_, h, pqTop_none _ htop⟩
      unfold Graph.dijkstraLoop
      simp only [htop]
    | some top =>
      obtain ⟨st1, hrun, hinv, hlt⟩ := dijkstraStep_spec g s hs hr st top h htop
      obtain ⟨st2, hrun2, hinv2, hq2⟩ := ih st1 hinv (by omega)
      refine ⟨st2, ?_, hinv2, hq2⟩
      unfold Graph.dijkstraLoop
      simp only [htop, hrun]
      exact hrun2

theorem dhead_init (g : Graph) (s : Int) (hs : g.SizeOk) (hs0 : 0 ≤ s) (ds : List Dbl)
    (hds : vset (List.replicate g.numNodes.toNat Dbl.DOUBLE_INF) s Dbl.zero = .ok ds) :
    DHead g s { distances := ds, previous := List.replicate g.numNodes.toNat (-1),
                visited := List.replicate g.numNodes.toNat false, pq := [(Dbl.zero, s)] } := by
  unfold Graph.SizeOk at hs
  have hn : g.numNodes.toNat = g.nodes_list.length := by omega
  have hsr := vset_inRange _ _ _ _ hds
  simp only [List.length_replicate] at hsr
  have hdS : vget ds s = .ok Dbl.zero := vget_vset_same _ _ _ _ hds
  have hdO : ∀ x d, vget ds x = .ok d → x ≠ s → d = Dbl.pinf := by
    intro x d hx hxs
    rw [vget_vset_ne _ _ _ _ _ hds hxs] at hx
    exact vget_replicate_val _ _ _ _ hx
  have hdC : ∀ x d, vget ds x = .ok d → d = Dbl.zero ∨ d = Dbl.pinf := by
    intro x d hx
    by_cases hxs : x = s
    · rw [hxs, hdS] at hx
      injection hx with hx
      left; exact hx.symm
    · right; exact hdO x d hx hxs
  have hnov : ∀ x, vget (List.replicate g.numNodes.toNat false) x ≠ .ok true := by
    intro x hx
    have := vget_replicate_val _ _ _ _ hx
    simp at this
  refine { core := ?_, rel := ?_ }
  · refine { lenD := ?_, lenP := ?_, lenV := ?_, pqr := ?_, dnn := ?_, dbl := ?_, pqd := ?_,
             unv := ?_, sd := hdS, sp := ?_, fst := ?_, chain := ?_, pre := ?_, pos := ?_,
             vle := ?_, bellv := ?_ }
    · simp only [vset_length _ _ _ _ hds, List.length_replicate, hn]
    · simp only [List.length_replicate, hn]
    · simp only [List.length_replicate, hn]
    · intro y hy
      simp only [List.mem_singleton] at hy
      rw [hy]
      exact ⟨⟨hs0, by simp only; omega⟩, Dbl.zero_lt_pinf⟩
    · intro x d hx
      rcases hdC x d hx with h1 | h1
      · rw [h1]; exact Dbl.zero_le_zero
      · rw [h1]; rfl
    · intro x d hx
      rcases hdC x d hx with h1 | h1
      · rw [h1]; exact Dbl.isDouble_zero
      · rw [h1]; rfl
    · intro y hy
      simp only [List.mem_singleton] at hy
      rw [hy]
      exact ⟨Dbl.zero, hdS, Dbl.zero_le_zero⟩
    · intro x d _ hd
      by_cases hxs : x = s
      · right
        rw [hxs, hdS] at hd
        injection hd with hd
        rw [← hd, hxs]
        simp
      · left; exact hdO x d hd hxs
    · exact vget_replicate _ _ _ hs0 hsr.2
    · intro _ y hy
      simp only [List.mem_singleton] at hy
      rw [hy]
    · intro v hv
      exact absurd hv (hnov v)
    · intro v d _ hd hdne
      left
      refine ⟨hnov, ?_⟩
      by_contra hvs
      exact hdne (hdO v d hd hvs)
    · intro _ x d hx
      rcases hdC x d hx with h1 | h1
      · rw [h1]; exact Dbl.zero_le_zero
      · rw [h1]; rfl
    · intro _ x d hx
      exact absurd hx (hnov x)
    · intro _ x dx hx
      exact absurd hx (hnov x)
  · intro x dx hx
    exact absurd hx (hnov x)

theorem walk_inRange (g : Graph) (s t : Int) (p : List Int) (a : Dbl) (hs : g.SizeOk)
    (hr : g.InRange) (hs0 : 0 ≤ s) (hs1 : s < g.numNodes) (h : g.Walk s t p a) :
    0 ≤ t ∧ t < g.nodes_list.length := by
  unfold Graph.SizeOk at hs
  cases h with
  | start => omega
  | step u p1 a1 e _ he =>
    obtain ⟨nd, hnd, hmem⟩ := he
    have := hr nd (vget_mem _ _ _ hnd) e hmem
    omega

theorem dhead_final_bound (g : Graph) (s : Int) (hs : g.SizeOk) (hr : g.InRange)
    (hN : g.NonNeg) (hs0 : 0 ≤ s) (hs1 : s < g.numNodes) (st : DState)
    (h : DHead g s st) (hq : st.pq = []) (x : Int) (p : List Int) (a : Dbl)
    (hw : g.Walk s x p a) :
    ∃ dx, vget st.distances x = .ok dx ∧ dx.le a = true := by
  induction hw with
  | start => exact ⟨Dbl.zero, h.core.sd, Dbl.zero_le_zero⟩
  | step u p1 a1 e hw1 he ih =>
    obtain ⟨du, hdu, hdule⟩ := ih
    have hvr := walk_inRange g s _ _ _ hs hr hs0 hs1 (Graph.Walk.step u p1 a1 e hw1 he)
    obtain ⟨dv, hdv⟩ := vget_exists st.distances e.destination_node_id hvr.1
      (by rw [h.core.lenD]; exact hvr.2)
    have hur := vget_inRange _ _ _ hdu
    rw [h.core.lenD, ← h.core.lenV] at hur
    obtain ⟨bu, hbu⟩ := vget_exists st.visited u hur.1 hur.2
    obtain ⟨bv, hbv⟩ := vget_exists st.visited e.destination_node_id hvr.1
      (by rw [h.core.lenV]; exact hvr.2)
    have hw0 : Dbl.zero.le e.weight = true := by
      obtain ⟨nd1, hnd1, hm1⟩ := he
      exact hN nd1 (vget_mem _ _ _ hnd1) e hm1
    have hdu0 := h.core.pos hN u du hdu
    have hedge : dv.le (du.add e.weight) = true := by
      cases bu with
      | false =>
        rcases h.core.unv u du hbu hdu with h1 | h1
        · rw [h1, Dbl.pinf_add _ hw0]
          exact Dbl.le_pinf _ (h.core.dnn _ dv hdv)
        · rw [hq] at h1; simp at h1
      | true =>
        cases bv with
        | true => exact h.core.bellv hN u du hbu hdu e he hbv dv hdv
        | false =>
          have hrel := h.rel u du hbu hdu e he hbv dv hdv
          have hsum := Dbl.add_nonneg du e.weight hdu0 hw0
          exact Dbl.le_of_not_lt _ _ (Dbl.le_self_of_le_right _ _ hsum)
            (h.core.dnn _ dv hdv) hrel
    exact ⟨dv, hdv, Dbl.le_trans _ _ _ hedge (Dbl.add_le_add du a1 e.weight hdule hdu0 hw0)⟩

/-! ## Weighted search: the result -/

theorem Dijkstra_spec (g : Graph) (s t : Int) (hs : g.SizeOk) (hr : g.InRange)
    (hs0 : 0 ≤ s) (hs1 : s < g.numNodes) (ht0 : 0 ≤ t) (ht1 : t < g.numNodes) (hst : s ≠ t) :
    ∃ r, Returns (fun fuel => g.Dijkstra fuel s t) r ∧
      ((r.path_exists = true ∧ g.Walk s t r.node_ids_in_path r.total_weight ∧
          r.node_ids_in_path.Nodup ∧
          r.num_stops = (r.node_ids_in_path.length : Int) - 1 ∧
          r.total_weight ≠ Dbl.pinf ∧
          (g.NonNeg → ∀ p a, g.Walk s t p a → r.total_weight.le a = true)) ∨
       (r = {} ∧ (g.NonNeg → ∀ p a, g.Walk s t p a → a = Dbl.pinf))) := by
  have hb : ¬ (s ≥ g.numNodes ∨ t ≥ g.numNodes ∨ s < 0 ∨ t < 0) := by omega
  have hsz := hs
  unfold Graph.SizeOk at hsz
  obtain ⟨ds, hds⟩ := vset_exists (List.replicate g.numNodes.toNat Dbl.DOUBLE_INF) s Dbl.zero
    hs0 (by simp only [List.length_replicate]; omega)
  have hinit := dhead_init g s hs hs0 ds hds
  obtain ⟨st1, hrun, hh, hq⟩ := dijkstraLoop_spec g s hs hr
    (1 + pot (List.replicate g.numNodes.toNat false) g.nodes_list) _ hinit (by simp)
  obtain ⟨dEnd, hdEnd⟩ := vget_exists st1.distances t ht0 (by rw [hh.core.lenD]; omega)
  have hnan := hh.core.dnn t dEnd hdEnd
  by_cases hinf : dEnd = Dbl.pinf
  · refine ⟨{}, ?_, Or.inr ⟨rfl, ?_⟩⟩
    · refine Dijkstra_returns g
        (1 + pot (List.replicate g.numNodes.toNat false) g.nodes_list) s t _ ?_
      unfold Graph.Dijkstra
      simp only [hb, if_false, hst, hds, hrun, hdEnd]
      have : dEnd.ne Dbl.DOUBLE_INF = false := by
        rw [hinf]; simp [Dbl.ne, Dbl.DOUBLE_INF]
      simp only [this]
      rfl
    · intro hN p a hw
      obtain ⟨dx, hdx, hle⟩ := dhead_final_bound g s hs hr hN hs0 hs1 st1 hh hq t p a hw
      rw [hdEnd] at hdx
      injection hdx with hdx
      rw [← hdx, hinf] at hle
      exact Dbl.eq_pinf_of_le _ hle
  · have htv : vget st1.visited t = .ok true := by
      obtain ⟨bt, hbt⟩ := vget_exists st1.visited t ht0 (by rw [hh.core.lenV]; omega)
      cases bt with
      | true => exact hbt
      | false =>
        rcases hh.core.unv t dEnd hbt hdEnd with h1 | h1
        · exact absurd h1 hinf
        · rw [hq] at h1; simp at h1
    obtain ⟨p, d, hc, hd, hw, hnd, hall⟩ := hh.core.chain t htv
    rw [hdEnd] at hd
    injection hd with hd
    have hwb := walkBack_chain st1.previous s t p hc
    refine ⟨{ path_exists := true, total_weight := dEnd, node_ids_in_path := p,
              num_stops := (p.length : Int) - 1 }, ?_,
            Or.inl ⟨rfl, by rw [hd]; exact hw, hnd, rfl, hinf, ?_⟩⟩
    · refine Dijkstra_returns g
        ((1 + pot (List.replicate g.numNodes.toNat false) g.nodes_list) + p.length) s t _ ?_
      unfold Graph.Dijkstra
      simp only [hb, if_false, hst, hds]
      rw [dijkstraLoop_fuel_le g _ _ _ _ hrun (Nat.le_add_right _ _)]
      simp only [hdEnd]
      have : dEnd.ne Dbl.DOUBLE_INF = true := (Dbl.ne_pinf_iff dEnd hnan).mpr hinf
      simp only [this, if_true]
      rw [hwb _ [] (Nat.le_add_left _ _)]
      simp
    · intro hN p1 a1 hw1
      obtain ⟨dx, hdx, hle⟩ := dhead_final_bound g s hs hr hN hs0 hs1 st1 hh hq t p1 a1 hw1
      rw [hdEnd] at hdx
      injection hdx with hdx
      rw [← hdx] at hle
      exact hle

theorem walk_prefix (g : Graph) (s u : Int) (p : List Int) (a : Dbl) (h : g.Walk s u p a) :
    ∀ v ∈ p, ∃ p1 a1, g.Walk s v p1 a1 ∧ p1 <+: p := by
  induction h with
  | start =>
    intro v hv
    simp only [List.mem_singleton] at hv
    rw [hv]
    exact ⟨[s], Dbl.zero, Graph.Walk.start, List.prefix_refl _⟩
  | step u1 p1 a1 e hw he ih =>
    intro v hv
    rcases List.mem_append.mp hv with h1 | h1
    · obtain ⟨p2, a2, hw2, hpre⟩ := ih v h1
      exact ⟨p2, a2, hw2, hpre.trans (List.prefix_append _ _)⟩
    · simp only [List.mem_singleton] at h1
      rw [h1]
      exact ⟨_, _, Graph.Walk.step u1 p1 a1 e hw he, List.prefix_refl _⟩

theorem walk_simple (g : Graph) (s t : Int) (p : List Int) (a : Dbl) (h : g.Walk s t p a) :
    ∃ p1 a1, g.Walk s t p1 a1 ∧ p1.Nodup := by
  induction h with
  | start => exact ⟨[s], Dbl.zero, Graph.Walk.start, by simp⟩
  | step u p1 a1 e hw he ih =>
    obtain ⟨p2, a2, hw2, hnd2⟩ := ih
    by_cases hin : e.destination_node_id ∈ p2
    · obtain ⟨p3, a3, hw3, hpre⟩ := walk_prefix g s u p2 a2 hw2 _ hin
      exact ⟨p3, a3, hw3, hnd2.sublist hpre.sublist⟩
    · refine ⟨_, _, Graph.Walk.step u p2 a2 e hw2 he, ?_⟩
      refine List.Nodup.append hnd2 (List.nodup_singleton _) ?_
      intro y hy hy1
      simp only [List.mem_singleton] at hy1
      rw [hy1] at hy
      exact hin hy

/-! ## Trivial and invalid queries, and the two-node scenario -/

/-- C7: for every graph and every id `s` in `[0, numNodes)`, both `Dijkstra(s, s)` and
`BFS(s, s)` return `path_exists = true`, `node_ids_in_path = [s]`, `num_stops = 0` and
`total_weight = 0`, whatever the edges of the graph (and whatever the fuel). -/
theorem search_same_node (g : Graph) (fuel : Nat) (s : Int) (h0 : 0 ≤ s) (h1 : s < g.numNodes) :
    g.Dijkstra fuel s s = .ok { path_exists := true, node_ids_in_path := [s], num_stops := 0,
                                total_weight := Dbl.fin 0 } ∧
    g.BFS fuel s s = .ok { path_exists := true, node_ids_in_path := [s], num_stops := 0,
                           total_weight := Dbl.fin 0 } := by
  have hb : ¬ (s ≥ g.numNodes ∨ s ≥ g.numNodes ∨ s < 0 ∨ s < 0) := by omega
  constructor
  · unfold Graph.Dijkstra
    simp only [hb, if_false, if_true, Dbl.zero]
  · unfold Graph.BFS
    simp only [hb, if_false, if_true, Dbl.zero]

theorem search_same_node_witness :
    scenarioGraph.Dijkstra 0 1 1 = .ok { path_exists := true, node_ids_in_path := [1],
                                         num_stops := 0, total_weight := Dbl.fin 0 } ∧
    scenarioGraph.BFS 0 1 1 = .ok { path_exists := true, node_ids_in_path := [1],
                                    num_stops := 0, total_weight := Dbl.fin 0 } :=
  search_same_node scenarioGraph 0 1 (by decide) (by decide)

/-- C8 as stated fails: on the two-node graph without edges, the out-of-range query
`(0, 7)` gives exactly the result of the in-range query `(0, 1)` whose destination is
unreachable, for `Dijkstra` and for `BFS`. -/
theorem invalid_query_equals_no_path :
    (Graph.mk_n 2).Dijkstra 3 0 7 = (Graph.mk_n 2).Dijkstra 3 0 1 ∧
    (Graph.mk_n 2).BFS 3 0 7 = (Graph.mk_n 2).BFS 3 0 1 ∧
    (Graph.mk_n 2).Dijkstra 3 0 1 = .ok { path_exists := false, node_ids_in_path := [],
                                           num_stops := -1, total_weight := Dbl.pinf } ∧
    (Graph.mk_n 2).BFS 3 0 1 = .ok { path_exists := false, node_ids_in_path := [],
                                      num_stops := -1, total_weight := Dbl.pinf } := by
  decide!

/-- C8 amended: when start or end lies outside `[0, numNodes)`, `Dijkstra` and `BFS`
return normally the default `PathDetails` (`path_exists = false`, empty node sequence,
`num_stops = -1`, infinite `total_weight`), touching no table. -/
theorem invalid_query_default_result (g : Graph) (fuel : Nat) (s e : Int)
    (h : ¬ (0 ≤ s ∧ s < g.numNodes) ∨ ¬ (0 ≤ e ∧ e < g.numNodes)) :
    g.Dijkstra fuel s e = .ok { path_exists := false, node_ids_in_path := [],
                                num_stops := -1, total_weight := Dbl.pinf } ∧
    g.BFS fuel s e = .ok { path_exists := false, node_ids_in_path := [],
                           num_stops := -1, total_weight := Dbl.pinf } := by
  have hb : s ≥ g.numNodes ∨ e ≥ g.numNodes ∨ s < 0 ∨ e < 0 := by omega
  constructor
  · unfold Graph.Dijkstra
    simp only [hb, if_true, Dbl.DOUBLE_INF]
  · unfold Graph.BFS
    simp only [hb, if_true, Dbl.DOUBLE_INF]

theorem invalid_query_default_result_witness :
    scenarioGraph.Dijkstra 0 1 2 = .ok { path_exists := false, node_ids_in_path := [],
                                         num_stops := -1, total_weight := Dbl.pinf } ∧
    scenarioGraph.BFS 0 1 2 = .ok { path_exists := false, node_ids_in_path := [],
                                    num_stops := -1, total_weight := Dbl.pinf } :=
  invalid_query_default_result scenarioGraph 0 1 2 (Or.inr (by decide))

/-- C9: loading the node records `[(0, Campus), (1, Home)]` and the edge record
`[(0, 1, 5.0)]` into an empty graph succeeds; on the loaded graph `Dijkstra(1, 0)`
returns the path `[1, 0]` with `total_weight = 5.0` and `num_stops = 1`, and `BFS(1, 0)`
returns the path `[1, 0]` with `num_stops = 1` and `total_weight` left infinite. -/
theorem scenario_campus_home :
    Map.map_to_graph (Map.create "nodes.txt" "edges.txt") {}
        (some [(0, "Campus"), (1, "Home")]) (some [(0, 1, 5)]) =
      .ok (true, { nodes_filename := "nodes.txt", edges_filename := "edges.txt",
                   university_name := "Campus" }, scenarioGraph) ∧
    Returns (fun fuel => scenarioGraph.Dijkstra fuel 1 0)
      { path_exists := true, node_ids_in_path := [1, 0], num_stops := 1,
        total_weight := Dbl.fin 5 } ∧
    Returns (fun fuel => scenarioGraph.BFS fuel 1 0)
      { path_exists := true, node_ids_in_path := [1, 0], num_stops := 1,
        total_weight := Dbl.pinf } :=
  ⟨by decide!, Dijkstra_returns scenarioGraph 2 1 0 _ (by decide!),
    BFS_returns scenarioGraph 2 1 0 _ (by decide!)⟩

/-! ## Loading succeeds exactly on valid records -/

/-- C10: for every pair of record lists loaded into an empty graph, `map_to_graph`
returns normally, and it returns `true` if and only if every node record has `id >= 0`
and a non-empty name and every edge record has both endpoint ids in
`[0, maxNodeId + 1)` and `weight >= 0`; in particular nodes `0, 1` with an edge record
naming id `2` make the load return `false`. -/
theorem map_to_graph_succeeds_iff (m : Map) (nodeRecords : List NodeRecord)
    (edgeRecords : List EdgeRecord) :
    (∃ b m1 g1, Map.map_to_graph m {} (some nodeRecords) (some edgeRecords) = .ok (b, m1, g1) ∧
      (b = true ↔
        (∀ r ∈ nodeRecords, 0 ≤ r.1 ∧ r.2 ≠ "") ∧
        (∀ e ∈ edgeRecords, (0 ≤ e.1 ∧ e.1 < maxNodeId nodeRecords + 1) ∧
          (0 ≤ e.2.1 ∧ e.2.1 < maxNodeId nodeRecords + 1) ∧ 0 ≤ e.2.2))) ∧
    Map.map_to_graph (Map.create "nodes.txt" "edges.txt") {}
        (some [(0, "Campus"), (1, "Home")]) (some [(0, 2, 5)]) =
      .ok (false, { nodes_filename := "nodes.txt", edges_filename := "edges.txt",
                    university_name := "Campus" },
           { nodes_list := [{ id := 0, name := "Campus" }, { id := 1, name := "Home" }],
             numNodes := 2 }) := by
  refine ⟨?_, by decide!⟩
  obtain ⟨b, m1, g1, hrun, hiff⟩ := map_to_graph_spec m nodeRecords edgeRecords
  exact ⟨b, m1, g1, hrun, hiff⟩

/-! ## Hop search: claims -/

/-- C2: on a graph whose table invariant holds and whose adjacency entries are in range,
for valid `start != end`, `BFS` returns, and if it returns `path_exists = true` then
`num_stops` is at most the number of edges of every path from start to end. -/
theorem BFS_min_hops (g : Graph) (s t : Int) (hs : g.SizeOk) (hr : g.InRange)
    (hs0 : 0 ≤ s) (hs1 : s < g.numNodes) (ht0 : 0 ≤ t) (ht1 : t < g.numNodes) (hst : s ≠ t) :
    ∃ r, Returns (fun fuel => g.BFS fuel s t) r ∧
      (r.path_exists = true →
        ∀ p a, g.Walk s t p a → r.num_stops ≤ (p.length : Int) - 1) := by
  obtain ⟨r, hret, _, hcase⟩ := BFS_spec g s t hs hr hs0 hs1 ht0 ht1 hst
  refine ⟨r, hret, ?_⟩
  intro hex p a hw
  rcases hcase with ⟨_, _, _, hnum, hmin⟩ | ⟨hr0, _⟩
  · have := hmin p a hw
    omega
  · rw [hr0] at hex
    simp at hex

theorem BFS_min_hops_witness :
    ∃ r, Returns (fun fuel => scenarioGraph.BFS fuel 1 0) r ∧
      (r.path_exists = true →
        ∀ p a, scenarioGraph.Walk 1 0 p a → r.num_stops ≤ (p.length : Int) - 1) :=
  BFS_min_hops scenarioGraph 1 0 (by unfold Graph.SizeOk; decide)
    (by unfold Graph.InRange; decide) (by decide) (by decide) (by decide) (by decide)
    (by decide)

/-- C4: on a graph whose table invariant holds and whose adjacency entries are in range,
for valid `start != end`, `BFS` returns, and if it returns `path_exists = true` then
`node_ids_in_path` starts at start, ends at end, every consecutive pair `(u, v)` has an
adjacency entry for `v` in the list of `u`, and `num_stops` is the length of
`node_ids_in_path` minus 1. -/
theorem BFS_path_is_real (g : Graph) (s t : Int) (hs : g.SizeOk) (hr : g.InRange)
    (hs0 : 0 ≤ s) (hs1 : s < g.numNodes) (ht0 : 0 ≤ t) (ht1 : t < g.numNodes) (hst : s ≠ t) :
    ∃ r, Returns (fun fuel => g.BFS fuel s t) r ∧
      (r.path_exists = true →
        r.node_ids_in_path.head? = some s ∧ r.node_ids_in_path.getLast? = some t ∧
        r.node_ids_in_path.Chain' (fun u v => g.Adjacent u v) ∧
        r.num_stops = (r.node_ids_in_path.length : Int) - 1) := by
  obtain ⟨r, hret, _, hcase⟩ := BFS_spec g s t hs hr hs0 hs1 ht0 ht1 hst
  refine ⟨r, hret, ?_⟩
  intro hex
  rcases hcase with ⟨_, ⟨a, hw⟩, _, hnum, _⟩ | ⟨hr0, _⟩
  · exact ⟨walk_head g s t _ a hw, walk_mem_last g s t _ a hw, walk_chain g s t _ a hw, hnum⟩
  · rw [hr0] at hex
    simp at hex

theorem BFS_path_is_real_witness :
    ∃ r, Returns (fun fuel => scenarioGraph.BFS fuel 1 0) r ∧
      (r.path_exists = true →
        r.node_ids_in_path.head? = some 1 ∧ r.node_ids_in_path.getLast? = some 0 ∧
        r.node_ids_in_path.Chain' (fun u v => scenarioGraph.Adjacent u v) ∧
        r.num_stops = (r.node_ids_in_path.length : Int) - 1) :=
  BFS_path_is_real scenarioGraph 1 0 (by unfold Graph.SizeOk; decide)
    (by unfold Graph.InRange; decide) (by decide) (by decide) (by decide) (by decide)
    (by decide)

/-- C6: on a graph whose table invariant holds and whose adjacency entries are in range,
for valid `start != end`, `BFS` returns a result whose `path_exists` is true if and only
if end is reachable from start by following adjacency entries; a result with
`path_exists = false` has an empty node sequence, and that is the result whenever the
loop ends without having dequeued the destination. -/
theorem BFS_exists_iff_reachable (g : Graph) (s t : Int) (hs : g.SizeOk) (hr : g.InRange)
    (hs0 : 0 ≤ s) (hs1 : s < g.numNodes) (ht0 : 0 ≤ t) (ht1 : t < g.numNodes) (hst : s ≠ t) :
    (∃ r, Returns (fun fuel => g.BFS fuel s t) r ∧
      (r.path_exists = true ↔ g.Reachable s t) ∧
      (r.path_exists = false → r.node_ids_in_path = [])) ∧
    (∀ fuel visited st1, vset (List.replicate g.numNodes.toNat false) s true = .ok visited →
      Graph.bfsLoop g t fuel
        { q := [s], visited := visited, prev := List.replicate g.numNodes.toNat (-1) } =
          .ok (false, st1) →
      g.BFS fuel s t = .ok { path_exists := false, node_ids_in_path := [] }) := by
  constructor
  · obtain ⟨r, hret, _, hcase⟩ := BFS_spec g s t hs hr hs0 hs1 ht0 ht1 hst
    refine ⟨r, hret, ?_, ?_⟩
    · rcases hcase with ⟨hex, ⟨a, hw⟩, _⟩ | ⟨hr0, hnr⟩
      · exact ⟨fun _ => ⟨_, a, hw⟩, fun _ => hex⟩
      · rw [hr0]
        exact ⟨fun h => by simp at h, fun h => absurd h hnr⟩
    · intro hex
      rcases hcase with ⟨hex1, _⟩ | ⟨hr0, _⟩
      · rw [hex1] at hex
        simp at hex
      · rw [hr0]
  · intro fuel visited st1 hvis hloop
    have hb : ¬ (s ≥ g.numNodes ∨ t ≥ g.numNodes ∨ s < 0 ∨ t < 0) := by omega
    unfold Graph.BFS
    simp only [hb, if_false, hst, hvis, hloop]
    rfl

theorem BFS_exists_iff_reachable_witness :
    (∃ r, Returns (fun fuel => scenarioGraph.BFS fuel 1 0) r ∧
      (r.path_exists = true ↔ scenarioGraph.Reachable 1 0) ∧
      (r.path_exists = false → r.node_ids_in_path = [])) ∧
    (∀ fuel visited st1,
      vset (List.replicate scenarioGraph.numNodes.toNat false) 1 true = .ok visited →
      Graph.bfsLoop scenarioGraph 0 fuel
        { q := [1], visited := visited,
          prev := List.replicate scenarioGraph.numNodes.toNat (-1) } = .ok (false, st1) →
      scenarioGraph.BFS fuel 1 0 = .ok { path_exists := false, node_ids_in_path := [] }) :=
  BFS_exists_iff_reachable scenarioGraph 1 0 (by unfold Graph.SizeOk; decide)
    (by unfold Graph.InRange; decide) (by decide) (by decide) (by decide) (by decide)
    (by decide)

/-! ## Weighted search: claims -/

/-- C1 as stated fails: on the graph with routes 0-1 of weight `0.1`, 1-2 of weight
`0.2` and 0-2 of weight `0.30000000000000004` (non-negative binary64 weights, entries
in range) `Dijkstra(0, 2)` returns `total_weight = 0.30000000000000004`, although the
simple path 0, 1, 2 has the real weight `0.1 + 0.2`, which is lower: in binary64
`0.1 + 0.2` rounds up to `0.30000000000000004`, so the relaxation over node 1 is no
improvement. -/
theorem Dijkstra_above_real_minimum :
    roundingGraph.SizeOk ∧ roundingGraph.InRange ∧ roundingGraph.NonNeg ∧
    roundingGraph.DoubleWeights ∧
    Returns (fun fuel => roundingGraph.Dijkstra fuel 0 2)
      { path_exists := true, total_weight := Dbl.fin dblThreeTenths,
        node_ids_in_path := [0, 2], num_stops := 1 } ∧
    [(0 : Int), 1, 2].Nodup ∧
    (dblTenth + dblFifth) ∈ roundingGraph.exactSums [0, 1, 2] ∧
    dblTenth + dblFifth < dblThreeTenths := by
  refine ⟨by unfold Graph.SizeOk; decide, by unfold Graph.InRange; decide,
    by unfold Graph.NonNeg; decide!, by unfold Graph.DoubleWeights; decide!,
    Dijkstra_returns roundingGraph 10 0 2 _ (by decide!), by decide, by decide!, by decide!⟩

/-- C1 amended: on a graph whose table invariant holds, whose adjacency entries are in
range and whose weights are all non-negative, for valid `start != end` with end
reachable from start, `Dijkstra` returns a `total_weight` that is the minimum, over the
paths from start to end, of the sum of the path's weights computed in binary64
arithmetic in path order from `0.0` (every addition rounded, an overflow giving
`+infinity`): it is at most that sum for every path, and it is that sum for a simple
path. -/
theorem Dijkstra_minimum_weight (g : Graph) (s t : Int) (hs : g.SizeOk) (hr : g.InRange)
    (hN : g.NonNeg) (hs0 : 0 ≤ s) (hs1 : s < g.numNodes) (ht0 : 0 ≤ t)
    (ht1 : t < g.numNodes) (hst : s ≠ t) (hreach : g.Reachable s t) :
    ∃ r, Returns (fun fuel => g.Dijkstra fuel s t) r ∧
      (∀ p a, g.Walk s t p a → r.total_weight.le a = true) ∧
      (∃ p, p.Nodup ∧ g.Walk s t p r.total_weight) := by
  obtain ⟨r, hret, hcase⟩ := Dijkstra_spec g s t hs hr hs0 hs1 ht0 ht1 hst
  refine ⟨r, hret, ?_⟩
  rcases hcase with ⟨_, hw, hnd, _, _, hmin⟩ | ⟨hr0, hinf⟩
  · exact ⟨hmin hN, _, hnd, hw⟩
  · obtain ⟨p, a, hw⟩ := hreach
    obtain ⟨p1, a1, hw1, hnd1⟩ := walk_simple g s t p a hw
    have ha1 := hinf hN p1 a1 hw1
    rw [hr0]
    refine ⟨?_, p1, hnd1, by rw [ha1] at hw1; exact hw1⟩
    intro p2 a2 hw2
    rw [hinf hN p2 a2 hw2]
    rfl

theorem Dijkstra_minimum_weight_witness :
    ∃ r, Returns (fun fuel => roundingGraph.Dijkstra fuel 0 2) r ∧
      (∀ p a, roundingGraph.Walk 0 2 p a → r.total_weight.le a = true) ∧
      (∃ p, p.Nodup ∧ roundingGraph.Walk 0 2 p r.total_weight) :=
  Dijkstra_minimum_weight roundingGraph 0 2 (by unfold Graph.SizeOk; decide)
    (by unfold Graph.InRange; decide) (by unfold Graph.NonNeg; decide!)
    (by decide) (by decide) (by decide) (by decide) (by decide)
    ⟨[0, 2], Dbl.zero.add (Dbl.fin dblThreeTenths),
      Graph.Walk.step 0 [0] Dbl.zero ⟨2, Dbl.fin dblThreeTenths⟩ Graph.Walk.start
        ⟨{ id := 0, name := "A",
           edges := [⟨1, Dbl.fin dblTenth⟩, ⟨2, Dbl.fin dblThreeTenths⟩] },
          by decide!, by simp⟩⟩

/-- C3 as stated fails: on the graph with routes 0-1 of weight `0.1` and 1-2 of weight
`0.2`, `Dijkstra(0, 2)` returns the path 0, 1, 2 with
`total_weight = 0.30000000000000004`; the only adjacency entries along that path have
the weights `0.1` and `0.2`, whose sum as real numbers is not `total_weight`. -/
theorem Dijkstra_total_is_not_real_sum :
    roundingChain.SizeOk ∧ roundingChain.InRange ∧ roundingChain.NonNeg ∧
    roundingChain.DoubleWeights ∧
    Returns (fun fuel => roundingChain.Dijkstra fuel 0 2)
      { path_exists := true, total_weight := Dbl.fin dblThreeTenths,
        node_ids_in_path := [0, 1, 2], num_stops := 2 } ∧
    roundingChain.exactSums [0, 1, 2] = [dblTenth + dblFifth] ∧
    dblTenth + dblFifth ≠ dblThreeTenths := by
  refine ⟨by unfold Graph.SizeOk; decide, by unfold Graph.InRange; decide,
    by unfold Graph.NonNeg; decide!, by unfold Graph.DoubleWeights; decide!,
    Dijkstra_returns roundingChain 10 0 2 _ (by decide!), by decide!, by decide!⟩

/-- C3 amended: on a graph whose table invariant holds and whose adjacency entries are
in range (with non-negative weights or not), for valid `start != end`, `Dijkstra`
returns, and if it returns `path_exists = true` then `node_ids_in_path` starts at
start, ends at end, every consecutive pair `(u, v)` has an adjacency entry for `v` in
the list of `u`, the entries followed can be chosen so that `total_weight` is the sum
of their weights computed in binary64 arithmetic in path order from `0.0`, and
`num_stops` is the length of `node_ids_in_path` minus 1. -/
theorem Dijkstra_path_is_real (g : Graph) (s t : Int) (hs : g.SizeOk) (hr : g.InRange)
    (hs0 : 0 ≤ s) (hs1 : s < g.numNodes) (ht0 : 0 ≤ t) (ht1 : t < g.numNodes) (hst : s ≠ t) :
    ∃ r, Returns (fun fuel => g.Dijkstra fuel s t) r ∧
      (r.path_exists = true →
        r.node_ids_in_path.head? = some s ∧ r.node_ids_in_path.getLast? = some t ∧
        r.node_ids_in_path.Chain' (fun u v => g.Adjacent u v) ∧
        g.Walk s t r.node_ids_in_path r.total_weight ∧
        r.num_stops = (r.node_ids_in_path.length : Int) - 1) := by
  obtain ⟨r, hret, hcase⟩ := Dijkstra_spec g s t hs hr hs0 hs1 ht0 ht1 hst
  refine ⟨r, hret, ?_⟩
  intro hex
  rcases hcase with ⟨_, hw, _, hnum, _⟩ | ⟨hr0, _⟩
  · exact ⟨walk_head g s t _ _ hw, walk_mem_last g s t _ _ hw, walk_chain g s t _ _ hw,
      hw, hnum⟩
  · rw [hr0] at hex
    simp at hex

theorem Dijkstra_path_is_real_witness :
    ∃ r, Returns (fun fuel => roundingChain.Dijkstra fuel 0 2) r ∧
      (r.path_exists = true →
        r.node_ids_in_path.head? = some 0 ∧ r.node_ids_in_path.getLast? = some 2 ∧
        r.node_ids_in_path.Chain' (fun u v => roundingChain.Adjacent u v) ∧
        roundingChain.Walk 0 2 r.node_ids_in_path r.total_weight ∧
        r.num_stops = (r.node_ids_in_path.length : Int) - 1) :=
  Dijkstra_path_is_real roundingChain 0 2 (by unfold Graph.SizeOk; decide)
    (by unfold Graph.InRange; decide) (by decide) (by decide) (by decide) (by decide)
    (by decide)

/-- C5 as stated fails: on the graph with routes 0-1 and 1-2, both of the finite
non-negative weight `2^1023`, node 2 is reachable from node 0, yet `Dijkstra(0, 2)`
returns `path_exists = false`: the distance of node 2 would be `2^1023 + 2^1023`, which
overflows to `+infinity` in binary64 and is no improvement on the initial
`DOUBLE_INF`. -/
theorem Dijkstra_overflow_hides_path :
    overflowChain.SizeOk ∧ overflowChain.InRange ∧ overflowChain.NonNeg ∧
    overflowChain.FiniteWeights ∧ overflowChain.DoubleWeights ∧
    Returns (fun fuel => overflowChain.Dijkstra fuel 0 2)
      { path_exists := false, total_weight := Dbl.pinf, node_ids_in_path := [],
        num_stops := -1 } ∧
    overflowChain.Reachable 0 2 := by
  refine ⟨by unfold Graph.SizeOk; decide, by unfold Graph.InRange; decide,
    by unfold Graph.NonNeg; decide!, by unfold Graph.FiniteWeights; decide!,
    by unfold Graph.DoubleWeights; decide!,
    Dijkstra_returns overflowChain 10 0 2 _ (by decide!), ?_⟩
  exact ⟨[0, 1, 2], (Dbl.zero.add (Dbl.fin (2 ^ 1023))).add (Dbl.fin (2 ^ 1023)),
    Graph.Walk.step 1 [0, 1] _ ⟨2, Dbl.fin (2 ^ 1023)⟩
      (Graph.Walk.step 0 [0] Dbl.zero ⟨1, Dbl.fin (2 ^ 1023)⟩ Graph.Walk.start
        ⟨{ id := 0, name := "A", edges := [⟨1, Dbl.fin (2 ^ 1023)⟩] }, by decide!, by simp⟩)
      ⟨{ id := 1, name := "B",
         edges := [⟨0, Dbl.fin (2 ^ 1023)⟩, ⟨2, Dbl.fin (2 ^ 1023)⟩] },
        by decide!, by simp⟩⟩

/-- C5 amended: on a graph whose table invariant holds, whose adjacency entries are in
range and whose weights are non-negative, for valid `start != end`, `Dijkstra` returns
`path_exists = false` exactly when no path from start to end has a weight sum, computed
in binary64 arithmetic in path order from `0.0`, below `+infinity`; this is the case
when end is not reachable from start, and when no such sum is `+infinity` it is the
case only then. A result with `path_exists = false` has `total_weight` infinite,
`node_ids_in_path` empty and `num_stops = -1`. -/
theorem Dijkstra_no_path_iff_all_sums_infinite (g : Graph) (s t : Int) (hs : g.SizeOk)
    (hr : g.InRange) (hN : g.NonNeg) (hs0 : 0 ≤ s)
    (hs1 : s < g.numNodes) (ht0 : 0 ≤ t) (ht1 : t < g.numNodes) (hst : s ≠ t) :
    ∃ r, Returns (fun fuel => g.Dijkstra fuel s t) r ∧
      (r.path_exists = false ↔ ∀ p a, g.Walk s t p a → a = Dbl.pinf) ∧
      (¬ g.Reachable s t → r.path_exists = false) ∧
      ((∀ p a, g.Walk s t p a → a ≠ Dbl.pinf) →
        (r.path_exists = false ↔ ¬ g.Reachable s t)) ∧
      (r.path_exists = false →
        r.total_weight = Dbl.pinf ∧ r.node_ids_in_path = [] ∧ r.num_stops = -1) := by
  obtain ⟨r, hret, hcase⟩ := Dijkstra_spec g s t hs hr hs0 hs1 ht0 ht1 hst
  refine ⟨r, hret, ?_⟩
  rcases hcase with ⟨hex, hw, _, _, hne, _⟩ | ⟨hr0, hinf⟩
  · rw [hex]
    refine ⟨⟨fun h => by simp at h, fun h => absurd (h _ _ hw) hne⟩,
      fun h => absurd ⟨_, _, hw⟩ h,
      fun _ => ⟨fun h => by simp at h, fun h => absurd ⟨_, _, hw⟩ h⟩,
      fun h => by simp at h⟩
  · rw [hr0]
    refine ⟨⟨fun _ => hinf hN, fun _ => rfl⟩, fun _ => rfl,
      fun hfin => ⟨fun _ => ?_, fun _ => rfl⟩, fun _ => ⟨rfl, rfl, rfl⟩⟩
    rintro ⟨p, a, hw⟩
    exact hfin p a hw (hinf hN p a hw)

theorem Dijkstra_no_path_iff_all_sums_infinite_witness :
    ∃ r, Returns (fun fuel => overflowChain.Dijkstra fuel 0 2) r ∧
      (r.path_exists = false ↔ ∀ p a, overflowChain.Walk 0 2 p a → a = Dbl.pinf) ∧
      (¬ overflowChain.Reachable 0 2 → r.path_exists = false) ∧
      ((∀ p a, overflowChain.Walk 0 2 p a → a ≠ Dbl.pinf) →
        (r.path_exists = false ↔ ¬ overflowChain.Reachable 0 2)) ∧
      (r.path_exists = false →
        r.total_weight = Dbl.pinf ∧ r.node_ids_in_path = [] ∧ r.num_stops = -1) :=
  Dijkstra_no_path_iff_all_sums_infinite overflowChain 0 2 (by unfold Graph.SizeOk; decide)
    (by unfold Graph.InRange; decide) (by unfold Graph.NonNeg; decide!)
    (by decide) (by decide) (by decide) (by decide) (by decide)

/-! ## Graph store: contents after `addNode` and `addEdge` -/

theorem setIds_get : ∀ (k : Nat) (v w : List Node) (i : Int), 0 ≤ i →
    Graph.setIds v k i = .ok w →
    w.length = v.length ∧
    (∀ j, j < i ∨ i + k ≤ j → vget w j = vget v j) ∧
    (∀ j nd, i ≤ j → j < i + k → vget v j = .ok nd → vget w j = .ok { nd with id := j }) := by
  intro k
  induction k with
  | zero =>
    intro v w i _ h
    unfold Graph.setIds at h
    injection h with h
    subst h
    refine ⟨rfl, fun _ _ => rfl, ?_⟩
    intro j nd h1 h2
    simp only [Nat.cast_zero, add_zero] at h2
    omega
  | succ k ih =>
    intro v w i h0 h
    unfold Graph.setIds at h
    cases hnd : vget v i with
    | error f => simp [hnd] at h
    | ok nd0 =>
      simp only [hnd] at h
      cases hv1 : vset v i { nd0 with id := i } with
      | error f => simp [hv1] at h
      | ok v1 =>
        simp only [hv1] at h
        obtain ⟨hlen, hout, hin⟩ := ih v1 w (i + 1) (by omega) h
        refine ⟨by rw [hlen, vset_length _ _ _ _ hv1], ?_, ?_⟩
        · intro j hj
          rw [hout j (by push_cast at hj; omega)]
          exact vget_vset_ne _ _ _ _ _ hv1 (by push_cast at hj; omega)
        · intro j nd h1 h2 hj
          by_cases hji : j = i
          · rw [hout j (by omega), hji, vget_vset_same _ _ _ _ hv1]
            rw [hji, hnd] at hj
            injection hj with hj
            rw [hj]
          · have hj1 : vget v1 j = .ok nd := by
              rw [vget_vset_ne _ _ _ _ _ hv1 hji]; exact hj
            exact hin j nd (by omega) (by push_cast at h2 ⊢; omega) hj1

theorem vresize_grow {α : Type} (d : α) (v : List α) (n : Nat) (h : v.length ≤ n) :
    vresize d v n = v ++ List.replicate (n - v.length) d := by
  unfold vresize
  rw [List.take_of_length_le h]

theorem vget_append_left {α : Type} (v w : List α) (j : Int) (h : j < v.length) :
    vget (v ++ w) j = vget v j := by
  unfold vget
  by_cases h0 : 0 ≤ j
  · simp only [h0, if_true]
    rw [List.getElem?_append_left (by omega)]
  · simp [h0]

theorem vget_append_right_replicate {α : Type} (v : List α) (n : Nat) (d : α) (j : Int)
    (h1 : (v.length : Int) ≤ j) (h2 : j < v.length + n) :
    vget (v ++ List.replicate n d) j = .ok d := by
  rw [vget_eq_ok]
  refine ⟨by omega, ?_⟩
  rw [List.getElem?_append_right (by omega), List.getElem?_replicate]
  have : j.toNat - v.length < n := by omega
  simp [this]

theorem addNode_get (g : Graph) (id : Int) (name : String) (hs : g.SizeOk) (h0 : 0 ≤ id) :
    ∃ g1, g.addNode id name = .ok g1 ∧ g1.SizeOk ∧ g1.numNodes = max g.numNodes (id + 1) ∧
      vget g1.nodes_list id = .ok { id := id, name := name, edges := [] } ∧
      (∀ j, j ≠ id → j < g.numNodes → vget g1.nodes_list j = vget g.nodes_list j) ∧
      (∀ j, g.numNodes ≤ j → j < id →
        vget g1.nodes_list j = .ok { id := j, name := "", edges := [] }) := by
  have hsz := hs
  unfold Graph.SizeOk at hsz
  by_cases hge : id ≥ g.numNodes
  · have hvr := vresize_grow ({} : Node) g.nodes_list (id + 1).toNat (by omega)
    obtain ⟨v1, hv1, hl1⟩ := setIds_ok (id + 1 - g.numNodes).toNat
      (vresize ({} : Node) g.nodes_list (id + 1).toNat) g.numNodes (by omega)
      (by rw [vresize_length]; omega)
    obtain ⟨_, hout, hin⟩ := setIds_get _ _ _ _ (by omega) hv1
    rw [vresize_length] at hl1
    obtain ⟨v2, hv2⟩ := vset_exists v1 id { id := id, name := name } h0 (by omega)
    have hl2 := vset_length _ _ _ _ hv2
    refine ⟨{ nodes_list := v2, numNodes := id + 1 }, ?_, ?_, ?_, ?_, ?_, ?_⟩
    · unfold Graph.addNode
      simp only [hge, if_true, hv1, hv2]
    · unfold Graph.SizeOk; simp only; omega
    · simp only; omega
    · exact vget_vset_same _ _ _ _ hv2
    · intro j hj hlt
      simp only
      rw [vget_vset_ne _ _ _ _ _ hv2 hj, hout j (Or.inl hlt), hvr]
      exact vget_append_left _ _ _ (by omega)
    · intro j hj1 hj2
      simp only
      rw [vget_vset_ne _ _ _ _ _ hv2 (by omega)]
      have hd : vget (vresize ({} : Node) g.nodes_list (id + 1).toNat) j = .ok {} := by
        rw [hvr]
        exact vget_append_right_replicate _ _ _ _ (by omega) (by omega)
      exact hin j {} hj1 (by omega) hd
  · obtain ⟨v2, hv2⟩ := vset_exists g.nodes_list id { id := id, name := name } h0 (by omega)
    have hl2 := vset_length _ _ _ _ hv2
    refine ⟨{ g with nodes_list := v2 }, ?_, ?_, ?_, ?_, ?_, ?_⟩
    · unfold Graph.addNode
      simp only [hge, if_false, hv2]
    · unfold Graph.SizeOk; simp only; omega
    · simp only; omega
    · exact vget_vset_same _ _ _ _ hv2
    · intro j hj _
      exact vget_vset_ne _ _ _ _ _ hv2 hj
    · intro j hj1 hj2
      omega

theorem addNode_twice (g g1 : Graph) (id : Int) (name : String)
    (h : g.addNode id name = .ok g1) : g1.addNode id name = .ok g1 := by
  unfold Graph.addNode at h
  by_cases hge : id ≥ g.numNodes
  · simp only [hge, if_true] at h
    cases hv1 : Graph.setIds (vresize ({} : Node) g.nodes_list (id + 1).toNat)
        (id + 1 - g.numNodes).toNat g.numNodes with
    | error f => simp [hv1] at h
    | ok v1 =>
      simp only [hv1] at h
      cases hv2 : vset v1 id { id := id, name := name } with
      | error f => simp [hv2] at h
      | ok v2 =>
        simp only [hv2] at h
        injection h with h
        subst h
        have hsame := vset_same_val v2 id _ (vget_vset_same _ _ _ _ hv2)
        unfold Graph.addNode
        have hlt : ¬ (id ≥ id + 1) := by omega
        simp only [hlt, if_false, hsame]
  · simp only [hge, if_false] at h
    cases hv2 : vset g.nodes_list id { id := id, name := name } with
    | error f => simp [hv2] at h
    | ok v2 =>
      simp only [hv2] at h
      injection h with h
      subst h
      have hsame := vset_same_val v2 id _ (vget_vset_same _ _ _ _ hv2)
      unfold Graph.addNode
      simp only [hge, if_false, hsame]

theorem addEdge_get (g : Graph) (s d : Int) (w : Dbl) (hs : g.SizeOk)
    (hs0 : 0 ≤ s) (hs1 : s < g.numNodes) (hd0 : 0 ≤ d) (hd1 : d < g.numNodes) (hsd : s ≠ d) :
    ∃ g1 src dst, vget g.nodes_list s = .ok src ∧ vget g.nodes_list d = .ok dst ∧
      g.addEdge s d w = .ok g1 ∧ g1.numNodes = g.numNodes ∧ g1.SizeOk ∧
      vget g1.nodes_list s = .ok { src with edges := src.edges ++ [⟨d, w⟩] } ∧
      vget g1.nodes_list d = .ok { dst with edges := dst.edges ++ [⟨s, w⟩] } ∧
      ∀ i, i ≠ s → i ≠ d → vget g1.nodes_list i = vget g.nodes_list i := by
  have hsz := hs
  unfold Graph.SizeOk at hsz
  obtain ⟨src, hsrc⟩ := vget_exists g.nodes_list s hs0 (by omega)
  obtain ⟨dst, hdst⟩ := vget_exists g.nodes_list d hd0 (by omega)
  obtain ⟨v1, hv1⟩ := vset_exists g.nodes_list s
    { src with edges := src.edges ++ [⟨d, w⟩] } hs0 (by omega)
  have hl1 := vset_length _ _ _ _ hv1
  have hdst1 : vget v1 d = .ok dst := by
    rw [vget_vset_ne _ _ _ _ _ hv1 (Ne.symm hsd)]; exact hdst
  obtain ⟨v2, hv2⟩ := vset_exists v1 d { dst with edges := dst.edges ++ [⟨s, w⟩] } hd0
    (by omega)
  have hl2 := vset_length _ _ _ _ hv2
  refine ⟨{ g with nodes_list := v2 }, src, dst, hsrc, hdst, ?_, rfl, ?_, ?_, ?_, ?_⟩
  · unfold Graph.addEdge
    simp only [hsrc, hv1, hdst1, hv2]
  · unfold Graph.SizeOk; simp only; omega
  · simp only
    rw [vget_vset_ne _ _ _ _ _ hv2 hsd]
    exact vget_vset_same _ _ _ _ hv1
  · exact vget_vset_same _ _ _ _ hv2
  · intro i his hid
    simp only
    rw [vget_vset_ne _ _ _ _ _ hv2 hid, vget_vset_ne _ _ _ _ _ hv1 his]

/-! ## Name lookup and interactive additions -/

theorem findName_spec (v : List Node) (name : String) :
    ∀ (k : Nat) (i : Int), 0 ≤ i → i + k ≤ v.length →
    ∃ r, Graph.findName v name k i = .ok r ∧
      ((r = -1 ∧ ∀ j nd, i ≤ j → j < i + k → vget v j = .ok nd → nd.name ≠ name) ∨
       (i ≤ r ∧ r < i + k ∧ (∃ nd, vget v r = .ok nd ∧ nd.name = name) ∧
         ∀ j nd, i ≤ j → j < r → vget v j = .ok nd → nd.name ≠ name)) := by
  intro k
  induction k with
  | zero =>
    intro i _ _
    refine ⟨-1, rfl, Or.inl ⟨rfl, ?_⟩⟩
    intro j nd h1 h2
    simp only [Nat.cast_zero, add_zero] at h2
    omega
  | succ k ih =>
    intro i h0 h1
    obtain ⟨nd0, hnd0⟩ := vget_exists v i h0 (by push_cast at h1; omega)
    unfold Graph.findName
    simp only [hnd0]
    by_cases hname : nd0.name = name
    · refine ⟨i, by simp only [hname, if_true], Or.inr ⟨le_refl _, by push_cast; omega,
        ⟨nd0, hnd0, hname⟩, ?_⟩⟩
      intro j nd h2 h3
      omega
    · obtain ⟨r, hr, hcase⟩ := ih (i + 1) (by omega) (by push_cast at h1; omega)
      refine ⟨r, by simp only [hname, if_false]; exact hr, ?_⟩
      have hhead : ∀ j nd, i ≤ j → j < i + 1 → vget v j = .ok nd → nd.name ≠ name := by
        intro j nd h2 h3 hj
        have : j = i := by omega
        rw [this, hnd0] at hj
        injection hj with hj
        rw [← hj]; exact hname
      rcases hcase with ⟨hr1, hnone⟩ | ⟨h2, h3, hex, hbefore⟩
      · left
        refine ⟨hr1, ?_⟩
        intro j nd h4 h5 hj
        by_cases hji : j < i + 1
        · exact hhead j nd h4 hji hj
        · exact hnone j nd (by omega) (by push_cast at h5 ⊢; omega) hj
      · right
        refine ⟨by omega, by push_cast at h3 ⊢; omega, hex, ?_⟩
        intro j nd h4 h5 hj
        by_cases hji : j < i + 1
        · exact hhead j nd h4 hji hj
        · exact hbefore j nd (by omega) h5 hj

theorem getNodeIndexByname_spec (g : Graph) (name : String) (hs : g.SizeOk) :
    ∃ r, g.getNodeIndexByname name = .ok r ∧
      ((r = -1 ∧ ∀ j nd, 0 ≤ j → j < g.numNodes → vget g.nodes_list j = .ok nd →
          nd.name ≠ name) ∨
       (0 ≤ r ∧ r < g.numNodes ∧ (∃ nd, vget g.nodes_list r = .ok nd ∧ nd.name = name) ∧
         ∀ j nd, 0 ≤ j → j < r → vget g.nodes_list j = .ok nd → nd.name ≠ name)) := by
  unfold Graph.SizeOk at hs
  have hk : (0 : Int) + (g.numNodes.toNat : Int) = g.numNodes := by omega
  obtain ⟨r, hr, hcase⟩ := findName_spec g.nodes_list name g.numNodes.toNat 0 (le_refl _)
    (by omega)
  rw [hk] at hcase
  exact ⟨r, hr, hcase⟩

theorem getNodeIndexByname_found (g : Graph) (name : String) (hs : g.SizeOk) (i : Int)
    (nd : Node) (h0 : 0 ≤ i) (h1 : i < g.numNodes) (hnd : vget g.nodes_list i = .ok nd)
    (hname : nd.name = name) :
    ∃ r, g.getNodeIndexByname name = .ok r ∧ 0 ≤ r ∧ r ≤ i := by
  obtain ⟨r, hr, hcase⟩ := getNodeIndexByname_spec g name hs
  refine ⟨r, hr, ?_⟩
  rcases hcase with ⟨_, hnone⟩ | ⟨h2, _, _, hbefore⟩
  · exact absurd hname (hnone i nd h0 h1 hnd)
  · refine ⟨h2, ?_⟩
    by_contra hlt
    exact hbefore i nd h0 (by omega) hnd hname

theorem handleAddData_location_spec (g : Graph) (file : Option (List Char)) (name : String)
    (hs : g.SizeOk) :
    (name = "" → handleAddData_location g file name = .ok (.emptyName, g, file)) ∧
    (name ≠ "" →
      (∃ i nd, 0 ≤ i ∧ i < g.numNodes ∧ vget g.nodes_list i = .ok nd ∧ nd.name = name) →
      handleAddData_location g file name = .ok (.alreadyExists, g, file)) ∧
    (name ≠ "" →
      (¬ ∃ i nd, 0 ≤ i ∧ i < g.numNodes ∧ vget g.nodes_list i = .ok nd ∧ nd.name = name) →
      ∃ g1, handleAddData_location g file name =
          .ok (.locationAdded g.numNodes, g1,
               appendNodeToFile { id := g.numNodes, name := name, edges := [] } file) ∧
        g1.SizeOk ∧ g1.numNodes = g.numNodes + 1 ∧
        g1.getNodeIndexByname name = .ok g.numNodes ∧
        vget g1.nodes_list g.numNodes = .ok { id := g.numNodes, name := name, edges := [] } ∧
        ∀ i, i < g.numNodes → vget g1.nodes_list i = vget g.nodes_list i) := by
  have hsz := hs
  unfold Graph.SizeOk at hsz
  refine ⟨?_, ?_, ?_⟩
  · intro hn
    unfold handleAddData_location
    simp only [hn, if_true]
  · intro hn ⟨i, nd, h0, h1, hnd, hname⟩
    obtain ⟨r, hr, hr0, _⟩ := getNodeIndexByname_found g name hs i nd h0 h1 hnd hname
    have hne : r ≠ -1 := by omega
    unfold handleAddData_location
    simp only [hn, if_false, hr, hne, ne_eq, not_false_eq_true, if_true]
  · intro hn hnone
    obtain ⟨r, hr, hcase⟩ := getNodeIndexByname_spec g name hs
    have hr1 : r = -1 := by
      rcases hcase with ⟨h1, _⟩ | ⟨h2, h3, ⟨nd, hnd, hname⟩, _⟩
      · exact h1
      · exact absurd ⟨r, nd, h2, h3, hnd, hname⟩ hnone
    obtain ⟨g1, hadd, hs1, hnum, hat, hold, _⟩ :=
      addNode_get g g.numNodes name hs (by omega)
    have hnum1 : g1.numNodes = g.numNodes + 1 := by rw [hnum]; omega
    refine ⟨g1, ?_, hs1, hnum1, ?_, hat, ?_⟩
    · unfold handleAddData_location
      simp only [hn, if_false, hr, hr1, ne_eq, not_true_eq_false, Graph.getNumNodes, hadd,
        Graph.getNode, hat]
    · obtain ⟨r1, hr1a, hr1b, hr1c⟩ := getNodeIndexByname_found g1 name hs1 g.numNodes _
        (by omega) (by omega) hat rfl
      rw [hr1a]
      congr 1
      by_contra hne
      obtain ⟨r2, hr2, hcase2⟩ := getNodeIndexByname_spec g1 name hs1
      rw [hr1a] at hr2
      injection hr2 with hr2
      rcases hcase2 with ⟨h1, _⟩ | ⟨h2, h3, ⟨nd, hnd, hname⟩, _⟩
      · omega
      · rw [← hr2] at hnd
        rw [hold r1 (by omega) (by omega)] at hnd
        exact hnone ⟨r1, nd, hr1b, by omega, hnd, hname⟩
    · intro i hi
      exact hold i (by omega) hi

theorem readWeight_nonneg : ∀ (inputs : List (Option Dbl)) (w : Dbl),
    readWeight inputs = .ok w → w.lt Dbl.zero = false := by
  intro inputs
  induction inputs with
  | nil => intro w h; simp [readWeight] at h
  | cons a rest ih =>
    intro w h
    cases a with
    | none => exact ih w (by simpa [readWeight] using h)
    | some x =>
      unfold readWeight at h
      by_cases hx : x.lt Dbl.zero = true
      · simp only [hx, if_true] at h
        exact ih w h
      · simp only [hx] at h
        injection h with h
        rw [← h]
        simpa using hx

/-! ## Graph store: claims -/

/-- C14: for every graph, every `id >= 0` and every name, a second `addNode(id, name)`
right after the first leaves the graph exactly as the first call left it (same
`numNodes`, same node table); on a graph whose table invariant holds the first call does
return. -/
theorem addNode_idempotent (g : Graph) (id : Int) (name : String) (h0 : 0 ≤ id) :
    (∀ g1, g.addNode id name = .ok g1 → g1.addNode id name = .ok g1) ∧
    (g.SizeOk → ∃ g1, g.addNode id name = .ok g1) := by
  refine ⟨fun g1 h => addNode_twice g g1 id name h, fun hs => ?_⟩
  obtain ⟨g1, h1, _⟩ := addNode_ok g id name hs h0
  exact ⟨g1, h1⟩

theorem addNode_idempotent_witness :
    (∀ g1, scenarioGraph.addNode 3 "Park" = .ok g1 → g1.addNode 3 "Park" = .ok g1) ∧
    (scenarioGraph.SizeOk → ∃ g1, scenarioGraph.addNode 3 "Park" = .ok g1) :=
  addNode_idempotent scenarioGraph 3 "Park" (by decide)

/-- C15: on a graph with `numNodes` equal to the table length, `addNode(id, name)` with
`id >= numNodes` returns a graph with `numNodes = id + 1` (again the table length), in
which every new intermediate slot `i` in `[old numNodes, id)` holds the placeholder node
with `id = i`, empty name and no edges, the slot `id` holds `{id, name}` without edges,
and every slot below the old `numNodes` is unchanged. -/
theorem addNode_grows (g : Graph) (id : Int) (name : String) (hs : g.SizeOk)
    (hid : id ≥ g.numNodes) :
    ∃ g1, g.addNode id name = .ok g1 ∧ g1.numNodes = id + 1 ∧
      (g1.nodes_list.length : Int) = id + 1 ∧
      (∀ i, g.numNodes ≤ i → i < id →
        vget g1.nodes_list i = .ok { id := i, name := "", edges := [] }) ∧
      vget g1.nodes_list id = .ok { id := id, name := name, edges := [] } ∧
      (∀ i, i < g.numNodes → vget g1.nodes_list i = vget g.nodes_list i) := by
  have hsz := hs
  unfold Graph.SizeOk at hsz
  obtain ⟨g1, hadd, hs1, hnum, hat, hold, hmid⟩ := addNode_get g id name hs (by omega)
  unfold Graph.SizeOk at hs1
  have hn : g1.numNodes = id + 1 := by rw [hnum]; omega
  exact ⟨g1, hadd, hn, by omega, hmid, hat, fun i hi => hold i (by omega) hi⟩

theorem addNode_grows_witness :
    ∃ g1, scenarioGraph.addNode 4 "Park" = .ok g1 ∧ g1.numNodes = 4 + 1 ∧
      (g1.nodes_list.length : Int) = 4 + 1 ∧
      (∀ i, scenarioGraph.numNodes ≤ i → i < 4 →
        vget g1.nodes_list i = .ok { id := i, name := "", edges := [] }) ∧
      vget g1.nodes_list 4 = .ok { id := 4, name := "Park", edges := [] } ∧
      (∀ i, i < scenarioGraph.numNodes →
        vget g1.nodes_list i = vget scenarioGraph.nodes_list i) :=
  addNode_grows scenarioGraph 4 "Park" (by unfold Graph.SizeOk; decide) (by decide)

/-- C16: on a graph whose table invariant holds, `addEdge(source, dest, w)` with
in-range `source != dest` appends the one entry `{dest, w}` at the end of the adjacency
list of `source` and the one entry `{source, w}` at the end of the list of `dest`, the
entries already there keeping their order, and leaves `numNodes`, the table length, the
id and name of every node and the adjacency list of every other node unchanged. -/
theorem addEdge_appends (g : Graph) (s d : Int) (w : Dbl) (hs : g.SizeOk)
    (hs0 : 0 ≤ s) (hs1 : s < g.numNodes) (hd0 : 0 ≤ d) (hd1 : d < g.numNodes) (hsd : s ≠ d) :
    ∃ g1 src dst, vget g.nodes_list s = .ok src ∧ vget g.nodes_list d = .ok dst ∧
      g.addEdge s d w = .ok g1 ∧ g1.numNodes = g.numNodes ∧
      g1.nodes_list.length = g.nodes_list.length ∧
      vget g1.nodes_list s =
        .ok { id := src.id, name := src.name, edges := src.edges ++ [⟨d, w⟩] } ∧
      vget g1.nodes_list d =
        .ok { id := dst.id, name := dst.name, edges := dst.edges ++ [⟨s, w⟩] } ∧
      ∀ i, i ≠ s → i ≠ d → vget g1.nodes_list i = vget g.nodes_list i := by
  obtain ⟨g1, src, dst, h1, h2, h3, h4, h5, h6, h7, h8⟩ :=
    addEdge_get g s d w hs hs0 hs1 hd0 hd1 hsd
  unfold Graph.SizeOk at hs h5
  exact ⟨g1, src, dst, h1, h2, h3, h4, by omega, h6, h7, h8⟩

theorem addEdge_appends_witness :
    ∃ g1 src dst, vget scenarioGraph.nodes_list 0 = .ok src ∧
      vget scenarioGraph.nodes_list 1 = .ok dst ∧
      scenarioGraph.addEdge 0 1 (Dbl.fin 3) = .ok g1 ∧ g1.numNodes = scenarioGraph.numNodes ∧
      g1.nodes_list.length = scenarioGraph.nodes_list.length ∧
      vget g1.nodes_list 0 =
        .ok { id := src.id, name := src.name, edges := src.edges ++ [⟨1, Dbl.fin 3⟩] } ∧
      vget g1.nodes_list 1 =
        .ok { id := dst.id, name := dst.name, edges := dst.edges ++ [⟨0, Dbl.fin 3⟩] } ∧
      ∀ i, i ≠ 0 → i ≠ 1 → vget g1.nodes_list i = vget scenarioGraph.nodes_list i :=
  addEdge_appends scenarioGraph 0 1 (Dbl.fin 3) (by unfold Graph.SizeOk; decide)
    (by decide) (by decide) (by decide) (by decide) (by decide)

/-- C17 fails on the code: on the one-node graph, `addEdge(0, 5, 1.0)` does not return
the graph unchanged; the entry `{5, 1.0}` is first pushed on node `0` and the access to
`nodes_list[5]` then falls outside the table. A negative source id faults at once. -/
theorem addEdge_out_of_range_faults :
    (Graph.mk_n 1).addEdge 0 5 (Dbl.fin 1) = .error .outOfBounds ∧
    vset (Graph.mk_n 1).nodes_list 0 { id := 0, name := "", edges := [⟨5, Dbl.fin 1⟩] } =
      .ok [{ id := 0, name := "", edges := [⟨5, Dbl.fin 1⟩] }] ∧
    vget [({ id := 0, name := "", edges := [⟨5, Dbl.fin 1⟩] } : Node)] 5 =
      .error .outOfBounds ∧
    scenarioGraph.addEdge (-1) 0 (Dbl.fin 1) = .error .outOfBounds := by
  decide!

/-- C18: on a graph whose table invariant holds, an add-route request whose source
name is not found, whose destination name is not found, whose names resolve to the same
id, or (for the GUI form) whose weight is negative, leaves the graph unchanged and
reports no added route; every other request applies exactly one
`addEdge(sourceId, destId, weight)`. In the console form the weight is asked again until
it is not negative, so the weight passed to `addEdge` is never negative. -/
theorem add_route_spec (g : Graph) (source_name dest_name : String) (weight : Dbl)
    (weightInputs : List (Option Dbl)) (hs : g.SizeOk) :
    ∃ s d, g.getNodeIndexByname source_name = .ok s ∧ g.getNodeIndexByname dest_name = .ok d ∧
      ((s = -1 ∨ d = -1 ∨ s = d ∨ weight.lt Dbl.zero = true) →
        ∃ st, handleAddDataGUI_route g source_name dest_name weight = .ok (st, g) ∧
          ∀ a b, st ≠ .routeAdded a b) ∧
      (¬ (s = -1 ∨ d = -1 ∨ s = d ∨ weight.lt Dbl.zero = true) →
        ∃ g1, g.addEdge s d weight = .ok g1 ∧
          handleAddDataGUI_route g source_name dest_name weight = .ok (.routeAdded s d, g1)) ∧
      ((s = -1 ∨ d = -1 ∨ s = d) →
        ∃ st, handleAddData_route g source_name dest_name weightInputs = .ok (st, g) ∧
          ∀ a b, st ≠ .routeAdded a b) ∧
      (¬ (s = -1 ∨ d = -1 ∨ s = d) → ∀ w, readWeight weightInputs = .ok w →
        w.lt Dbl.zero = false ∧
        ∃ g1, g.addEdge s d w = .ok g1 ∧
          handleAddData_route g source_name dest_name weightInputs =
            .ok (.routeAdded s d, g1)) := by
  obtain ⟨s, hsr, hsc⟩ := getNodeIndexByname_spec g source_name hs
  obtain ⟨d, hdr, hdc⟩ := getNodeIndexByname_spec g dest_name hs
  have hsrange : s ≠ -1 → 0 ≤ s ∧ s < g.numNodes := by
    intro hne
    rcases hsc with ⟨h1, _⟩ | ⟨h2, h3, _⟩
    · exact absurd h1 hne
    · exact ⟨h2, h3⟩
  have hdrange : d ≠ -1 → 0 ≤ d ∧ d < g.numNodes := by
    intro hne
    rcases hdc with ⟨h1, _⟩ | ⟨h2, h3, _⟩
    · exact absurd h1 hne
    · exact ⟨h2, h3⟩
  refine ⟨s, d, hsr, hdr, ?_, ?_, ?_, ?_⟩
  · intro hrej
    unfold handleAddDataGUI_route
    simp only [hsr, hdr]
    by_cases h1 : s = -1
    · exact ⟨.sourceNotFound, by simp only [h1, if_true], by intro a b h; cases h⟩
    · by_cases h2 : d = -1
      · exact ⟨.destNotFound, by simp only [h1, h2, if_true, if_false],
          by intro a b h; cases h⟩
      · by_cases h3 : s = d
        · exact ⟨.selfLoop, by simp only [h1, h2, h3, if_true, if_false],
            by intro a b h; cases h⟩
        · have h4 : weight.lt Dbl.zero = true := by
            rcases hrej with h | h | h | h
            · exact absurd h h1
            · exact absurd h h2
            · exact absurd h h3
            · exact h
          exact ⟨.negativeWeight, by simp only [h1, h2, h3, h4, if_true, if_false],
            by intro a b h; cases h⟩
  · intro hok
    simp only [not_or] at hok
    obtain ⟨h1, h2, h3, h4⟩ := hok
    obtain ⟨hs0, hs1⟩ := hsrange h1
    obtain ⟨hd0, hd1⟩ := hdrange h2
    obtain ⟨g1, hg1, _⟩ := addEdge_ok g s d weight hs hs0 hs1 hd0 hd1
    refine ⟨g1, hg1, ?_⟩
    unfold handleAddDataGUI_route
    simp only [hsr, hdr, h1, h2, h3, h4, if_false, hg1]
    rfl
  · intro hrej
    unfold handleAddData_route
    simp only [hsr, hdr]
    by_cases h1 : s = -1
    · exact ⟨.sourceNotFound, by simp only [h1, if_true], by intro a b h; cases h⟩
    · by_cases h2 : d = -1
      · exact ⟨.destNotFound, by simp only [h1, h2, if_true, if_false],
          by intro a b h; cases h⟩
      · have h3 : s = d := by
          rcases hrej with h | h | h
          · exact absurd h h1
          · exact absurd h h2
          · exact h
        exact ⟨.selfLoop, by simp only [h1, h2, h3, if_true, if_false],
          by intro a b h; cases h⟩
  · intro hok w hw
    simp only [not_or] at hok
    obtain ⟨h1, h2, h3⟩ := hok
    obtain ⟨hs0, hs1⟩ := hsrange h1
    obtain ⟨hd0, hd1⟩ := hdrange h2
    obtain ⟨g1, hg1, _⟩ := addEdge_ok g s d w hs hs0 hs1 hd0 hd1
    refine ⟨readWeight_nonneg weightInputs w hw, g1, hg1, ?_⟩
    unfold handleAddData_route
    simp only [hsr, hdr, h1, h2, h3, if_false, hw, hg1]

theorem add_route_spec_witness :
    ∃ s d, scenarioGraph.getNodeIndexByname "Home" = .ok s ∧
      scenarioGraph.getNodeIndexByname "Campus" = .ok d ∧
      ((s = -1 ∨ d = -1 ∨ s = d ∨ (Dbl.fin 2).lt Dbl.zero = true) →
        ∃ st, handleAddDataGUI_route scenarioGraph "Home" "Campus" (Dbl.fin 2) =
            .ok (st, scenarioGraph) ∧
          ∀ a b, st ≠ .routeAdded a b) ∧
      (¬ (s = -1 ∨ d = -1 ∨ s = d ∨ (Dbl.fin 2).lt Dbl.zero = true) →
        ∃ g1, scenarioGraph.addEdge s d (Dbl.fin 2) = .ok g1 ∧
          handleAddDataGUI_route scenarioGraph "Home" "Campus" (Dbl.fin 2) =
            .ok (.routeAdded s d, g1)) ∧
      ((s = -1 ∨ d = -1 ∨ s = d) →
        ∃ st, handleAddData_route scenarioGraph "Home" "Campus" [some (Dbl.fin 2)] =
            .ok (st, scenarioGraph) ∧
          ∀ a b, st ≠ .routeAdded a b) ∧
      (¬ (s = -1 ∨ d = -1 ∨ s = d) → ∀ w, readWeight [some (Dbl.fin 2)] = .ok w →
        w.lt Dbl.zero = false ∧
        ∃ g1, scenarioGraph.addEdge s d w = .ok g1 ∧
          handleAddData_route scenarioGraph "Home" "Campus" [some (Dbl.fin 2)] =
            .ok (.routeAdded s d, g1)) :=
  add_route_spec scenarioGraph "Home" "Campus" (Dbl.fin 2) [some (Dbl.fin 2)]
    (by unfold Graph.SizeOk; decide)

/-- C19: on a graph whose table invariant holds, add-location leaves the graph (and the
nodes file) unchanged for the empty name and for a name some node already has;
otherwise it gives the new node the id equal to the previous node count, `numNodes`
grows by exactly 1, `getNodeIndexByname(name)` then returns that new id, the new slot
holds `{id, name}` without edges, and every node that existed keeps its slot with its
id, name and adjacency list. -/
theorem add_location_spec (g : Graph) (file : Option (List Char)) (name : String)
    (hs : g.SizeOk) :
    (name = "" → handleAddData_location g file name = .ok (.emptyName, g, file)) ∧
    (name ≠ "" →
      (∃ i nd, 0 ≤ i ∧ i < g.numNodes ∧ vget g.nodes_list i = .ok nd ∧ nd.name = name) →
      handleAddData_location g file name = .ok (.alreadyExists, g, file)) ∧
    (name ≠ "" →
      (¬ ∃ i nd, 0 ≤ i ∧ i < g.numNodes ∧ vget g.nodes_list i = .ok nd ∧ nd.name = name) →
      ∃ g1, handleAddData_location g file name =
          .ok (.locationAdded g.numNodes, g1,
               appendNodeToFile { id := g.numNodes, name := name, edges := [] } file) ∧
        g1.numNodes = g.numNodes + 1 ∧
        g1.getNodeIndexByname name = .ok g.numNodes ∧
        vget g1.nodes_list g.numNodes = .ok { id := g.numNodes, name := name, edges := [] } ∧
        ∀ i, i < g.numNodes → vget g1.nodes_list i = vget g.nodes_list i) := by
  obtain ⟨h1, h2, h3⟩ := handleAddData_location_spec g file name hs
  refine ⟨h1, h2, ?_⟩
  intro hn hnone
  obtain ⟨g1, a1, _, a3, a4, a5, a6⟩ := h3 hn hnone
  exact ⟨g1, a1, a3, a4, a5, a6⟩

theorem add_location_spec_witness :
    ("Park" = "" →
      handleAddData_location scenarioGraph none "Park" = .ok (.emptyName, scenarioGraph, none)) ∧
    ("Park" ≠ "" →
      (∃ i nd, 0 ≤ i ∧ i < scenarioGraph.numNodes ∧
        vget scenarioGraph.nodes_list i = .ok nd ∧ nd.name = "Park") →
      handleAddData_location scenarioGraph none "Park" =
        .ok (.alreadyExists, scenarioGraph, none)) ∧
    ("Park" ≠ "" →
      (¬ ∃ i nd, 0 ≤ i ∧ i < scenarioGraph.numNodes ∧
        vget scenarioGraph.nodes_list i = .ok nd ∧ nd.name = "Park") →
      ∃ g1, handleAddData_location scenarioGraph none "Park" =
          .ok (.locationAdded scenarioGraph.numNodes, g1,
               appendNodeToFile
                 { id := scenarioGraph.numNodes, name := "Park", edges := [] } none) ∧
        g1.numNodes = scenarioGraph.numNodes + 1 ∧
        g1.getNodeIndexByname "Park" = .ok scenarioGraph.numNodes ∧
        vget g1.nodes_list scenarioGraph.numNodes =
          .ok { id := scenarioGraph.numNodes, name := "Park", edges := [] } ∧
        ∀ i, i < scenarioGraph.numNodes →
          vget g1.nodes_list i = vget scenarioGraph.nodes_list i) :=
  add_location_spec scenarioGraph none "Park" (by unfold Graph.SizeOk; decide)

/-- C20: on a graph whose table invariant holds, `getNodeIndexByname(name)` returns
`-1` if and only if no node in `[0, numNodes)` has that name, and otherwise returns the
smallest index in `[0, numNodes)` whose node has that name. -/
theorem getNodeIndexByname_first_match (g : Graph) (name : String) (hs : g.SizeOk) :
    ∃ r, g.getNodeIndexByname name = .ok r ∧
      (r = -1 ↔ ∀ i nd, 0 ≤ i → i < g.numNodes → vget g.nodes_list i = .ok nd →
        nd.name ≠ name) ∧
      (r ≠ -1 → 0 ≤ r ∧ r < g.numNodes ∧
        (∃ nd, vget g.nodes_list r = .ok nd ∧ nd.name = name) ∧
        ∀ i nd, 0 ≤ i → i < r → vget g.nodes_list i = .ok nd → nd.name ≠ name) := by
  obtain ⟨r, hr, hcase⟩ := getNodeIndexByname_spec g name hs
  refine ⟨r, hr, ?_, ?_⟩
  · rcases hcase with ⟨h1, hnone⟩ | ⟨h2, h3, ⟨nd, hnd, hname⟩, _⟩
    · exact ⟨fun _ => hnone, fun _ => h1⟩
    · exact ⟨fun h => by omega, fun h => absurd hname (h r nd h2 h3 hnd)⟩
  · intro hne
    rcases hcase with ⟨h1, _⟩ | hfound
    · exact absurd h1 hne
    · exact hfound

theorem getNodeIndexByname_first_match_witness :
    ∃ r, scenarioGraph.getNodeIndexByname "Home" = .ok r ∧
      (r = -1 ↔ ∀ i nd, 0 ≤ i → i < scenarioGraph.numNodes →
        vget scenarioGraph.nodes_list i = .ok nd → nd.name ≠ "Home") ∧
      (r ≠ -1 → 0 ≤ r ∧ r < scenarioGraph.numNodes ∧
        (∃ nd, vget scenarioGraph.nodes_list r = .ok nd ∧ nd.name = "Home") ∧
        ∀ i nd, 0 ≤ i → i < r → vget scenarioGraph.nodes_list i = .ok nd →
          nd.name ≠ "Home") :=
  getNodeIndexByname_first_match scenarioGraph "Home" (by unfold Graph.SizeOk; decide)

/-! ## Loader: contents of the loaded graph -/

theorem loadNodes_content : ∀ (recs : List NodeRecord) (m m1 : Map) (g g1 : Graph)
    (mx mx1 : Int) (nm : Int → String),
    g.Tab nm → (∀ i, g.numNodes ≤ i → nm i = "") →
    Map.loadNodes m g mx recs = .ok (true, m1, g1, mx1) →
    g1.Tab (fun i => recs.foldl (fun acc r => if r.1 = i then r.2 else acc) (nm i)) := by
  intro recs
  induction recs with
  | nil =>
    intro m m1 g g1 mx mx1 nm ht _ h
    unfold Map.loadNodes at h
    injection h with h
    injection h with _ h
    injection h with _ h
    injection h with h _
    rw [← h]
    exact ht
  | cons r rest ih =>
    intro m m1 g g1 mx mx1 nm ht hout h
    obtain ⟨id, name⟩ := r
    unfold Map.loadNodes at h
    by_cases hbad : id < 0 ∨ name = ""
    · simp [hbad] at h
    · simp only [hbad, if_false] at h
      have h0 : 0 ≤ id := by omega
      obtain ⟨g2, hadd, hs2, hnum, hat, hold, hmid⟩ := addNode_get g id name ht.1 h0
      simp only [hadd] at h
      have ht2 : g2.Tab (fun i => if id = i then name else nm i) := by
        refine ⟨hs2, ?_⟩
        intro i hi0 hi1
        by_cases hii : i = id
        · rw [hii]
          simp only [if_true]
          exact hat
        · have hii1 : ¬ id = i := fun hh => hii hh.symm
          simp only [hii1, if_false]
          by_cases hlt : i < g.numNodes
          · rw [hold i hii hlt]
            exact ht.2 i hi0 hlt
          · rw [hmid i (by omega) (by omega), hout i (by omega)]
      have hout2 : ∀ i, g2.numNodes ≤ i → (fun i => if id = i then name else nm i) i = "" := by
        intro i hi
        have hii1 : ¬ id = i := by omega
        simp only [hii1, if_false]
        exact hout i (by omega)
      exact ih _ m1 g2 g1 _ mx1 _ ht2 hout2 h

theorem fixIds_noop : ∀ (k : Nat) (v : List Node) (i : Int), 0 ≤ i → i + k ≤ v.length →
    (∀ j nd, vget v j = .ok nd → nd.id = j) → Map.fixIds v k i = .ok v := by
  intro k
  induction k with
  | zero => intro v i _ _ _; rfl
  | succ k ih =>
    intro v i h0 h1 hid
    obtain ⟨nd, hnd⟩ := vget_exists v i h0 (by push_cast at h1; omega)
    have hne : ¬ nd.id = -1 := by rw [hid i nd hnd]; omega
    unfold Map.fixIds
    simp only [hnd, hne, if_false]
    exact ih v (i + 1) (by omega) (by push_cast at h1; omega) hid

theorem tab_ids (g : Graph) (nm : Int → String) (ht : g.Tab nm) :
    ∀ j nd, vget g.nodes_list j = .ok nd → nd.id = j := by
  intro j nd hj
  have hr := vget_inRange _ _ _ hj
  have hs := ht.1
  unfold Graph.SizeOk at hs
  rw [ht.2 j hr.1 (by omega)] at hj
  injection hj with hj
  rw [← hj]

theorem addEdge_names (g g1 : Graph) (s d : Int) (w : Dbl) (h : g.addEdge s d w = .ok g1) :
    g1.numNodes = g.numNodes ∧ g1.nodes_list.length = g.nodes_list.length ∧
    ∀ j nd1, vget g1.nodes_list j = .ok nd1 →
      ∃ nd, vget g.nodes_list j = .ok nd ∧ nd1.id = nd.id ∧ nd1.name = nd.name := by
  unfold Graph.addEdge at h
  cases hsrc : vget g.nodes_list s with
  | error f => simp [hsrc] at h
  | ok src =>
    simp only [hsrc] at h
    cases hv1 : vset g.nodes_list s { src with edges := src.edges ++ [⟨d, w⟩] } with
    | error f => simp [hv1] at h
    | ok v1 =>
      simp only [hv1] at h
      cases hdst : vget v1 d with
      | error f => simp [hdst] at h
      | ok dst =>
        simp only [hdst] at h
        cases hv2 : vset v1 d { dst with edges := dst.edges ++ [⟨s, w⟩] } with
        | error f => simp [hv2] at h
        | ok v2 =>
          simp only [hv2] at h
          injection h with h
          subst h
          have hstep1 : ∀ j nd1, vget v1 j = .ok nd1 →
              ∃ nd, vget g.nodes_list j = .ok nd ∧ nd1.id = nd.id ∧ nd1.name = nd.name := by
            intro j nd1 hj
            by_cases hjs : j = s
            · rw [hjs, vget_vset_same _ _ _ _ hv1] at hj
              injection hj with hj
              exact ⟨src, by rw [hjs]; exact hsrc, by rw [← hj], by rw [← hj]⟩
            · rw [vget_vset_ne _ _ _ _ _ hv1 hjs] at hj
              exact ⟨nd1, hj, rfl, rfl⟩
          refine ⟨rfl, ?_, ?_⟩
          · simp only
            rw [vset_length _ _ _ _ hv2, vset_length _ _ _ _ hv1]
          · intro j nd1 hj
            simp only at hj
            by_cases hjd : j = d
            · rw [hjd, vget_vset_same _ _ _ _ hv2] at hj
              injection hj with hj
              obtain ⟨nd, a1, a2, a3⟩ := hstep1 d dst hdst
              exact ⟨nd, by rw [hjd]; exact a1, by rw [← hj]; exact a2, by rw [← hj]; exact a3⟩
            · rw [vget_vset_ne _ _ _ _ _ hv2 hjd] at hj
              exact hstep1 j nd1 hj

theorem loadEdges_names : ∀ (recs : List EdgeRecord) (g g1 : Graph) (b : Bool),
    Map.loadEdges g recs = .ok (b, g1) →
    g1.numNodes = g.numNodes ∧ g1.nodes_list.length = g.nodes_list.length ∧
    ∀ j nd1, vget g1.nodes_list j = .ok nd1 →
      ∃ nd, vget g.nodes_list j = .ok nd ∧ nd1.id = nd.id ∧ nd1.name = nd.name := by
  intro recs
  induction recs with
  | nil =>
    intro g g1 b h
    unfold Map.loadEdges at h
    injection h with h
    injection h with _ h
    rw [← h]
    exact ⟨rfl, rfl, fun j nd1 hj => ⟨nd1, hj, rfl, rfl⟩⟩
  | cons r rest ih =>
    intro g g1 b h
    obtain ⟨s, d, w⟩ := r
    unfold Map.loadEdges at h
    by_cases hbad : s < 0 ∨ s ≥ g.getNumNodes ∨ d < 0 ∨ d ≥ g.getNumNodes ∨ w < 0
    · simp only [hbad, if_true] at h
      injection h with h
      injection h with _ h
      rw [← h]
      exact ⟨rfl, rfl, fun j nd1 hj => ⟨nd1, hj, rfl, rfl⟩⟩
    · simp only [hbad, if_false] at h
      cases hadd : g.addEdge s d (Dbl.fin w) with
      | error f => simp [hadd] at h
      | ok g2 =>
        simp only [hadd] at h
        obtain ⟨a1, a2, a3⟩ := addEdge_names g g2 s d _ hadd
        obtain ⟨b1, b2, b3⟩ := ih g2 g1 b h
        refine ⟨by rw [b1, a1], by rw [b2, a2], ?_⟩
        intro j nd1 hj
        obtain ⟨nd2, c1, c2, c3⟩ := b3 j nd1 hj
        obtain ⟨nd, e1, e2, e3⟩ := a3 j nd2 c1
        exact ⟨nd, e1, by rw [c2, e2], by rw [c3, e3]⟩

theorem tab_empty : ({} : Graph).Tab (fun _ => "") := by
  refine ⟨by unfold Graph.SizeOk; rfl, ?_⟩
  intro i h0 h1
  have : ({} : Graph).numNodes = 0 := rfl
  omega

theorem map_to_graph_after_nodes (m m1 : Map) (g1 : Graph) (mx : Int)
    (nodeRecords : List NodeRecord) (edgesFile : Option (List EdgeRecord))
    (h : Map.loadNodes m {} (-1) nodeRecords = .ok (true, m1, g1, mx)) :
    g1.Tab (lastName nodeRecords) ∧ g1.numNodes = maxNodeId nodeRecords + 1 ∧
    Map.map_to_graph m {} (some nodeRecords) edgesFile =
      (match edgesFile with
       | none => .ok (false, m1, g1)
       | some edgeRecords =>
         match Map.loadEdges g1 edgeRecords with
         | .error f => .error f
         | .ok (ok, g3) => .ok (ok, m1, g3)) := by
  have ht : g1.Tab (lastName nodeRecords) :=
    loadNodes_content nodeRecords m m1 {} g1 (-1) mx (fun _ => "") tab_empty
      (fun _ _ => rfl) h
  obtain ⟨b, m2, g2, mx2, hrun, _, hpost⟩ :=
    loadNodes_spec nodeRecords m {} (-1) tab_empty.1 (by rfl)
  rw [h] at hrun
  injection hrun with hrun
  injection hrun with hb hrun
  injection hrun with _ hrun
  injection hrun with hg hmx
  subst hb; subst hg; subst hmx
  obtain ⟨a1, a2, a3⟩ := hpost rfl
  have hsz := a1
  unfold Graph.SizeOk at hsz
  have hlen : (mx + 1).toNat = g1.nodes_list.length := by omega
  have hfix := fixIds_noop g1.nodes_list.length g1.nodes_list 0 (le_refl _) (by omega)
    (tab_ids g1 _ ht)
  have hg : ({ nodes_list := g1.nodes_list, numNodes := mx + 1 } : Graph) = g1 := by
    cases g1
    simp only at a2
    simp only [a2]
  refine ⟨ht, by rw [a2, a3]; rfl, ?_⟩
  unfold Map.map_to_graph
  simp only [h, hlen, vresize_self, hfix, hg]

/-! ## Loader: a rejected record -/

theorem loadNodes_rejected (bad : NodeRecord) (rest : List NodeRecord)
    (hbad : ¬ (0 ≤ bad.1 ∧ bad.2 ≠ "")) :
    ∀ (pre : List NodeRecord) (m : Map) (g : Graph) (mx : Int),
    (∀ r ∈ pre, 0 ≤ r.1 ∧ r.2 ≠ "") → g.SizeOk → g.numNodes = mx + 1 →
    ∃ m1 g1 mx1, Map.loadNodes m g mx pre = .ok (true, m1, g1, mx1) ∧
      Map.loadNodes m g mx (pre ++ bad :: rest) = .ok (false, m1, g1, mx1) := by
  intro pre
  induction pre with
  | nil =>
    intro m g mx _ _ _
    refine ⟨m, g, mx, rfl, ?_⟩
    obtain ⟨id, name⟩ := bad
    have hb : id < 0 ∨ name = "" := by
      simp only at hbad
      by_cases h : id < 0
      · exact Or.inl h
      · right
        by_contra hn
        exact hbad ⟨by omega, hn⟩
    simp only [List.nil_append]
    unfold Map.loadNodes
    simp only [hb, if_true]
  | cons r pre ih =>
    intro m g mx hv hs hn
    obtain ⟨id, name⟩ := r
    have hr := hv (id, name) (by simp)
    simp only at hr
    have hok : ¬ (id < 0 ∨ name = "") := by
      intro h
      rcases h with h | h
      · omega
      · exact hr.2 h
    obtain ⟨g2, hadd, hs2, hn2⟩ := addNode_ok g id name hs hr.1
    have hmx : g2.numNodes = (if id > mx then id else mx) + 1 := by
      rw [hn2, hn]; split <;> omega
    obtain ⟨m1, g1, mx1, h1, h2⟩ :=
      ih (if id = 0 then { m with university_name := name } else m) g2
        (if id > mx then id else mx) (fun r hr1 => hv r (List.mem_cons_of_mem _ hr1)) hs2 hmx
    refine ⟨m1, g1, mx1, ?_, ?_⟩
    · unfold Map.loadNodes
      simp only [hok, if_false, hadd]
      exact h1
    · simp only [List.cons_append]
      unfold Map.loadNodes
      simp only [hok, if_false, hadd]
      exact h2

theorem loadEdges_rejected (bad : EdgeRecord) (rest : List EdgeRecord) :
    ∀ (pre : List EdgeRecord) (g : Graph), g.SizeOk →
    (∀ e ∈ pre, EdgeRecordValid g.numNodes e) → ¬ EdgeRecordValid g.numNodes bad →
    ∃ g1, Map.loadEdges g pre = .ok (true, g1) ∧
      Map.loadEdges g (pre ++ bad :: rest) = .ok (false, g1) := by
  intro pre
  induction pre with
  | nil =>
    intro g _ _ hbad
    refine ⟨g, rfl, ?_⟩
    obtain ⟨s, d, w⟩ := bad
    have hb : s < 0 ∨ s ≥ g.getNumNodes ∨ d < 0 ∨ d ≥ g.getNumNodes ∨ w < 0 := by
      unfold EdgeRecordValid at hbad
      unfold Graph.getNumNodes
      simp only at hbad
      by_contra hcon
      simp only [not_or, not_lt, ge_iff_le, not_le] at hcon
      exact hbad ⟨⟨hcon.1, hcon.2.1⟩, ⟨hcon.2.2.1, hcon.2.2.2.1⟩, hcon.2.2.2.2⟩
    simp only [List.nil_append]
    unfold Map.loadEdges
    simp only [hb, if_true]
  | cons r pre ih =>
    intro g hs hv hbad
    obtain ⟨s, d, w⟩ := r
    have hr := hv (s, d, w) (by simp)
    unfold EdgeRecordValid at hr
    simp only at hr
    have hok : ¬ (s < 0 ∨ s ≥ g.getNumNodes ∨ d < 0 ∨ d ≥ g.getNumNodes ∨ w < 0) := by
      unfold Graph.getNumNodes
      intro h
      rcases h with h | h | h | h | h
      · omega
      · omega
      · omega
      · omega
      · exact absurd h (not_lt.mpr hr.2.2)
    obtain ⟨g2, hadd, hs2, hn2⟩ := addEdge_ok g s d (Dbl.fin w) hs hr.1.1 hr.1.2 hr.2.1.1
      hr.2.1.2
    obtain ⟨g1, h1, h2⟩ := ih g2 hs2
      (fun e he => by rw [hn2]; exact hv e (List.mem_cons_of_mem _ he))
      (by rw [hn2]; exact hbad)
    refine ⟨g1, ?_, ?_⟩
    · unfold Map.loadEdges
      simp only [hok, if_false, hadd]
      exact h1
    · simp only [List.cons_append]
      unfold Map.loadEdges
      simp only [hok, if_false, hadd]
      exact h2

theorem loadNodes_valid (m : Map) (recs : List NodeRecord)
    (hv : ∀ r ∈ recs, 0 ≤ r.1 ∧ r.2 ≠ "") :
    ∃ m1 g1 mx, Map.loadNodes m {} (-1) recs = .ok (true, m1, g1, mx) := by
  obtain ⟨b, m1, g1, mx, hrun, hiff, _⟩ :=
    loadNodes_spec recs m {} (-1) tab_empty.1 (by rfl)
  have hb : b = true := hiff.mpr hv
  subst hb
  exact ⟨m1, g1, mx, hrun⟩

theorem map_to_graph_failure (m : Map) (graph : Graph) (pre : List NodeRecord)
    (bad : NodeRecord) (rest : List NodeRecord) (edgesFile : Option (List EdgeRecord))
    (allNodes : List NodeRecord) (epre : List EdgeRecord) (ebad : EdgeRecord)
    (erest : List EdgeRecord)
    (hpre : ∀ r ∈ pre, 0 ≤ r.1 ∧ r.2 ≠ "") (hbad : ¬ (0 ≤ bad.1 ∧ bad.2 ≠ ""))
    (hall : ∀ r ∈ allNodes, 0 ≤ r.1 ∧ r.2 ≠ "")
    (hepre : ∀ e ∈ epre, EdgeRecordValid (maxNodeId allNodes + 1) e)
    (hebad : ¬ EdgeRecordValid (maxNodeId allNodes + 1) ebad) :
    Map.map_to_graph m graph none edgesFile = .ok (false, m, graph) ∧
    (∃ m1 g1, Map.map_to_graph m {} (some pre) (some []) = .ok (true, m1, g1) ∧
      Map.map_to_graph m {} (some (pre ++ bad :: rest)) edgesFile = .ok (false, m1, g1)) ∧
    (∃ m1 g1, Map.map_to_graph m {} (some allNodes) (some epre) = .ok (true, m1, g1) ∧
      Map.map_to_graph m {} (some allNodes) (some (epre ++ ebad :: erest)) =
        .ok (false, m1, g1)) ∧
    (∃ m1 g1, Map.map_to_graph m {} (some allNodes) (some []) = .ok (true, m1, g1) ∧
      Map.map_to_graph m {} (some allNodes) none = .ok (false, m1, g1)) := by
  refine ⟨rfl, ?_, ?_, ?_⟩
  · obtain ⟨m1, g1, mx1, h1, h2⟩ :=
      loadNodes_rejected bad rest hbad pre m {} (-1) hpre tab_empty.1 (by rfl)
    obtain ⟨_, _, h3⟩ := map_to_graph_after_nodes m m1 g1 mx1 pre (some []) h1
    refine ⟨m1, g1, ?_, ?_⟩
    · rw [h3]
      rfl
    · unfold Map.map_to_graph
      simp only [h2]
  · obtain ⟨m1, g1, mx, h1⟩ := loadNodes_valid m allNodes hall
    obtain ⟨ht, hnum, h3⟩ := map_to_graph_after_nodes m m1 g1 mx allNodes (some epre) h1
    obtain ⟨_, _, h4⟩ :=
      map_to_graph_after_nodes m m1 g1 mx allNodes (some (epre ++ ebad :: erest)) h1
    obtain ⟨g3, h5, h6⟩ := loadEdges_rejected ebad erest epre g1 ht.1
      (by rw [hnum]; exact hepre) (by rw [hnum]; exact hebad)
    refine ⟨m1, g3, ?_, ?_⟩
    · rw [h3]
      simp only [h5]
    · rw [h4]
      simp only [h6]
  · obtain ⟨m1, g1, mx, h1⟩ := loadNodes_valid m allNodes hall
    obtain ⟨_, _, h3⟩ := map_to_graph_after_nodes m m1 g1 mx allNodes (some []) h1
    obtain ⟨_, _, h4⟩ := map_to_graph_after_nodes m m1 g1 mx allNodes none h1
    refine ⟨m1, g1, ?_, ?_⟩
    · rw [h3]
      rfl
    · rw [h4]

theorem map_to_graph_table (m m1 : Map) (g1 : Graph) (nodeRecords : List NodeRecord)
    (edgeRecords : List EdgeRecord)
    (h : Map.map_to_graph m {} (some nodeRecords) (some edgeRecords) = .ok (true, m1, g1)) :
    g1.numNodes = maxNodeId nodeRecords + 1 ∧ (g1.nodes_list.length : Int) = g1.numNodes ∧
    ∀ i, 0 ≤ i → i < g1.numNodes →
      ∃ nd, vget g1.nodes_list i = .ok nd ∧ nd.id = i ∧ nd.name = lastName nodeRecords i := by
  obtain ⟨b, m2, g2, mx, hrun, _, _⟩ :=
    loadNodes_spec nodeRecords m {} (-1) tab_empty.1 (by rfl)
  cases b with
  | false =>
    unfold Map.map_to_graph at h
    simp [hrun] at h
  | true =>
    obtain ⟨ht, hnum, h3⟩ := map_to_graph_after_nodes m m2 g2 mx nodeRecords
      (some edgeRecords) hrun
    rw [h3] at h
    cases hle : Map.loadEdges g2 edgeRecords with
    | error f => simp [hle] at h
    | ok res =>
      obtain ⟨ok, g3⟩ := res
      simp only [hle] at h
      injection h with h
      injection h with hb h
      injection h with _ hg
      subst hg
      obtain ⟨a1, a2, a3⟩ := loadEdges_names edgeRecords g2 g3 ok hle
      have hsz := ht.1
      unfold Graph.SizeOk at hsz
      refine ⟨by rw [a1, hnum], by rw [a1, a2]; exact hsz.symm, ?_⟩
      intro i hi0 hi1
      obtain ⟨nd1, hnd1⟩ := vget_exists g3.nodes_list i hi0 (by rw [a2]; omega)
      obtain ⟨nd, b1, b2, b3⟩ := a3 i nd1 hnd1
      rw [ht.2 i hi0 (by omega)] at b1
      injection b1 with b1
      refine ⟨nd1, hnd1, ?_, ?_⟩
      · rw [b2, ← b1]
      · rw [b3, ← b1]

/-! ## Loader: a failed load into any graph -/

theorem foldl_max_ge : ∀ (recs : List NodeRecord) (mx : Int),
    mx ≤ recs.foldl (fun a r => max a r.1) mx := by
  intro recs
  induction recs with
  | nil => intro mx; exact le_refl mx
  | cons r rest ih =>
    intro mx
    rw [List.foldl_cons]
    exact le_trans (le_max_left mx r.1) (ih (max mx r.1))

theorem loadNodes_any : ∀ (recs : List NodeRecord) (m : Map) (g : Graph) (mx : Int),
    (∀ r ∈ recs, 0 ≤ r.1 ∧ r.2 ≠ "") → g.SizeOk →
    ∃ m1 g1, Map.loadNodes m g mx recs =
        .ok (true, m1, g1, recs.foldl (fun a r => max a r.1) mx) ∧
      g1.SizeOk ∧ addNodeRecords g recs = .ok g1 := by
  intro recs
  induction recs with
  | nil =>
    intro m g mx _ hs
    exact ⟨m, g, rfl, hs, rfl⟩
  | cons r rest ih =>
    intro m g mx hv hs
    obtain ⟨id, name⟩ := r
    have hr := hv (id, name) (by simp)
    simp only at hr
    have hok : ¬ (id < 0 ∨ name = "") := by
      intro h
      rcases h with h | h
      · omega
      · exact hr.2 h
    obtain ⟨g2, hadd, hs2, _⟩ := addNode_ok g id name hs hr.1
    have hmax : (if id > mx then id else mx) = max mx id := by
      split
      · exact (max_eq_right (by omega)).symm
      · exact (max_eq_left (by omega)).symm
    obtain ⟨m1, g1, h1, hs1, h2⟩ :=
      ih (if id = 0 then { m with university_name := name } else m) g2
        (if id > mx then id else mx) (fun r hr1 => hv r (List.mem_cons_of_mem _ hr1)) hs2
    refine ⟨m1, g1, ?_, hs1, ?_⟩
    · unfold Map.loadNodes
      simp only [hok, if_false, hadd, List.foldl_cons]
      rw [h1, hmax]
    · unfold addNodeRecords
      simp only [hadd]
      exact h2

theorem loadNodes_append_bad (bad : NodeRecord) (rest : List NodeRecord)
    (hbad : ¬ (0 ≤ bad.1 ∧ bad.2 ≠ "")) :
    ∀ (pre : List NodeRecord) (m m1 : Map) (g g1 : Graph) (mx mx1 : Int),
    Map.loadNodes m g mx pre = .ok (true, m1, g1, mx1) →
    Map.loadNodes m g mx (pre ++ bad :: rest) = .ok (false, m1, g1, mx1) := by
  intro pre
  induction pre with
  | nil =>
    intro m m1 g g1 mx mx1 h
    unfold Map.loadNodes at h
    injection h with h
    injection h with _ h
    injection h with hm h
    injection h with hg hx
    subst hm hg hx
    obtain ⟨id, name⟩ := bad
    have hb : id < 0 ∨ name = "" := by
      simp only at hbad
      by_cases h : id < 0
      · exact Or.inl h
      · right
        by_contra hn
        exact hbad ⟨by omega, hn⟩
    simp only [List.nil_append]
    unfold Map.loadNodes
    simp only [hb, if_true]
  | cons r pre ih =>
    intro m m1 g g1 mx mx1 h
    obtain ⟨id, name⟩ := r
    unfold Map.loadNodes at h
    simp only [List.cons_append]
    unfold Map.loadNodes
    by_cases hb : id < 0 ∨ name = ""
    · simp [hb] at h
    · simp only [if_neg hb] at h ⊢
      cases hadd : g.addNode id name with
      | error f => simp [hadd] at h
      | ok g2 =>
        simp only [hadd] at h ⊢
        exact ih _ m1 g2 g1 _ mx1 h

theorem map_to_graph_nodes_any (m : Map) (graph : Graph) (allNodes : List NodeRecord)
    (hs : graph.SizeOk) (hall : ∀ r ∈ allNodes, 0 ≤ r.1 ∧ r.2 ≠ "") :
    ∃ m1 g2, g2.SizeOk ∧ g2.numNodes = maxNodeId allNodes + 1 ∧
      ∀ edgesFile, Map.map_to_graph m graph (some allNodes) edgesFile =
        (match edgesFile with
         | none => .ok (false, m1, g2)
         | some edgeRecords =>
           match Map.loadEdges g2 edgeRecords with
           | .error f => .error f
           | .ok (ok, g3) => .ok (ok, m1, g3)) := by
  obtain ⟨m1, g1, hload, _, _⟩ := loadNodes_any allNodes m graph (-1) hall hs
  have hmx : allNodes.foldl (fun a r => max a r.1) (-1) = maxNodeId allNodes := rfl
  rw [hmx] at hload
  have hge : -1 ≤ maxNodeId allNodes := by
    rw [← hmx]
    exact foldl_max_ge allNodes (-1)
  obtain ⟨v1, hfix, hlen⟩ := fixIds_ok (maxNodeId allNodes + 1).toNat
    (vresize ({} : Node) g1.nodes_list (maxNodeId allNodes + 1).toNat) 0 (le_refl 0)
    (by rw [vresize_length]; omega)
  rw [vresize_length] at hlen
  refine ⟨m1, { nodes_list := v1, numNodes := maxNodeId allNodes + 1 }, ?_, rfl, ?_⟩
  · unfold Graph.SizeOk
    simp only
    omega
  · intro edgesFile
    unfold Map.map_to_graph
    simp only [hload, hfix]

theorem map_to_graph_failure_any (m : Map) (graph : Graph) (pre : List NodeRecord)
    (bad : NodeRecord) (rest : List NodeRecord) (edgesFile : Option (List EdgeRecord))
    (allNodes : List NodeRecord) (epre : List EdgeRecord) (ebad : EdgeRecord)
    (erest : List EdgeRecord) (hs : graph.SizeOk)
    (hpre : ∀ r ∈ pre, 0 ≤ r.1 ∧ r.2 ≠ "") (hbad : ¬ (0 ≤ bad.1 ∧ bad.2 ≠ ""))
    (hall : ∀ r ∈ allNodes, 0 ≤ r.1 ∧ r.2 ≠ "")
    (hepre : ∀ e ∈ epre, EdgeRecordValid (maxNodeId allNodes + 1) e)
    (hebad : ¬ EdgeRecordValid (maxNodeId allNodes + 1) ebad) :
    Map.map_to_graph m graph (some (bad :: rest)) edgesFile = .ok (false, m, graph) ∧
    (∃ m1 g1, addNodeRecords graph pre = .ok g1 ∧
      Map.map_to_graph m graph (some (pre ++ bad :: rest)) edgesFile = .ok (false, m1, g1)) ∧
    (∃ m1 g1, Map.map_to_graph m graph (some allNodes) (some epre) = .ok (true, m1, g1) ∧
      Map.map_to_graph m graph (some allNodes) (some (epre ++ ebad :: erest)) =
        .ok (false, m1, g1)) ∧
    (∃ m1 g1, Map.map_to_graph m graph (some allNodes) (some []) = .ok (true, m1, g1) ∧
      Map.map_to_graph m graph (some allNodes) none = .ok (false, m1, g1)) := by
  refine ⟨?_, ?_, ?_, ?_⟩
  · have h := loadNodes_append_bad bad rest hbad [] m m graph graph (-1) (-1) rfl
    simp only [List.nil_append] at h
    unfold Map.map_to_graph
    simp only [h]
  · obtain ⟨m1, g1, h1, _, h2⟩ := loadNodes_any pre m graph (-1) hpre hs
    have h3 := loadNodes_append_bad bad rest hbad pre m m1 graph g1 (-1) _ h1
    refine ⟨m1, g1, h2, ?_⟩
    unfold Map.map_to_graph
    simp only [h3]
  · obtain ⟨m1, g2, hs2, hn2, heq⟩ := map_to_graph_nodes_any m graph allNodes hs hall
    obtain ⟨g3, h5, h6⟩ := loadEdges_rejected ebad erest epre g2 hs2
      (by rw [hn2]; exact hepre) (by rw [hn2]; exact hebad)
    refine ⟨m1, g3, ?_, ?_⟩
    · rw [heq]
      simp only [h5]
    · rw [heq]
      simp only [h6]
  · obtain ⟨m1, g2, _, _, heq⟩ := map_to_graph_nodes_any m graph allNodes hs hall
    refine ⟨m1, g2, ?_, ?_⟩
    · rw [heq]
      rfl
    · rw [heq]

/-! ## Reading the nodes file -/

theorem readDigits_shorter (neg : Bool) (s r : List Char) (v : Int)
    (h : readDigits neg s = some (v, r)) : r.length < s.length := by
  unfold readDigits at h
  by_cases hds : s.takeWhile isDigit = []
  · simp [hds] at h
  · simp only [hds, if_false] at h
    rw [Option.ite_none_left_eq_some] at h
    obtain ⟨_, h⟩ := h
    injection h with h
    injection h with _ h
    rw [← h]
    have hsplit := List.takeWhile_append_dropWhile isDigit s
    have hlen : (s.takeWhile isDigit).length + (s.dropWhile isDigit).length = s.length := by
      rw [← List.length_append, hsplit]
    have hpos : 0 < (s.takeWhile isDigit).length := List.length_pos.mpr hds
    omega

theorem length_dropWhile_le {α : Type} (p : α → Bool) (s : List α) :
    (s.dropWhile p).length ≤ s.length := by
  have hsplit := List.takeWhile_append_dropWhile p s
  have hlen : (s.takeWhile p).length + (s.dropWhile p).length = s.length := by
    rw [← List.length_append, hsplit]
  omega

theorem readInt_shorter (s r : List Char) (v : Int) (h : readInt s = some (v, r)) :
    r.length < s.length := by
  unfold readInt at h
  have hle := length_dropWhile_le isSpace s
  cases hd : s.dropWhile isSpace with
  | nil => simp [hd] at h
  | cons c rest =>
    rw [hd] at hle
    simp only [List.length_cons] at hle
    simp only [hd] at h
    split at h
    · have := readDigits_shorter _ _ _ _ h
      omega
    · split at h
      · have := readDigits_shorter _ _ _ _ h
        omega
      · have := readDigits_shorter _ _ _ _ h
        simp only [List.length_cons] at this
        omega

theorem readWord_shorter (s r : List Char) (w : String) (h : readWord s = some (w, r)) :
    r.length ≤ s.length := by
  unfold readWord at h
  simp only at h
  split at h
  · simp at h
  · injection h with h
    injection h with _ h
    rw [← h]
    exact le_trans (length_dropWhile_le _ _) (length_dropWhile_le _ _)

theorem readNodeRecords_fuel : ∀ (fuel1 fuel2 : Nat) (s : List Char),
    s.length ≤ fuel1 → s.length ≤ fuel2 →
    readNodeRecords fuel1 s = readNodeRecords fuel2 s := by
  intro fuel1
  induction fuel1 with
  | zero =>
    intro fuel2 s h1 _
    have hs : s = [] := List.length_eq_zero.mp (by omega)
    subst hs
    cases fuel2 with
    | zero => rfl
    | succ k => simp [readNodeRecords, readInt]
  | succ k ih =>
    intro fuel2 s h1 h2
    cases fuel2 with
    | zero =>
      have hs : s = [] := List.length_eq_zero.mp (by omega)
      subst hs
      simp [readNodeRecords, readInt]
    | succ k2 =>
      unfold readNodeRecords
      cases hi : readInt s with
      | none => rfl
      | some res =>
        obtain ⟨id, s1⟩ := res
        simp only
        cases hw : readWord s1 with
        | none => rfl
        | some res2 =>
          obtain ⟨name, s2⟩ := res2
          simp only
          have a1 := readInt_shorter _ _ _ hi
          have a2 := readWord_shorter _ _ _ hw
          rw [ih k2 s2 (by omega) (by omega)]

theorem readNodesFile_fuel (text : List Char) (fuel : Nat) (h : text.length ≤ fuel) :
    readNodeRecords fuel text = readNodesFile text :=
  readNodeRecords_fuel fuel text.length text h (le_refl _)

/-! ## Loader and persistence: claims -/

/-- C11 as stated fails: a load that rejects the second node record returns `false` and
leaves the first node in the graph, and a load that rejects the second edge record
leaves both nodes and the first edge in it; neither graph is the empty graph the call
was given. -/
theorem failed_load_keeps_partial_graph :
    Map.map_to_graph (Map.create "nodes.txt" "edges.txt") {}
        (some [(0, "Campus"), (-1, "Home")]) (some []) =
      .ok (false, { nodes_filename := "nodes.txt", edges_filename := "edges.txt",
                    university_name := "Campus" },
           { nodes_list := [{ id := 0, name := "Campus" }], numNodes := 1 }) ∧
    Map.map_to_graph (Map.create "nodes.txt" "edges.txt") {}
        (some [(0, "Campus"), (1, "Home")]) (some [(0, 1, 5), (0, 2, 1)]) =
      .ok (false, { nodes_filename := "nodes.txt", edges_filename := "edges.txt",
                    university_name := "Campus" }, scenarioGraph) ∧
    ({ nodes_list := [{ id := 0, name := "Campus" }], numNodes := 1 } : Graph) ≠ {} ∧
    scenarioGraph ≠ {} := by
  decide!

/-- C11 amended: a failed `map_to_graph` returns `false` and rolls nothing back; the
graph keeps every change made before the failure. For every graph it is given (with
`numNodes` equal to the table length): with a nodes file that cannot be opened, or
whose first record is rejected, the graph is unchanged; after a rejected node record it
is the given graph with `addNode(id, name)` applied, in order, for each record before
the rejected one; after a rejected edge record it is the graph that loading all the
node records and only the edge records before it into the same given graph produces;
with an edges file that cannot be opened it is the graph that loading all the node
records and no edge record produces. For an empty graph, the graph after a rejected
node record is also the one that loading only the node records before it, with no edge
record, produces. -/
theorem failed_load_keeps_changes (m : Map) (graph : Graph) (pre : List NodeRecord)
    (bad : NodeRecord) (rest : List NodeRecord) (edgesFile : Option (List EdgeRecord))
    (allNodes : List NodeRecord) (epre : List EdgeRecord) (ebad : EdgeRecord)
    (erest : List EdgeRecord) (hs : graph.SizeOk)
    (hpre : ∀ r ∈ pre, 0 ≤ r.1 ∧ r.2 ≠ "") (hbad : ¬ (0 ≤ bad.1 ∧ bad.2 ≠ ""))
    (hall : ∀ r ∈ allNodes, 0 ≤ r.1 ∧ r.2 ≠ "")
    (hepre : ∀ e ∈ epre, EdgeRecordValid (maxNodeId allNodes + 1) e)
    (hebad : ¬ EdgeRecordValid (maxNodeId allNodes + 1) ebad) :
    Map.map_to_graph m graph none edgesFile = .ok (false, m, graph) ∧
    Map.map_to_graph m graph (some (bad :: rest)) edgesFile = .ok (false, m, graph) ∧
    (∃ m1 g1, addNodeRecords graph pre = .ok g1 ∧
      Map.map_to_graph m graph (some (pre ++ bad :: rest)) edgesFile = .ok (false, m1, g1)) ∧
    (∃ m1 g1, Map.map_to_graph m graph (some allNodes) (some epre) = .ok (true, m1, g1) ∧
      Map.map_to_graph m graph (some allNodes) (some (epre ++ ebad :: erest)) =
        .ok (false, m1, g1)) ∧
    (∃ m1 g1, Map.map_to_graph m graph (some allNodes) (some []) = .ok (true, m1, g1) ∧
      Map.map_to_graph m graph (some allNodes) none = .ok (false, m1, g1)) ∧
    (∃ m1 g1, Map.map_to_graph m {} (some pre) (some []) = .ok (true, m1, g1) ∧
      Map.map_to_graph m {} (some (pre ++ bad :: rest)) edgesFile = .ok (false, m1, g1)) := by
  obtain ⟨h1, h2, h3, h4⟩ := map_to_graph_failure_any m graph pre bad rest edgesFile allNodes
    epre ebad erest hs hpre hbad hall hepre hebad
  obtain ⟨_, h5, _⟩ := map_to_graph_failure m graph pre bad rest edgesFile allNodes epre
    ebad erest hpre hbad hall hepre hebad
  exact ⟨rfl, h1, h2, h3, h4, h5⟩

theorem failed_load_keeps_changes_witness :
    Map.map_to_graph (Map.create "nodes.txt" "edges.txt") (Graph.mk_n 3) none (some []) =
      .ok (false, Map.create "nodes.txt" "edges.txt", Graph.mk_n 3) ∧
    Map.map_to_graph (Map.create "nodes.txt" "edges.txt") (Graph.mk_n 3)
        (some ((-1, "Home") :: [])) (some []) =
      .ok (false, Map.create "nodes.txt" "edges.txt", Graph.mk_n 3) ∧
    (∃ m1 g1, addNodeRecords (Graph.mk_n 3) [(0, "Campus")] = .ok g1 ∧
      Map.map_to_graph (Map.create "nodes.txt" "edges.txt") (Graph.mk_n 3)
        (some ([(0, "Campus")] ++ (-1, "Home") :: [])) (some []) = .ok (false, m1, g1)) ∧
    (∃ m1 g1, Map.map_to_graph (Map.create "nodes.txt" "edges.txt") (Graph.mk_n 3)
        (some [(0, "Campus"), (1, "Home")]) (some [(0, 1, 5)]) = .ok (true, m1, g1) ∧
      Map.map_to_graph (Map.create "nodes.txt" "edges.txt") (Graph.mk_n 3)
        (some [(0, "Campus"), (1, "Home")]) (some ([(0, 1, 5)] ++ (0, 2, 1) :: [])) =
        .ok (false, m1, g1)) ∧
    (∃ m1 g1, Map.map_to_graph (Map.create "nodes.txt" "edges.txt") (Graph.mk_n 3)
        (some [(0, "Campus"), (1, "Home")]) (some []) = .ok (true, m1, g1) ∧
      Map.map_to_graph (Map.create "nodes.txt" "edges.txt") (Graph.mk_n 3)
        (some [(0, "Campus"), (1, "Home")]) none = .ok (false, m1, g1)) ∧
    (∃ m1 g1, Map.map_to_graph (Map.create "nodes.txt" "edges.txt") {}
        (some [(0, "Campus")]) (some []) = .ok (true, m1, g1) ∧
      Map.map_to_graph (Map.create "nodes.txt" "edges.txt") {}
        (some ([(0, "Campus")] ++ (-1, "Home") :: [])) (some []) = .ok (false, m1, g1)) :=
  failed_load_keeps_changes (Map.create "nodes.txt" "edges.txt") (Graph.mk_n 3)
    [(0, "Campus")] (-1, "Home") [] (some []) [(0, "Campus"), (1, "Home")] [(0, 1, 5)]
    (0, 2, 1) [] (by unfold Graph.SizeOk; decide) (by decide) (by decide) (by decide)
    (by unfold EdgeRecordValid maxNodeId; decide!)
    (by unfold EdgeRecordValid maxNodeId; decide!)

/-- C12: after a successful `map_to_graph` into an empty graph, `numNodes` is
`maxId + 1` for the largest id `maxId` among the node records (`0` nodes without
records), the table has that length, and every slot `i` in `[0, numNodes)` holds a node
with id `i` whose name is the name of the last node record with id `i`, or the empty
string if no record has id `i`. -/
theorem map_to_graph_node_table (m m1 : Map) (g1 : Graph) (nodeRecords : List NodeRecord)
    (edgeRecords : List EdgeRecord)
    (h : Map.map_to_graph m {} (some nodeRecords) (some edgeRecords) = .ok (true, m1, g1)) :
    g1.numNodes = maxNodeId nodeRecords + 1 ∧ (g1.nodes_list.length : Int) = g1.numNodes ∧
    ∀ i, 0 ≤ i → i < g1.numNodes →
      ∃ nd, vget g1.nodes_list i = .ok nd ∧ nd.id = i ∧ nd.name = lastName nodeRecords i :=
  map_to_graph_table m m1 g1 nodeRecords edgeRecords h

theorem map_to_graph_node_table_witness :
    scenarioGraph.numNodes = maxNodeId [(0, "Campus"), (1, "Home")] + 1 ∧
    (scenarioGraph.nodes_list.length : Int) = scenarioGraph.numNodes ∧
    ∀ i, 0 ≤ i → i < scenarioGraph.numNodes →
      ∃ nd, vget scenarioGraph.nodes_list i = .ok nd ∧ nd.id = i ∧
        nd.name = lastName [(0, "Campus"), (1, "Home")] i :=
  map_to_graph_node_table (Map.create "nodes.txt" "edges.txt")
    { nodes_filename := "nodes.txt", edges_filename := "edges.txt",
      university_name := "Campus" }
    scenarioGraph [(0, "Campus"), (1, "Home")] [(0, 1, 5)] (by decide!)

/-- C13 fails on the code: the nodes file `0 Campus`, `1 Home` with the edge `0 1 5.0`
loads; adding the location `Central Station` is accepted with id `2` and appends the
line `2 Central Station`; loading the two files again succeeds, but node `2` of the
reloaded graph is named `Central` and no node is named `Central Station`. -/
theorem round_trip_loses_spaced_name :
    Map.map_to_graph (Map.create "nodes.txt" "edges.txt") {}
        (some (readNodesFile "0 Campus\n1 Home".data)) (some [(0, 1, 5)]) =
      .ok (true, { nodes_filename := "nodes.txt", edges_filename := "edges.txt",
                   university_name := "Campus" }, scenarioGraph) ∧
    handleAddData_location scenarioGraph (some "0 Campus\n1 Home".data) "Central Station" =
      .ok (.locationAdded 2,
           { nodes_list := scenarioGraph.nodes_list ++ [{ id := 2, name := "Central Station" }],
             numNodes := 3 },
           some "0 Campus\n1 Home\n2 Central Station".data) ∧
    readNodesFile "0 Campus\n1 Home\n2 Central Station".data =
      [(0, "Campus"), (1, "Home"), (2, "Central")] ∧
    Map.map_to_graph (Map.create "nodes.txt" "edges.txt") {}
        (some (readNodesFile "0 Campus\n1 Home\n2 Central Station".data))
        (some [(0, 1, 5)]) =
      .ok (true, { nodes_filename := "nodes.txt", edges_filename := "edges.txt",
                   university_name := "Campus" },
           { nodes_list := scenarioGraph.nodes_list ++ [{ id := 2, name := "Central" }],
             numNodes := 3 }) ∧
    Graph.getNodeIndexByname
        { nodes_list := scenarioGraph.nodes_list ++ [{ id := 2, name := "Central" }],
          numNodes := 3 } "Central Station" = .ok (-1) := by
  decide!

/-! ## Searches: queries with `start == end`, faults and fuel -/

theorem Dijkstra_same (g : Graph) (fuel : Nat) (s : Int) (h0 : 0 ≤ s) (h1 : s < g.numNodes) :
    g.Dijkstra fuel s s = .ok { path_exists := true, node_ids_in_path := [s], num_stops := 0,
                                total_weight := Dbl.zero } := by
  unfold Graph.Dijkstra
  have hg : ¬ (s ≥ g.numNodes ∨ s ≥ g.numNodes ∨ s < 0 ∨ s < 0) := by omega
  simp only [if_neg hg, if_true]

theorem BFS_same (g : Graph) (fuel : Nat) (s : Int) (h0 : 0 ≤ s) (h1 : s < g.numNodes) :
    g.BFS fuel s s = .ok { path_exists := true, node_ids_in_path := [s], num_stops := 0,
                           total_weight := Dbl.zero } := by
  unfold Graph.BFS
  have hg : ¬ (s ≥ g.numNodes ∨ s ≥ g.numNodes ∨ s < 0 ∨ s < 0) := by omega
  simp only [if_neg hg, if_true]

theorem dijkstraLoop_fault_succ (g : Graph) : ∀ (fuel : Nat) (st : DState),
    dijkstraLoop g fuel st = .error .outOfBounds →
    dijkstraLoop g (fuel + 1) st = .error .outOfBounds := by
  intro fuel
  induction fuel with
  | zero =>
    intro st h
    unfold dijkstraLoop at h
    cases htop : pqTop st.pq with
    | none => rw [htop] at h; simp at h
    | some top => rw [htop] at h; simp at h
  | succ k ih =>
    intro st h
    unfold dijkstraLoop at h ⊢
    cases htop : pqTop st.pq with
    | none => rw [htop] at h; simp at h
    | some top =>
      rw [htop] at h
      simp only at h ⊢
      cases hstep : dijkstraStep g st top with
      | error f => rw [hstep] at h; simp only at h ⊢; exact h
      | ok st1 => rw [hstep] at h; simp only at h ⊢; exact ih st1 h

theorem walkBack_fault_succ (previous : List Int) : ∀ (fuel : Nat) (c : Int) (acc : List Int),
    walkBack previous fuel c acc = .error .outOfBounds →
    walkBack previous (fuel + 1) c acc = .error .outOfBounds := by
  intro fuel
  induction fuel with
  | zero =>
    intro c acc h
    unfold walkBack at h
    by_cases hc : c = -1
    · simp [hc] at h
    · simp [hc] at h
  | succ k ih =>
    intro c acc h
    unfold walkBack at h ⊢
    by_cases hc : c = -1
    · simp [hc] at h
    · simp only [if_neg hc] at h ⊢
      cases hp : vget previous c with
      | error f => rw [hp] at h; simp only at h ⊢; exact h
      | ok p => rw [hp] at h; simp only at h ⊢; exact ih p _ h

theorem bfsLoop_fault_succ (g : Graph) (t : Int) : ∀ (fuel : Nat) (st : BState),
    bfsLoop g t fuel st = .error .outOfBounds →
    bfsLoop g t (fuel + 1) st = .error .outOfBounds := by
  intro fuel
  induction fuel with
  | zero =>
    intro st h
    unfold bfsLoop at h
    cases hq : st.q with
    | nil => rw [hq] at h; simp at h
    | cons u rest => rw [hq] at h; simp at h
  | succ k ih =>
    intro st h
    unfold bfsLoop at h ⊢
    cases hq : st.q with
    | nil => rw [hq] at h; simp at h
    | cons u rest =>
      rw [hq] at h
      simp only at h ⊢
      by_cases hu : u = t
      · simp [hu] at h
      · simp only [if_neg hu] at h ⊢
        cases hnd : vget g.nodes_list u with
        | error f => rw [hnd] at h; simp only at h ⊢; exact h
        | ok nd =>
          rw [hnd] at h
          simp only at h ⊢
          cases hex : exploreEdges u { st with q := rest } nd.edges with
          | error f => rw [hex] at h; simp only at h ⊢; exact h
          | ok st1 => rw [hex] at h; simp only at h ⊢; exact ih st1 h

theorem dijkstraLoop_fault_le (g : Graph) (fuel fuel1 : Nat) (st : DState)
    (h : dijkstraLoop g fuel st = .error .outOfBounds) (hle : fuel ≤ fuel1) :
    dijkstraLoop g fuel1 st = .error .outOfBounds := by
  induction hle with
  | refl => exact h
  | step _ ih => exact dijkstraLoop_fault_succ g _ st ih

theorem walkBack_fault_le (previous : List Int) (fuel fuel1 : Nat) (c : Int) (acc : List Int)
    (h : walkBack previous fuel c acc = .error .outOfBounds) (hle : fuel ≤ fuel1) :
    walkBack previous fuel1 c acc = .error .outOfBounds := by
  induction hle with
  | refl => exact h
  | step _ ih => exact walkBack_fault_succ previous _ c acc ih

theorem bfsLoop_fault_le (g : Graph) (t : Int) (fuel fuel1 : Nat) (st : BState)
    (h : bfsLoop g t fuel st = .error .outOfBounds) (hle : fuel ≤ fuel1) :
    bfsLoop g t fuel1 st = .error .outOfBounds := by
  induction hle with
  | refl => exact h
  | step _ ih => exact bfsLoop_fault_succ g t _ st ih

/-- An out-of-bounds access of `Dijkstra` does not depend on the fuel: more fuel meets
the same access. -/
theorem Dijkstra_fault_le (g : Graph) (fuel fuel1 : Nat) (s e : Int)
    (h : g.Dijkstra fuel s e = .error .outOfBounds) (hle : fuel ≤ fuel1) :
    g.Dijkstra fuel1 s e = .error .outOfBounds := by
  unfold Graph.Dijkstra at h ⊢
  by_cases hb : s ≥ g.numNodes ∨ e ≥ g.numNodes ∨ s < 0 ∨ e < 0
  · simp [hb] at h
  · simp only [hb, if_false] at h ⊢
    by_cases hse : s = e
    · simp [hse] at h
    · simp only [hse, if_false] at h ⊢
      cases hd : vset (List.replicate g.numNodes.toNat Dbl.DOUBLE_INF) s Dbl.zero with
      | error f => simpa [hd] using h
      | ok distances =>
        simp only [hd] at h ⊢
        cases hl : dijkstraLoop g fuel
            { distances := distances, previous := List.replicate g.numNodes.toNat (-1),
              visited := List.replicate g.numNodes.toNat false, pq := [(Dbl.zero, s)] } with
        | error f =>
          simp only [hl] at h
          injection h with hf
          subst hf
          simp only [dijkstraLoop_fault_le g fuel fuel1 _ hl hle]
        | ok st =>
          simp only [hl] at h
          simp only [dijkstraLoop_fuel_le g fuel fuel1 _ st hl hle]
          cases hg : vget st.distances e with
          | error f => simpa [hg] using h
          | ok dEnd =>
            simp only [hg] at h ⊢
            by_cases hne : dEnd.ne Dbl.DOUBLE_INF = true
            · simp only [hne, if_true] at h ⊢
              cases hw : walkBack st.previous fuel e [] with
              | error f =>
                simp only [hw] at h
                injection h with hf
                subst hf
                simp only [walkBack_fault_le st.previous fuel fuel1 e [] hw hle]
              | ok path => simp [hw] at h
            · simp [hne] at h

/-- An out-of-bounds access of `BFS` does not depend on the fuel. -/
theorem BFS_fault_le (g : Graph) (fuel fuel1 : Nat) (s e : Int)
    (h : g.BFS fuel s e = .error .outOfBounds) (hle : fuel ≤ fuel1) :
    g.BFS fuel1 s e = .error .outOfBounds := by
  unfold Graph.BFS at h ⊢
  by_cases hb : s ≥ g.numNodes ∨ e ≥ g.numNodes ∨ s < 0 ∨ e < 0
  · simp [hb] at h
  · simp only [hb, if_false] at h ⊢
    by_cases hse : s = e
    · simp [hse] at h
    · simp only [hse, if_false] at h ⊢
      cases hd : vset (List.replicate g.numNodes.toNat false) s true with
      | error f => simpa [hd] using h
      | ok visited =>
        simp only [hd] at h ⊢
        cases hl : bfsLoop g e fuel
            { q := [s], visited := visited, prev := List.replicate g.numNodes.toNat (-1) } with
        | error f =>
          simp only [hl] at h
          injection h with hf
          subst hf
          simp only [bfsLoop_fault_le g e fuel fuel1 _ hl hle]
        | ok res =>
          obtain ⟨found, st⟩ := res
          simp only [hl] at h
          simp only [bfsLoop_fuel_le g e fuel fuel1 _ (found, st) hl hle]
          cases found with
          | false => simp at h
          | true =>
            simp only [if_true] at h ⊢
            cases hw : walkBack st.prev fuel e [] with
            | error f =>
              simp only [hw] at h
              injection h with hf
              subst hf
              simp only [walkBack_fault_le st.prev fuel fuel1 e [] hw hle]
            | ok path => simp [hw] at h

/-- A run that returns a value for every large fuel never meets a fault that more fuel
would meet again. -/
theorem returns_no_fault {α : Type} (run : Nat → Except Fault α) (r : α)
    (hret : Returns run r)
    (hmono : ∀ a b, run a = .error .outOfBounds → a ≤ b → run b = .error .outOfBounds) :
    ∀ fuel, run fuel ≠ .error .outOfBounds := by
  intro fuel h
  obtain ⟨fuel0, h0⟩ := hret
  have h1 := hmono fuel (max fuel fuel0) h (le_max_left _ _)
  rw [h0 _ (le_max_right _ _)] at h1
  cases h1

/-! ## Overwriting a node, and the searches on every valid query -/

/-- C25: on a graph whose table invariant holds, for every existing id in
`[0, numNodes)`, `addNode(id, name)` returns a graph with the same `numNodes` and table
length whose slot `id` holds the fresh node `{id, name}` with an empty adjacency list,
and every other slot, with its adjacency entries (also those that point to `id`), is
as before. -/
theorem addNode_existing_resets (g : Graph) (id : Int) (name : String) (hs : g.SizeOk)
    (h0 : 0 ≤ id) (h1 : id < g.numNodes) :
    ∃ g1, g.addNode id name = .ok g1 ∧ g1.numNodes = g.numNodes ∧
      g1.nodes_list.length = g.nodes_list.length ∧
      vget g1.nodes_list id = .ok { id := id, name := name, edges := [] } ∧
      ∀ j, j ≠ id → vget g1.nodes_list j = vget g.nodes_list j := by
  unfold Graph.SizeOk at hs
  obtain ⟨w, hw⟩ := vset_exists g.nodes_list id ({ id := id, name := name } : Node) h0
    (by omega)
  refine ⟨{ g with nodes_list := w }, ?_, rfl, vset_length _ _ _ _ hw,
    vget_vset_same _ _ _ _ hw, fun j hj => vget_vset_ne _ _ _ _ _ hw hj⟩
  unfold Graph.addNode
  have hlt : ¬ id ≥ g.numNodes := by omega
  simp only [if_neg hlt, hw]

theorem addNode_existing_resets_witness :
    ∃ g1, scenarioGraph.addNode 1 "Office" = .ok g1 ∧ g1.numNodes = scenarioGraph.numNodes ∧
      g1.nodes_list.length = scenarioGraph.nodes_list.length ∧
      vget g1.nodes_list 1 = .ok { id := 1, name := "Office", edges := [] } ∧
      ∀ j, j ≠ 1 → vget g1.nodes_list j = vget scenarioGraph.nodes_list j :=
  addNode_existing_resets scenarioGraph 1 "Office" (by unfold Graph.SizeOk; decide)
    (by decide) (by decide)

/-- C26: on a graph whose table invariant holds and whose adjacency entries are in
range, with arbitrary weights (zero, negative, NaN), self-loops and parallel edges, for
every valid `(start, end)`, `Dijkstra` terminates: the queue loop and the predecessor
walk both end, and every large enough fuel gives the same returned value. -/
theorem Dijkstra_terminates (g : Graph) (s t : Int) (hs : g.SizeOk) (hr : g.InRange)
    (hs0 : 0 ≤ s) (hs1 : s < g.numNodes) (ht0 : 0 ≤ t) (ht1 : t < g.numNodes) :
    ∃ r, Returns (fun fuel => g.Dijkstra fuel s t) r := by
  by_cases hst : s = t
  · subst hst
    exact ⟨_, 0, fun fuel _ => Dijkstra_same g fuel s hs0 hs1⟩
  · obtain ⟨r, hret, _⟩ := Dijkstra_spec g s t hs hr hs0 hs1 ht0 ht1 hst
    exact ⟨r, hret⟩

theorem Dijkstra_terminates_witness :
    ∃ r, Returns (fun fuel => scenarioGraphReweighted.Dijkstra fuel 1 0) r :=
  Dijkstra_terminates scenarioGraphReweighted 1 0 (by unfold Graph.SizeOk; decide)
    (by unfold Graph.InRange; decide) (by decide) (by decide) (by decide) (by decide)

/-- C27: on a graph whose `numNodes` is the table length and whose adjacency entries
are in range, for every `start` and `end` in `[0, numNodes)`, `Dijkstra` and `BFS`
return, and at no point of their run (whatever the fuel, so also in the predecessor
walk) do they index a vector out of bounds. -/
theorem searches_stay_in_bounds (g : Graph) (s t : Int) (hs : g.SizeOk) (hr : g.InRange)
    (hs0 : 0 ≤ s) (hs1 : s < g.numNodes) (ht0 : 0 ≤ t) (ht1 : t < g.numNodes) :
    ((∃ r, Returns (fun fuel => g.Dijkstra fuel s t) r) ∧
      ∀ fuel, g.Dijkstra fuel s t ≠ .error .outOfBounds) ∧
    ((∃ r, Returns (fun fuel => g.BFS fuel s t) r) ∧
      ∀ fuel, g.BFS fuel s t ≠ .error .outOfBounds) := by
  have hd : ∃ r, Returns (fun fuel => g.Dijkstra fuel s t) r := by
    by_cases hst : s = t
    · subst hst
      exact ⟨_, 0, fun fuel _ => Dijkstra_same g fuel s hs0 hs1⟩
    · obtain ⟨r, hret, _⟩ := Dijkstra_spec g s t hs hr hs0 hs1 ht0 ht1 hst
      exact ⟨r, hret⟩
  have hb : ∃ r, Returns (fun fuel => g.BFS fuel s t) r := by
    by_cases hst : s = t
    · subst hst
      exact ⟨_, 0, fun fuel _ => BFS_same g fuel s hs0 hs1⟩
    · obtain ⟨r, hret, _⟩ := BFS_spec g s t hs hr hs0 hs1 ht0 ht1 hst
      exact ⟨r, hret⟩
  refine ⟨⟨hd, ?_⟩, ⟨hb, ?_⟩⟩
  · obtain ⟨r, hret⟩ := hd
    exact returns_no_fault _ r hret (fun a b h hle => Dijkstra_fault_le g a b s t h hle)
  · obtain ⟨r, hret⟩ := hb
    exact returns_no_fault _ r hret (fun a b h hle => BFS_fault_le g a b s t h hle)

theorem searches_stay_in_bounds_witness :
    ((∃ r, Returns (fun fuel => scenarioGraph.Dijkstra fuel 1 0) r) ∧
      ∀ fuel, scenarioGraph.Dijkstra fuel 1 0 ≠ .error .outOfBounds) ∧
    ((∃ r, Returns (fun fuel => scenarioGraph.BFS fuel 1 0) r) ∧
      ∀ fuel, scenarioGraph.BFS fuel 1 0 ≠ .error .outOfBounds) :=
  searches_stay_in_bounds scenarioGraph 1 0 (by unfold Graph.SizeOk; decide)
    (by unfold Graph.InRange; decide) (by decide) (by decide) (by decide) (by decide)

/-- C29: on a graph whose table invariant holds and whose adjacency entries are in
range, with arbitrary weights, for every valid `(start, end)`, `Dijkstra` and `BFS`
return, and whenever the returned `path_exists` is true no node id occurs twice in
`node_ids_in_path`. -/
theorem returned_path_is_simple (g : Graph) (s t : Int) (hs : g.SizeOk) (hr : g.InRange)
    (hs0 : 0 ≤ s) (hs1 : s < g.numNodes) (ht0 : 0 ≤ t) (ht1 : t < g.numNodes) :
    (∃ r, Returns (fun fuel => g.Dijkstra fuel s t) r ∧
      (r.path_exists = true → r.node_ids_in_path.Nodup)) ∧
    (∃ r, Returns (fun fuel => g.BFS fuel s t) r ∧
      (r.path_exists = true → r.node_ids_in_path.Nodup)) := by
  by_cases hst : s = t
  · subst hst
    exact ⟨⟨_, ⟨0, fun fuel _ => Dijkstra_same g fuel s hs0 hs1⟩, fun _ => List.nodup_singleton s⟩,
      ⟨_, ⟨0, fun fuel _ => BFS_same g fuel s hs0 hs1⟩, fun _ => List.nodup_singleton s⟩⟩
  · obtain ⟨r, hret, hcase⟩ := Dijkstra_spec g s t hs hr hs0 hs1 ht0 ht1 hst
    obtain ⟨rb, hretb, _, hcaseb⟩ := BFS_spec g s t hs hr hs0 hs1 ht0 ht1 hst
    refine ⟨⟨r, hret, ?_⟩, ⟨rb, hretb, ?_⟩⟩
    · intro hex
      rcases hcase with ⟨_, _, hnd, _⟩ | ⟨hr0, _⟩
      · exact hnd
      · rw [hr0] at hex
        simp at hex
    · intro hex
      rcases hcaseb with ⟨_, _, hnd, _⟩ | ⟨hr0, _⟩
      · exact hnd
      · rw [hr0] at hex
        simp at hex

theorem returned_path_is_simple_witness :
    (∃ r, Returns (fun fuel => scenarioGraphReweighted.Dijkstra fuel 0 1) r ∧
      (r.path_exists = true → r.node_ids_in_path.Nodup)) ∧
    (∃ r, Returns (fun fuel => scenarioGraphReweighted.BFS fuel 0 1) r ∧
      (r.path_exists = true → r.node_ids_in_path.Nodup)) :=
  returned_path_is_simple scenarioGraphReweighted 0 1 (by unfold Graph.SizeOk; decide)
    (by unfold Graph.InRange; decide) (by decide) (by decide) (by decide) (by decide)

/-! ## The cached destination name -/

theorem loadNodes_university : ∀ (recs : List NodeRecord) (m m1 : Map) (g g1 : Graph)
    (mx mx1 : Int), Map.loadNodes m g mx recs = .ok (true, m1, g1, mx1) →
    m1.university_name =
      recs.foldl (fun acc r => if r.1 = 0 then r.2 else acc) m.university_name := by
  intro recs
  induction recs with
  | nil =>
    intro m m1 g g1 mx mx1 h
    unfold Map.loadNodes at h
    injection h with h
    injection h with _ h
    injection h with h _
    rw [← h]
    rfl
  | cons r rest ih =>
    intro m m1 g g1 mx mx1 h
    obtain ⟨id, name⟩ := r
    unfold Map.loadNodes at h
    by_cases hbad : id < 0 ∨ name = ""
    · simp [hbad] at h
    · simp only [if_neg hbad] at h
      cases hadd : g.addNode id name with
      | error f => simp [hadd] at h
      | ok g2 =>
        simp only [hadd] at h
        have := ih _ m1 g2 g1 _ mx1 h
        rw [this, List.foldl_cons]
        by_cases h0 : id = 0
        · simp [h0]
        · simp [h0]

theorem map_to_graph_university (m m1 : Map) (g1 : Graph) (nodeRecords : List NodeRecord)
    (edgeRecords : List EdgeRecord)
    (h : Map.map_to_graph m {} (some nodeRecords) (some edgeRecords) = .ok (true, m1, g1)) :
    m1.university_name =
      nodeRecords.foldl (fun acc r => if r.1 = 0 then r.2 else acc) m.university_name := by
  obtain ⟨b, m2, g2, mx, hload, _, _⟩ :=
    loadNodes_spec nodeRecords m {} (-1) (by unfold Graph.SizeOk; rfl) (by rfl)
  cases b with
  | false =>
    unfold Map.map_to_graph at h
    simp [hload] at h
  | true =>
    obtain ⟨_, _, heq⟩ := map_to_graph_after_nodes m m2 g2 mx nodeRecords (some edgeRecords) hload
    rw [heq] at h
    simp only at h
    cases hedges : Map.loadEdges g2 edgeRecords with
    | error f => simp [hedges] at h
    | ok res =>
      obtain ⟨ok, g3⟩ := res
      simp only [hedges] at h
      injection h with h
      injection h with _ h
      injection h with h _
      rw [← h]
      exact loadNodes_university nodeRecords m m2 {} g2 (-1) mx hload

/-! ## The hop search does not read weights -/

theorem vget_map {α β : Type} (f : α → β) (v : List α) (i : Int) :
    vget (v.map f) i = match vget v i with
      | .ok a => .ok (f a)
      | .error e => .error e := by
  unfold vget
  by_cases h0 : 0 ≤ i
  · simp only [if_pos h0, List.getElem?_map]
    cases v[i.toNat]? with
    | none => rfl
    | some a => rfl
  · simp only [if_neg h0]

theorem exploreEdges_map_weight (u : Int) (f : Edge → Edge)
    (hf : ∀ e, (f e).destination_node_id = e.destination_node_id) :
    ∀ (es : List Edge) (st : BState), exploreEdges u st (es.map f) = exploreEdges u st es := by
  intro es
  induction es with
  | nil => intro st; rfl
  | cons e rest ih =>
    intro st
    rw [List.map_cons]
    unfold exploreEdges
    have he : exploreEdge u st (f e) = exploreEdge u st e := by
      unfold exploreEdge
      simp only [hf]
    rw [he]
    cases exploreEdge u st e with
    | error x => rfl
    | ok st1 => exact ih st1

theorem bfsLoop_stripWeights (g : Graph) (t : Int) : ∀ (fuel : Nat) (st : BState),
    bfsLoop g.stripWeights t fuel st = bfsLoop g t fuel st := by
  intro fuel
  induction fuel with
  | zero =>
    intro st
    unfold bfsLoop
    rfl
  | succ k ih =>
    intro st
    unfold bfsLoop
    cases st.q with
    | nil => rfl
    | cons u rest =>
      simp only
      by_cases hu : u = t
      · simp only [if_pos hu]
      · simp only [if_neg hu]
        have hv := vget_map
          (fun nd : Node =>
            ({ nd with edges := nd.edges.map (fun e => { e with weight := Dbl.zero }) } : Node))
          g.nodes_list u
        change vget g.stripWeights.nodes_list u = _ at hv
        rw [hv]
        cases vget g.nodes_list u with
        | error x => rfl
        | ok nd =>
          simp only
          rw [exploreEdges_map_weight u (fun e => { e with weight := Dbl.zero })
            (fun _ => rfl) nd.edges]
          cases exploreEdges u { st with q := rest } nd.edges with
          | error x => rfl
          | ok st1 => exact ih st1

theorem BFS_stripWeights (g : Graph) (fuel : Nat) (s t : Int) :
    g.stripWeights.BFS fuel s t = g.BFS fuel s t := by
  unfold Graph.BFS
  have hn : g.stripWeights.numNodes = g.numNodes := rfl
  simp only [hn, bfsLoop_stripWeights]

theorem BFS_total_weight (g : Graph) (fuel : Nat) (s t : Int) (r : PathDetails)
    (hst : s ≠ t) (hs0 : 0 ≤ s) (hs1 : s < g.numNodes) (ht0 : 0 ≤ t) (ht1 : t < g.numNodes)
    (h : g.BFS fuel s t = .ok r) : r.total_weight = Dbl.DOUBLE_INF := by
  unfold Graph.BFS at h
  have hb : ¬ (s ≥ g.numNodes ∨ t ≥ g.numNodes ∨ s < 0 ∨ t < 0) := by omega
  simp only [if_neg hb, if_neg hst] at h
  cases hd : vset (List.replicate g.numNodes.toNat false) s true with
  | error f => simp [hd] at h
  | ok visited =>
    simp only [hd] at h
    cases hl : bfsLoop g t fuel
        { q := [s], visited := visited, prev := List.replicate g.numNodes.toNat (-1) } with
    | error f => simp [hl] at h
    | ok res =>
      obtain ⟨found, st⟩ := res
      simp only [hl] at h
      cases found with
      | false =>
        simp only [Bool.false_eq_true, if_false] at h
        injection h with h
        rw [← h]
      | true =>
        simp only [if_true] at h
        cases hw : walkBack st.prev fuel t [] with
        | error f => simp [hw] at h
        | ok path =>
          simp only [hw] at h
          injection h with h
          rw [← h]

/-- C24: after a successful `map_to_graph` by a freshly constructed `Map` into an empty
graph that yields at least one node, `getUniversityName` returns the name stored at
node 0 of the graph, which is the name of the last node record with id 0, or the empty
string when no record has id 0. -/
theorem university_name_is_node_zero (nodes_name edges_name : String) (m1 : Map) (g1 : Graph)
    (nodeRecords : List NodeRecord) (edgeRecords : List EdgeRecord)
    (h : Map.map_to_graph (Map.create nodes_name edges_name) {} (some nodeRecords)
      (some edgeRecords) = .ok (true, m1, g1))
    (hn : 0 < g1.numNodes) :
    ∃ nd, vget g1.nodes_list 0 = .ok nd ∧ m1.getUniversityName = nd.name ∧
      nd.name = lastName nodeRecords 0 := by
  obtain ⟨_, _, htab⟩ := map_to_graph_table _ m1 g1 nodeRecords edgeRecords h
  obtain ⟨nd, hnd, _, hname⟩ := htab 0 (le_refl 0) hn
  refine ⟨nd, hnd, ?_, hname⟩
  rw [hname]
  exact map_to_graph_university _ m1 g1 nodeRecords edgeRecords h

theorem university_name_is_node_zero_witness :
    Map.map_to_graph (Map.create "nodes.txt" "edges.txt") {}
        (some [(0, "Campus"), (1, "Home"), (0, "Library")]) (some [(0, 1, 5)]) =
      .ok (true, { nodes_filename := "nodes.txt", edges_filename := "edges.txt",
                   university_name := "Library" },
           { nodes_list := [{ id := 0, name := "Library", edges := [⟨1, Dbl.fin 5⟩] },
                            { id := 1, name := "Home", edges := [⟨0, Dbl.fin 5⟩] }],
             numNodes := 2 }) ∧
    ∃ nd, vget [({ id := 0, name := "Library", edges := [⟨1, Dbl.fin 5⟩] } : Node),
                { id := 1, name := "Home", edges := [⟨0, Dbl.fin 5⟩] }] 0 = .ok nd ∧
      Map.getUniversityName { nodes_filename := "nodes.txt", edges_filename := "edges.txt",
                              university_name := "Library" } = nd.name ∧
      nd.name = lastName [(0, "Campus"), (1, "Home"), (0, "Library")] 0 :=
  ⟨by decide!, university_name_is_node_zero "nodes.txt" "edges.txt" _
    { nodes_list := [{ id := 0, name := "Library", edges := [⟨1, Dbl.fin 5⟩] },
                     { id := 1, name := "Home", edges := [⟨0, Dbl.fin 5⟩] }],
      numNodes := 2 }
    [(0, "Campus"), (1, "Home"), (0, "Library")] [(0, 1, 5)] (by decide!) (by decide)⟩

/-- C23: for two graphs with the same nodes and the same adjacency destinations in the
same order but any weights, `BFS` gives the same outcome on both for every fuel and
every `(start, end)`; for valid `start != end` every value that `BFS` returns has
`total_weight` left at `DOUBLE_INF`; and when the table invariant holds and the
adjacency entries are in range, `BFS` does return, the same value on both graphs. -/
theorem BFS_ignores_weights (g1 g2 : Graph) (h : SameShape g1 g2) :
    (∀ fuel s t, g1.BFS fuel s t = g2.BFS fuel s t) ∧
    (∀ fuel s t r, s ≠ t → 0 ≤ s → s < g1.numNodes → 0 ≤ t → t < g1.numNodes →
      g1.BFS fuel s t = .ok r → r.total_weight = Dbl.DOUBLE_INF) ∧
    (g1.SizeOk → g1.InRange → ∀ s t, s ≠ t → 0 ≤ s → s < g1.numNodes → 0 ≤ t →
      t < g1.numNodes →
      ∃ r, Returns (fun fuel => g1.BFS fuel s t) r ∧ Returns (fun fuel => g2.BFS fuel s t) r ∧
        r.total_weight = Dbl.DOUBLE_INF) := by
  have heq : ∀ fuel s t, g1.BFS fuel s t = g2.BFS fuel s t := by
    intro fuel s t
    unfold SameShape at h
    rw [← BFS_stripWeights g1, ← BFS_stripWeights g2, h]
  refine ⟨heq, ?_, ?_⟩
  · intro fuel s t r hst hs0 hs1 ht0 ht1 hrun
    exact BFS_total_weight g1 fuel s t r hst hs0 hs1 ht0 ht1 hrun
  · intro hs hr s t hst hs0 hs1 ht0 ht1
    obtain ⟨r, hret, hw, _⟩ := BFS_spec g1 s t hs hr hs0 hs1 ht0 ht1 hst
    refine ⟨r, hret, ?_, hw⟩
    obtain ⟨fuel0, h0⟩ := hret
    exact ⟨fuel0, fun fuel hle => (heq fuel s t).symm.trans (h0 fuel hle)⟩

theorem BFS_ignores_weights_witness :
    (∀ fuel s t, scenarioGraph.BFS fuel s t = scenarioGraphReweighted.BFS fuel s t) ∧
    (∀ fuel s t r, s ≠ t → 0 ≤ s → s < scenarioGraph.numNodes → 0 ≤ t →
      t < scenarioGraph.numNodes →
      scenarioGraph.BFS fuel s t = .ok r → r.total_weight = Dbl.DOUBLE_INF) ∧
    (scenarioGraph.SizeOk → scenarioGraph.InRange → ∀ s t, s ≠ t → 0 ≤ s →
      s < scenarioGraph.numNodes → 0 ≤ t → t < scenarioGraph.numNodes →
      ∃ r, Returns (fun fuel => scenarioGraph.BFS fuel s t) r ∧
        Returns (fun fuel => scenarioGraphReweighted.BFS fuel s t) r ∧
        r.total_weight = Dbl.DOUBLE_INF) :=
  BFS_ignores_weights scenarioGraph scenarioGraphReweighted (by unfold SameShape; decide!)

/-! ## Store invariant -/

theorem mem_vget {α : Type} (v : List α) (a : α) (h : a ∈ v) : ∃ j, vget v j = .ok a := by
  obtain ⟨n, hn⟩ := List.mem_iff_getElem?.mp h
  refine ⟨(n : Int), ?_⟩
  rw [vget_eq_ok]
  exact ⟨Int.ofNat_nonneg n, by simpa using hn⟩

theorem flatMap_cast : ∀ l : List Nat,
    (l.flatMap fun a => [(a : Int)]) = l.map (fun a : Nat => (a : Int)) := by
  intro l
  induction l with
  | nil => rfl
  | cons x xs ih => rw [List.flatMap_cons, ih]; rfl

theorem mk_n_nodes (n : Nat) :
    (Graph.mk_n n).nodes_list =
      (List.range n).map (fun i : Nat => ({ id := (i : Int) } : Node)) := by
  unfold Graph.mk_n
  show List.map _ ((List.range n).flatMap fun a => [(a : Int)]) = _
  rw [flatMap_cast, List.map_map]
  rfl

theorem mk_n_ids (n : Nat) : (Graph.mk_n n).SizeOk ∧ (Graph.mk_n n).IdsOk := by
  constructor
  · unfold Graph.SizeOk
    rw [mk_n_nodes]
    simp [Graph.mk_n]
  · intro j nd h
    rw [mk_n_nodes, vget_map] at h
    cases hv : vget (List.range n) j with
    | error f => rw [hv] at h; simp at h
    | ok a =>
      rw [hv] at h
      simp only at h
      injection h with h
      rw [← h]
      rw [vget_eq_ok] at hv
      obtain ⟨h0, hget⟩ := hv
      rw [List.getElem?_eq_some] at hget
      obtain ⟨hlt, hget⟩ := hget
      rw [List.getElem_range] at hget
      show (a : Int) = j
      omega

theorem addNode_ids (g g1 : Graph) (id : Int) (name : String) (hs : g.SizeOk) (hi : g.IdsOk)
    (h0 : 0 ≤ id) (h : g.addNode id name = .ok g1) : g1.SizeOk ∧ g1.IdsOk := by
  obtain ⟨g2, hadd, hs2, hn2, hid, hold, hgap⟩ := addNode_get g id name hs h0
  rw [h] at hadd
  injection hadd with hadd
  subst hadd
  refine ⟨hs2, ?_⟩
  intro j nd hj
  by_cases hjid : j = id
  · subst hjid
    rw [hid] at hj
    injection hj with hj
    rw [← hj]
  · by_cases hjn : j < g.numNodes
    · rw [hold j hjid hjn] at hj
      exact hi j nd hj
    · have hr := vget_inRange _ _ _ hj
      unfold Graph.SizeOk at hs2
      have hlt : j < id := by omega
      rw [hgap j (by omega) hlt] at hj
      injection hj with hj
      rw [← hj]

theorem addEdge_ids (g g1 : Graph) (s d : Int) (w : Dbl) (hs : g.SizeOk) (hi : g.IdsOk)
    (h : g.addEdge s d w = .ok g1) : g1.SizeOk ∧ g1.IdsOk := by
  obtain ⟨hn, hlen, hnames⟩ := addEdge_names g g1 s d w h
  constructor
  · unfold Graph.SizeOk at hs ⊢
    rw [hn, hlen]
    exact hs
  · intro j nd hj
    obtain ⟨nd0, hnd0, hid, _⟩ := hnames j nd hj
    rw [hid]
    exact hi j nd0 hnd0

theorem load_ids (m m1 : Map) (g1 : Graph) (nodeRecords : List NodeRecord)
    (edgeRecords : List EdgeRecord)
    (h : Map.map_to_graph m {} (some nodeRecords) (some edgeRecords) = .ok (true, m1, g1)) :
    g1.SizeOk ∧ g1.IdsOk := by
  obtain ⟨_, hlen, htab⟩ := map_to_graph_table m m1 g1 nodeRecords edgeRecords h
  refine ⟨hlen.symm, ?_⟩
  intro j nd hj
  have hr := vget_inRange _ _ _ hj
  obtain ⟨nd1, hnd1, hid, _⟩ := htab j hr.1 (by omega)
  rw [hnd1] at hj
  injection hj with hj
  rw [← hj]
  exact hid

theorem storeReach_ids (g : Graph) (h : StoreReach g) : g.SizeOk ∧ g.IdsOk := by
  induction h with
  | empty =>
    constructor
    · unfold Graph.SizeOk
      rfl
    · intro j nd hj
      have hr := vget_inRange _ _ _ hj
      simp at hr
      omega
  | sized n => exact mk_n_ids n
  | addNode g g1 id name _ h0 hadd ih => exact addNode_ids g g1 id name ih.1 ih.2 h0 hadd
  | addEdge g g1 s d w _ _ _ _ _ hadd ih => exact addEdge_ids g g1 s d w ih.1 ih.2 hadd
  | load g g1 m m1 nodeRecords edgeRecords _ hg hload _ =>
    subst hg
    exact load_ids m m1 g1 nodeRecords edgeRecords hload

/-- C21: in every graph reachable from the empty graph or from `Graph(n)` by `addNode`
calls with `id >= 0`, in-range `addEdge` calls and successful `map_to_graph` loads into
an empty graph, `numNodes` is the length of the node table, every node's id is its
position in the table, so no two slots hold the same id, and `numNodes` is the largest
node id of the table plus 1. -/
theorem store_invariant (g : Graph) (h : StoreReach g) :
    g.numNodes = (g.nodes_list.length : Int) ∧
    (∀ j nd, vget g.nodes_list j = .ok nd → nd.id = j) ∧
    (∀ i j ndi ndj, vget g.nodes_list i = .ok ndi → vget g.nodes_list j = .ok ndj →
      ndi.id = ndj.id → i = j) ∧
    (∀ nd ∈ g.nodes_list, nd.id + 1 ≤ g.numNodes) ∧
    (0 < g.numNodes → ∃ nd ∈ g.nodes_list, nd.id + 1 = g.numNodes) := by
  obtain ⟨hs, hi⟩ := storeReach_ids g h
  have hs1 : g.numNodes = (g.nodes_list.length : Int) := hs
  refine ⟨hs, hi, ?_, ?_, ?_⟩
  · intro i j ndi ndj hgi hgj hid
    rw [hi i ndi hgi, hi j ndj hgj] at hid
    exact hid
  · intro nd hnd
    obtain ⟨j, hj⟩ := mem_vget _ nd hnd
    have hr := vget_inRange _ _ _ hj
    rw [hi j nd hj]
    omega
  · intro hpos
    obtain ⟨nd, hnd⟩ := vget_exists g.nodes_list (g.numNodes - 1) (by omega) (by omega)
    refine ⟨nd, vget_mem _ _ _ hnd, ?_⟩
    rw [hi _ nd hnd]
    omega

theorem store_invariant_witness :
    storeExample.numNodes = (storeExample.nodes_list.length : Int) ∧
    (∀ j nd, vget storeExample.nodes_list j = .ok nd → nd.id = j) ∧
    (∀ i j ndi ndj, vget storeExample.nodes_list i = .ok ndi →
      vget storeExample.nodes_list j = .ok ndj → ndi.id = ndj.id → i = j) ∧
    (∀ nd ∈ storeExample.nodes_list, nd.id + 1 ≤ storeExample.numNodes) ∧
    (0 < storeExample.numNodes →
      ∃ nd ∈ storeExample.nodes_list, nd.id + 1 = storeExample.numNodes) :=
  store_invariant storeExample
    (StoreReach.addEdge
      { nodes_list := [{ id := 0 }, { id := 1 }, { id := 2, name := "Depot" }], numNodes := 3 }
      storeExample 0 2 (Dbl.fin 3)
      (StoreReach.addNode {} _ 2 "Depot" StoreReach.empty (by decide) (by decide!))
      (by decide) (by decide) (by decide) (by decide) (by decide!))

/-! ## Adjacency lists under the store operations -/

theorem adj_of_get (g : Graph) (u : Int) (nd : Node) (h : vget g.nodes_list u = .ok nd) :
    g.adj u = nd.edges := by
  unfold Graph.adj
  rw [h]

theorem adj_out (g : Graph) (u : Int) (h : ¬ (0 ≤ u ∧ u < g.nodes_list.length)) :
    g.adj u = [] := by
  unfold Graph.adj
  cases hv : vget g.nodes_list u with
  | error f => rfl
  | ok nd => exact absurd (vget_inRange _ _ _ hv) h

theorem addEdge_adj (g g1 : Graph) (s d : Int) (w : Dbl) (h : g.addEdge s d w = .ok g1) :
    g1.numNodes = g.numNodes ∧
    ∀ x, g1.adj x = g.adj x ++ (if x = s then [⟨d, w⟩] else []) ++
      (if x = d then [⟨s, w⟩] else []) := by
  unfold Graph.addEdge at h
  cases hsrc : vget g.nodes_list s with
  | error f => simp [hsrc] at h
  | ok src =>
    simp only [hsrc] at h
    cases hv1 : vset g.nodes_list s { src with edges := src.edges ++ [⟨d, w⟩] } with
    | error f => simp [hv1] at h
    | ok v1 =>
      simp only [hv1] at h
      cases hdst : vget v1 d with
      | error f => simp [hdst] at h
      | ok dst =>
        simp only [hdst] at h
        cases hv2 : vset v1 d { dst with edges := dst.edges ++ [⟨s, w⟩] } with
        | error f => simp [hv2] at h
        | ok v2 =>
          simp only [hv2] at h
          injection h with h
          subst h
          refine ⟨rfl, ?_⟩
          intro x
          by_cases hxd : x = d
          · subst hxd
            have hget := vget_vset_same _ _ _ _ hv2
            rw [adj_of_get _ x _ hget]
            by_cases hxs : x = s
            · subst hxs
              rw [vget_vset_same _ _ _ _ hv1] at hdst
              injection hdst with hdst
              rw [← hdst, adj_of_get g x src hsrc]
              simp
            · rw [vget_vset_ne _ _ _ _ _ hv1 hxs] at hdst
              rw [adj_of_get g x dst hdst]
              simp [hxs]
          · have hget : vget v2 x = vget v1 x := vget_vset_ne _ _ _ _ _ hv2 hxd
            by_cases hxs : x = s
            · subst hxs
              rw [vget_vset_same _ _ _ _ hv1] at hget
              rw [adj_of_get _ x _ hget, adj_of_get g x src hsrc]
              simp [hxd]
            · rw [vget_vset_ne _ _ _ _ _ hv1 hxs] at hget
              have hadj : Graph.adj { g with nodes_list := v2 } x = g.adj x := by
                unfold Graph.adj
                rw [hget]
              rw [hadj]
              simp [hxd, hxs]

theorem addNode_new_adj (g g1 : Graph) (name : String) (hs : g.SizeOk)
    (h0 : 0 ≤ g.numNodes) (h : g.addNode g.numNodes name = .ok g1) :
    g1.SizeOk ∧ g1.numNodes = g.numNodes + 1 ∧ ∀ x, g1.adj x = g.adj x := by
  obtain ⟨g2, hadd, hs2, hn2, hid, hold, _⟩ := addNode_get g g.numNodes name hs h0
  rw [h] at hadd
  injection hadd with hadd
  subst hadd
  have hn : g1.numNodes = g.numNodes + 1 := by rw [hn2]; omega
  refine ⟨hs2, hn, ?_⟩
  intro x
  unfold Graph.SizeOk at hs hs2
  by_cases hx : 0 ≤ x ∧ x < g.numNodes
  · unfold Graph.adj
    rw [hold x (by omega) hx.2]
  · rw [adj_out g x (by omega)]
    by_cases hxn : x = g.numNodes
    · subst hxn
      rw [adj_of_get g1 _ _ hid]
    · exact adj_out g1 x (by omega)

/-! ## Session invariant -/

theorem count_single (c : Prop) [Decidable c] (a b : Edge) :
    List.count a (if c then [b] else []) = if c ∧ b = a then 1 else 0 := by
  by_cases hc : c
  · by_cases hb : b = a
    · simp [hc, hb]
    · simp [hc, hb, List.count_cons]
  · simp [hc]

theorem tab_sessionOk (g : Graph) (nm : Int → String) (ht : g.Tab nm) : g.SessionOk := by
  have hadj : ∀ x, g.adj x = [] := by
    intro x
    by_cases hx : 0 ≤ x ∧ x < g.nodes_list.length
    · have hs : g.numNodes = (g.nodes_list.length : Int) := ht.1
      rw [adj_of_get g x _ (ht.2 x hx.1 (by omega))]
    · exact adj_out g x hx
  refine ⟨ht.1, ?_, ?_, ?_⟩
  · intro x e he
    rw [hadj x] at he
    simp at he
  · intro x e he
    rw [hadj x] at he
    simp at he
  · intro u v w
    rw [hadj u, hadj v]
    rfl

theorem addEdge_sessionOk (g g1 : Graph) (s d : Int) (w : Dbl) (hok : g.SessionOk)
    (hs0 : 0 ≤ s) (hs1 : s < g.numNodes) (hd0 : 0 ≤ d) (hd1 : d < g.numNodes)
    (hw : w.lt Dbl.zero = false) (h : g.addEdge s d w = .ok g1) : g1.SessionOk := by
  obtain ⟨hsz, hin, hnn, hsym⟩ := hok
  obtain ⟨g2, hadd, hsz2, _⟩ := addEdge_ok g s d w hsz hs0 hs1 hd0 hd1
  rw [h] at hadd
  injection hadd with hadd
  subst hadd
  obtain ⟨hn, hadj⟩ := addEdge_adj g g1 s d w h
  have hmem : ∀ x e, e ∈ g1.adj x →
      e ∈ g.adj x ∨ e = ⟨d, w⟩ ∨ e = ⟨s, w⟩ := by
    intro x e he
    rw [hadj x, List.mem_append, List.mem_append] at he
    rcases he with (he | he) | he
    · exact Or.inl he
    · by_cases hx : x = s
      · simp [hx] at he
        exact Or.inr (Or.inl he)
      · simp [hx] at he
    · by_cases hx : x = d
      · simp [hx] at he
        exact Or.inr (Or.inr he)
      · simp [hx] at he
  refine ⟨hsz2, ?_, ?_, ?_⟩
  · intro x e he
    rw [hn]
    rcases hmem x e he with he | he | he
    · exact hin x e he
    · rw [he]; exact ⟨hd0, hd1⟩
    · rw [he]; exact ⟨hs0, hs1⟩
  · intro x e he
    rcases hmem x e he with he | he | he
    · exact hnn x e he
    · rw [he]; exact hw
    · rw [he]; exact hw
  · intro u v w1
    rw [hadj u, hadj v]
    simp only [List.count_append, count_single, Edge.mk.injEq]
    rw [hsym u v w1]
    have e1 : (u = s ∧ d = v ∧ w = w1) ↔ (v = d ∧ s = u ∧ w = w1) := by
      constructor
      · rintro ⟨a, b, c⟩
        exact ⟨b.symm, a.symm, c⟩
      · rintro ⟨a, b, c⟩
        exact ⟨b.symm, a.symm, c⟩
    have e2 : (u = d ∧ s = v ∧ w = w1) ↔ (v = s ∧ d = u ∧ w = w1) := by
      constructor
      · rintro ⟨a, b, c⟩
        exact ⟨b.symm, a.symm, c⟩
      · rintro ⟨a, b, c⟩
        exact ⟨b.symm, a.symm, c⟩
    simp only [e1, e2]
    ac_rfl

theorem loadEdges_sessionOk : ∀ (recs : List EdgeRecord) (g g1 : Graph) (b : Bool),
    g.SessionOk → Map.loadEdges g recs = .ok (b, g1) → g1.SessionOk := by
  intro recs
  induction recs with
  | nil =>
    intro g g1 b hok h
    unfold Map.loadEdges at h
    injection h with h
    injection h with _ h
    rw [← h]
    exact hok
  | cons r rest ih =>
    intro g g1 b hok h
    obtain ⟨s, d, w⟩ := r
    unfold Map.loadEdges at h
    by_cases hbad : s < 0 ∨ s ≥ g.getNumNodes ∨ d < 0 ∨ d ≥ g.getNumNodes ∨ w < 0
    · simp only [if_pos hbad] at h
      injection h with h
      injection h with _ h
      rw [← h]
      exact hok
    · simp only [if_neg hbad] at h
      unfold Graph.getNumNodes at hbad
      have hw : (Dbl.fin w).lt Dbl.zero = false := by
        simp only [Dbl.lt, Dbl.zero, decide_eq_false_iff_not]
        intro hc
        exact hbad (Or.inr (Or.inr (Or.inr (Or.inr hc))))
      cases hadd : g.addEdge s d (Dbl.fin w) with
      | error f => simp [hadd] at h
      | ok g2 =>
        simp only [hadd] at h
        exact ih g2 g1 b
          (addEdge_sessionOk g g2 s d (Dbl.fin w) hok (by omega) (by omega) (by omega)
            (by omega) hw hadd) h

/-! ## Accepted additions -/

theorem index_inRange (g : Graph) (name : String) (r : Int) (hs : g.SizeOk)
    (h : g.getNodeIndexByname name = .ok r) (hr : r ≠ -1) : 0 ≤ r ∧ r < g.numNodes := by
  obtain ⟨r1, hrun, hcase⟩ := getNodeIndexByname_spec g name hs
  rw [h] at hrun
  injection hrun with hrun
  subst hrun
  rcases hcase with ⟨h1, _⟩ | ⟨h0, h1, _⟩
  · exact absurd h1 hr
  · exact ⟨h0, h1⟩

theorem location_added (g g1 : Graph) (file file1 : Option (List Char)) (name : String)
    (id : Int)
    (h : handleAddData_location g file name = .ok (.locationAdded id, g1, file1)) :
    g.addNode g.numNodes name = .ok g1 := by
  unfold handleAddData_location at h
  by_cases hn : name = ""
  · simp [hn] at h
  · simp only [if_neg hn] at h
    cases hf : g.getNodeIndexByname name with
    | error f => simp [hf] at h
    | ok found =>
      simp only [hf] at h
      by_cases hfound : found ≠ -1
      · simp [hfound] at h
      · simp only [if_neg hfound, Graph.getNumNodes] at h
        cases hadd : g.addNode g.numNodes name with
        | error f => simp [hadd] at h
        | ok g2 =>
          simp only [hadd] at h
          cases hget : g2.getNode g.numNodes with
          | error f => simp [hget] at h
          | ok node =>
            simp only [hget] at h
            injection h with h
            injection h with _ h
            injection h with h _
            rw [h]

theorem gui_route_added (g g1 : Graph) (source_name dest_name : String) (w : Dbl) (s d : Int)
    (hs : g.SizeOk)
    (h : handleAddDataGUI_route g source_name dest_name w = .ok (.routeAdded s d, g1)) :
    (0 ≤ s ∧ s < g.numNodes) ∧ (0 ≤ d ∧ d < g.numNodes) ∧ s ≠ d ∧
      w.lt Dbl.zero = false ∧ g.addEdge s d w = .ok g1 := by
  unfold handleAddDataGUI_route at h
  cases hsrc : g.getNodeIndexByname source_name with
  | error f => simp [hsrc] at h
  | ok si =>
    simp only [hsrc] at h
    by_cases hs1 : si = -1
    · simp [hs1] at h
    · simp only [if_neg hs1] at h
      cases hdst : g.getNodeIndexByname dest_name with
      | error f => simp [hdst] at h
      | ok di =>
        simp only [hdst] at h
        by_cases hd1 : di = -1
        · simp [hd1] at h
        · simp only [if_neg hd1] at h
          by_cases hsd : si = di
          · simp [hsd] at h
          · simp only [if_neg hsd] at h
            cases hlt : w.lt Dbl.zero with
            | true => simp [hlt] at h
            | false =>
              simp only [hlt, Bool.false_eq_true, if_false] at h
              cases hadd : g.addEdge si di w with
              | error f => simp [hadd] at h
              | ok g2 =>
                simp only [hadd] at h
                injection h with h
                injection h with hst hg
                injection hst with h1 h2
                subst h1 h2 hg
                exact ⟨index_inRange g _ _ hs hsrc hs1, index_inRange g _ _ hs hdst hd1, hsd,
                  rfl, hadd⟩

theorem readWeight_mem : ∀ (inputs : List (Option Dbl)) (w : Dbl),
    readWeight inputs = .ok w → some w ∈ inputs := by
  intro inputs
  induction inputs with
  | nil =>
    intro w h
    unfold readWeight at h
    cases h
  | cons x rest ih =>
    intro w h
    cases x with
    | none =>
      unfold readWeight at h
      exact List.mem_cons_of_mem _ (ih w h)
    | some v =>
      unfold readWeight at h
      by_cases hlt : v.lt Dbl.zero = true
      · simp only [hlt, if_true] at h
        exact List.mem_cons_of_mem _ (ih w h)
      · simp only [hlt, if_false] at h
        injection h with h
        rw [h]
        exact List.mem_cons_self _ _

theorem console_route_added (g g1 : Graph) (source_name dest_name : String)
    (weightInputs : List (Option Dbl)) (s d : Int) (hs : g.SizeOk)
    (h : handleAddData_route g source_name dest_name weightInputs = .ok (.routeAdded s d, g1)) :
    ∃ w, some w ∈ weightInputs ∧ (0 ≤ s ∧ s < g.numNodes) ∧ (0 ≤ d ∧ d < g.numNodes) ∧ s ≠ d ∧
      w.lt Dbl.zero = false ∧ g.addEdge s d w = .ok g1 := by
  unfold handleAddData_route at h
  cases hsrc : g.getNodeIndexByname source_name with
  | error f => simp [hsrc] at h
  | ok si =>
    simp only [hsrc] at h
    by_cases hs1 : si = -1
    · simp [hs1] at h
    · simp only [if_neg hs1] at h
      cases hdst : g.getNodeIndexByname dest_name with
      | error f => simp [hdst] at h
      | ok di =>
        simp only [hdst] at h
        by_cases hd1 : di = -1
        · simp [hd1] at h
        · simp only [if_neg hd1] at h
          by_cases hsd : si = di
          · simp [hsd] at h
          · simp only [if_neg hsd] at h
            cases hread : readWeight weightInputs with
            | error f => simp [hread] at h
            | ok w =>
              simp only [hread] at h
              cases hadd : g.addEdge si di w with
              | error f => simp [hadd] at h
              | ok g2 =>
                simp only [hadd] at h
                injection h with h
                injection h with hst hg
                injection hst with h1 h2
                subst h1 h2 hg
                exact ⟨w, readWeight_mem _ w hread, index_inRange g _ _ hs hsrc hs1,
                  index_inRange g _ _ hs hdst hd1, hsd, readWeight_nonneg _ w hread, hadd⟩

theorem load_sessionOk (m m1 : Map) (g1 : Graph) (nodeRecords : List NodeRecord)
    (edgeRecords : List EdgeRecord)
    (h : Map.map_to_graph m {} (some nodeRecords) (some edgeRecords) = .ok (true, m1, g1)) :
    g1.SessionOk := by
  obtain ⟨b, m2, g2, mx, hload, _, _⟩ :=
    loadNodes_spec nodeRecords m {} (-1) (by unfold Graph.SizeOk; rfl) (by rfl)
  cases b with
  | false =>
    unfold Map.map_to_graph at h
    simp [hload] at h
  | true =>
    obtain ⟨htab, _, heq⟩ :=
      map_to_graph_after_nodes m m2 g2 mx nodeRecords (some edgeRecords) hload
    rw [heq] at h
    simp only at h
    cases hedges : Map.loadEdges g2 edgeRecords with
    | error f => simp [hedges] at h
    | ok res =>
      obtain ⟨ok, g3⟩ := res
      simp only [hedges] at h
      injection h with h
      injection h with _ h
      injection h with _ h
      subst h
      exact loadEdges_sessionOk edgeRecords g2 g3 ok (tab_sessionOk g2 _ htab) hedges

theorem session_sessionOk (g : Graph) (h : Session g) : g.SessionOk := by
  induction h with
  | load m m1 g nodeRecords edgeRecords hload =>
    exact load_sessionOk m m1 g nodeRecords edgeRecords hload
  | addLocation g g1 file file1 name id _ hadd ih =>
    obtain ⟨hsz, hin, hnn, hsym⟩ := ih
    have h0 : 0 ≤ g.numNodes := by
      unfold Graph.SizeOk at hsz
      omega
    obtain ⟨hsz1, hn1, hadj⟩ :=
      addNode_new_adj g g1 name hsz h0 (location_added g g1 file file1 name id hadd)
    refine ⟨hsz1, ?_, ?_, ?_⟩
    · intro x e he
      rw [hadj x] at he
      have := hin x e he
      omega
    · intro x e he
      rw [hadj x] at he
      exact hnn x e he
    · intro u v w
      rw [hadj u, hadj v]
      exact hsym u v w
  | addRouteGUI g g1 sn dn w s d _ hadd ih =>
    obtain ⟨hs, hd, _, hlt, hedge⟩ := gui_route_added g g1 sn dn w s d ih.1 hadd
    exact addEdge_sessionOk g g1 s d w ih hs.1 hs.2 hd.1 hd.2 hlt hedge
  | addRouteConsole g g1 sn dn inputs s d _ hadd ih =>
    obtain ⟨w, _, hs, hd, _, hlt, hedge⟩ :=
      console_route_added g g1 sn dn inputs s d ih.1 hadd
    exact addEdge_sessionOk g g1 s d w ih hs.1 hs.2 hd.1 hd.2 hlt hedge

/-- C22: in every graph produced by a successful `map_to_graph` into an empty graph
followed by accepted add-location and add-route operations, the adjacency structure is
symmetric with identical weights: for all ids `u`, `v` and weights `w`, the adjacency
list of `u` holds the entry `{v, w}` as many times as the list of `v` holds `{u, w}`
(a list outside the table counting as empty), in particular for all nodes `u`, `v` of
the table. -/
theorem session_symmetric (g : Graph) (h : Session g) :
    (∀ (u v : Int) (w : Dbl), (g.adj u).count ⟨v, w⟩ = (g.adj v).count ⟨u, w⟩) ∧
    ∀ (u v : Int) (w : Dbl) (ndu ndv : Node), vget g.nodes_list u = .ok ndu →
      vget g.nodes_list v = .ok ndv → ndu.edges.count ⟨v, w⟩ = ndv.edges.count ⟨u, w⟩ := by
  obtain ⟨_, _, _, hsym⟩ := session_sessionOk g h
  refine ⟨hsym, ?_⟩
  intro u v w ndu ndv hu hv
  have := hsym u v w
  rw [adj_of_get g u ndu hu, adj_of_get g v ndv hv] at this
  exact this

theorem session_symmetric_witness :
    (∀ (u v : Int) (w : Dbl),
      (sessionExample.adj u).count ⟨v, w⟩ = (sessionExample.adj v).count ⟨u, w⟩) ∧
    ∀ (u v : Int) (w : Dbl) (ndu ndv : Node), vget sessionExample.nodes_list u = .ok ndu →
      vget sessionExample.nodes_list v = .ok ndv →
      ndu.edges.count ⟨v, w⟩ = ndv.edges.count ⟨u, w⟩ :=
  session_symmetric sessionExample
    (Session.addRouteGUI sessionLocated sessionExample "Home" "Library" (Dbl.fin (5 / 2)) 1 2
      (Session.addLocation scenarioGraph sessionLocated none none "Library" 2
        (Session.load (Map.create "nodes.txt" "edges.txt")
          { nodes_filename := "nodes.txt", edges_filename := "edges.txt",
            university_name := "Campus" }
          scenarioGraph [(0, "Campus"), (1, "Home")] [(0, 1, 5)] (by decide!))
        (by decide!))
      (by decide!))

end CommuteOptimizer
